import Mathlib

/-!
# Latry audio core: jitter buffer, receive path and resampler

A shallow embedding of `AudioJitterBuffer` (both platform variants),
`AudioEngine::processReceivedAudio` and `Resampler`, with the properties
of the audio core proved over it.

Conventions of the embedding:
* C++ `unsigned` is a `Nat` with every addition and subtraction reduced
  modulo `2^32`; `quint16` is a `Nat` reduced modulo `2^16`.
* A `(pointer, count)` pair handed to a function is a `List`.
* A `float` sample is an element of an arbitrary type with a zero
  (the jitter buffer only moves samples), or a rational number where the
  code computes with samples (exact arithmetic).
-/

namespace Latry

/-! ## Machine arithmetic -/

/-- Modulus of C++ `unsigned` (32 bit) arithmetic. -/
def U32 : Nat := 4294967296

/-- Modulus of `quint16` arithmetic. -/
def U16 : Nat := 65536

/-- Addition of two `unsigned` values. -/
def uadd (a b : Nat) : Nat := (a + b) % U32

/-- Subtraction of two `unsigned` values (`a - b` wraps below zero). -/
def usub (a b : Nat) : Nat := (a + U32 - b % U32) % U32

/-! ## AudioJitterBuffer -/

/-- Fields of `class AudioJitterBuffer` (AudioJitterBuffer.h). -/
structure AudioJitterBuffer (α : Type) where
  m_fifo : List α
  m_fifoSize : Nat
  m_head : Nat
  m_tail : Nat
  m_prebufSamples : Nat
  m_prebuf : Bool

namespace AudioJitterBuffer

variable {α : Type} [Zero α]

/-- Constructor `AudioJitterBuffer(unsigned fifoSize)`: a zero-filled FIFO,
the other members at their in-class initialisers. -/
def new (fifoSize : Nat) : AudioJitterBuffer α :=
  { m_fifo := List.replicate fifoSize 0
    m_fifoSize := fifoSize
    m_head := 0
    m_tail := 0
    m_prebufSamples := 0
    m_prebuf := true }

/-- Member `empty()`. -/
def empty (b : AudioJitterBuffer α) : Bool := decide (b.m_head = b.m_tail)

/-- Member `prebufSamples()`. -/
def prebufSamples (b : AudioJitterBuffer α) : Nat := b.m_prebufSamples

/-- Member `samplesInBuffer()`: `(m_head + m_fifoSize - m_tail) % m_fifoSize`
in `unsigned` arithmetic. -/
def samplesInBuffer (b : AudioJitterBuffer α) : Nat :=
  usub (uadd b.m_head b.m_fifoSize) b.m_tail % b.m_fifoSize

/-- Member `clear()`. -/
def clear (b : AudioJitterBuffer α) : AudioJitterBuffer α :=
  { b with m_head := 0, m_tail := 0, m_prebuf := decide (b.m_prebufSamples > 0) }

/-- Member `setSize(unsigned newSize)`. -/
def setSize (b : AudioJitterBuffer α) (newSize : Nat) : AudioJitterBuffer α :=
  let sz := if newSize ≠ 0 then newSize else 1
  clear { b with m_fifoSize := sz, m_fifo := List.replicate sz 0 }

/-- Member `setPrebufSamples(unsigned prebufSamples)`. -/
def setPrebufSamples (b : AudioJitterBuffer α) (prebufSamples : Nat) :
    AudioJitterBuffer α :=
  let p := min prebufSamples (usub b.m_fifoSize 1)
  let b1 := { b with m_prebufSamples := p }
  if empty b1 then { b1 with m_prebuf := decide (p > 0) } else b1

end AudioJitterBuffer

/-! ### Plain-index variant (src/android/AudioJitterBuffer.cpp) -/

namespace Android

variable {α : Type} [Zero α]

/-- One iteration of the loop of `writeSamples`: store the sample at
`m_head`, advance `m_head`, and on collision with `m_tail` advance `m_tail`
by `m_fifoSize >> 1`. -/
def writeOne (b : AudioJitterBuffer α) (s : α) : AudioJitterBuffer α :=
  let fifo := b.m_fifo.set b.m_head s
  let head := uadd b.m_head 1 % b.m_fifoSize
  if head = b.m_tail then
    { b with m_fifo := fifo, m_head := head,
             m_tail := uadd b.m_tail (b.m_fifoSize >>> 1) % b.m_fifoSize }
  else
    { b with m_fifo := fifo, m_head := head }

/-- Member `writeSamples(samples, count)`; the list is `samples[0..count)`,
and a `count <= 0` is the empty list. -/
def writeSamples (b : AudioJitterBuffer α) (samples : List α) : AudioJitterBuffer α :=
  samples.foldl writeOne b

/-- The `while (i < count && avail > 0)` loop of `readSamples`; the first
argument is `count - i`, the result the new state and the samples stored to
`output[i..)`. -/
def readLoop (b : AudioJitterBuffer α) : Nat → Nat → AudioJitterBuffer α × List α
  | 0, _ => (b, [])
  | k + 1, avail =>
    if avail > 0 then
      let r := readLoop { b with m_tail := uadd b.m_tail 1 % b.m_fifoSize } k (avail - 1)
      (r.1, b.m_fifo.getD b.m_tail 0 :: r.2)
    else (b, [])

/-- Member `readSamples(output, count)`: the new state and the contents of
`output[0..count)` after the call (nothing is stored when `count <= 0`). -/
def readSamples (b : AudioJitterBuffer α) (count : Int) : AudioJitterBuffer α × List α :=
  if count ≤ 0 then (b, [])
  else
    let avail := usub (uadd b.m_head b.m_fifoSize) b.m_tail % b.m_fifoSize
    let r := readLoop b count.toNat avail
    (r.1, r.2 ++ List.replicate (count.toNat - r.2.length) 0)

end Android

/-! ### Atomic-index variant (src/iOS/AudioJitterBuffer.cpp), run by one thread -/

namespace Ios

variable {α : Type} [Zero α]

/-- Member `samplesInBuffer()` (two atomic loads, then the same formula). -/
def samplesInBuffer (b : AudioJitterBuffer α) : Nat :=
  let head := b.m_head
  let tail := b.m_tail
  usub (uadd head b.m_fifoSize) tail % b.m_fifoSize

/-- Member `clear()` (two atomic stores). -/
def clear (b : AudioJitterBuffer α) : AudioJitterBuffer α :=
  { b with m_tail := 0, m_head := 0, m_prebuf := decide (b.m_prebufSamples > 0) }

/-- The loop of `writeSamples` over the locals `head` and `tail`; every
iteration publishes `head`, and `tail` when it moved. -/
def writeLoop (b : AudioJitterBuffer α) : List α → Nat → Nat → AudioJitterBuffer α
  | [], _, _ => b
  | s :: rest, head, tail =>
    let fifo := b.m_fifo.set head s
    let next := uadd head 1 % b.m_fifoSize
    if next = tail then
      let drop := b.m_fifoSize >>> 1
      let tail1 := uadd tail drop % b.m_fifoSize
      writeLoop { b with m_fifo := fifo, m_tail := tail1, m_head := next } rest next tail1
    else
      writeLoop { b with m_fifo := fifo, m_head := next } rest next tail

/-- Member `writeSamples(samples, count)`. -/
def writeSamples (b : AudioJitterBuffer α) (samples : List α) : AudioJitterBuffer α :=
  if samples.length = 0 then b else writeLoop b samples b.m_head b.m_tail

/-- The loop of `readSamples` over the local `tail`: the final `tail` and
the samples stored to `output[i..)`. -/
def readLoop (b : AudioJitterBuffer α) : Nat → Nat → Nat → Nat × List α
  | 0, _, tail => (tail, [])
  | k + 1, avail, tail =>
    if avail > 0 then
      let r := readLoop b k (avail - 1) (uadd tail 1 % b.m_fifoSize)
      (r.1, b.m_fifo.getD tail 0 :: r.2)
    else (tail, [])

/-- Member `readSamples(output, count)`. -/
def readSamples (b : AudioJitterBuffer α) (count : Int) : AudioJitterBuffer α × List α :=
  if count ≤ 0 then (b, [])
  else
    let head := b.m_head
    let tail := b.m_tail
    let avail := usub (uadd head b.m_fifoSize) tail % b.m_fifoSize
    let r := readLoop b count.toNat avail tail
    ({ b with m_tail := r.1 }, r.2 ++ List.replicate (count.toNat - r.2.length) 0)

end Ios


namespace AudioJitterBuffer
variable {α : Type} [Zero α]

/-- Class invariant of a buffer whose capacity is at most `2^31`: the FIFO
has `m_fifoSize` entries, `0 < m_fifoSize ≤ 2^31`, and both indices are below
`m_fifoSize`. -/
structure WF (b : AudioJitterBuffer α) : Prop where
  size_pos : 0 < b.m_fifoSize
  size_le : b.m_fifoSize ≤ 2147483648
  fifo_len : b.m_fifo.length = b.m_fifoSize
  head_lt : b.m_head < b.m_fifoSize
  tail_lt : b.m_tail < b.m_fifoSize

/-- The buffered samples, oldest first: the `samplesInBuffer()` ring entries
from `m_tail` on. -/
def contents (b : AudioJitterBuffer α) : List α :=
  (List.range (samplesInBuffer b)).map
    (fun i => b.m_fifo.getD ((b.m_tail + i) % b.m_fifoSize) 0)

/-- An empty buffer of capacity `N`: freshly constructed, after `setSize(N)`,
or after `clear()` of a buffer of capacity `N`. -/
def IsEmptyStart (N : Nat) (b0 : AudioJitterBuffer α) : Prop :=
  b0 = new N ∨ (∃ b, b0 = setSize b N) ∨ (∃ b, WF b ∧ b.m_fifoSize = N ∧ b0 = clear b)

end AudioJitterBuffer

open AudioJitterBuffer

/-- States reachable from a new buffer of capacity `N` through writes, reads
and clears, of either variant. -/
inductive Reachable {α : Type} [Zero α] (N : Nat) : AudioJitterBuffer α → Prop
  | init : Reachable N (new N)
  | write {b : AudioJitterBuffer α} (xs : List α) :
      Reachable N b → Reachable N (Android.writeSamples b xs)
  | read {b : AudioJitterBuffer α} (n : Int) :
      Reachable N b → Reachable N (Android.readSamples b n).1
  | clear {b : AudioJitterBuffer α} : Reachable N b → Reachable N (clear b)
  | writeAtomic {b : AudioJitterBuffer α} (xs : List α) :
      Reachable N b → Reachable N (Ios.writeSamples b xs)
  | readAtomic {b : AudioJitterBuffer α} (n : Int) :
      Reachable N b → Reachable N (Ios.readSamples b n).1
  | clearAtomic {b : AudioJitterBuffer α} : Reachable N b → Reachable N (Ios.clear b)

/-- The `k` ring entries from index `t` on, in ring order (indices modulo `N`). -/
def ringList {α : Type} [Zero α] (fifo : List α) (N t k : Nat) : List α :=
  (List.range k).map (fun i => fifo.getD ((t + i) % N) 0)


/-! ## AudioEngine: the receive path (src/android/AudioEngine.cpp) -/

/-- Constant `AudioEngine::SAMPLE_RATE`. -/
def SAMPLE_RATE : Nat := 16000

/-- Constant `AudioEngine::CHANNELS`. -/
def CHANNELS : Nat := 1

/-- Constant `AudioEngine::FRAME_SIZE_MS`. -/
def FRAME_SIZE_MS : Nat := 20

/-- Constant `AudioEngine::FRAME_SIZE_SAMPLES` (320). -/
def FRAME_SIZE_SAMPLES : Nat := SAMPLE_RATE * FRAME_SIZE_MS / 1000

/-- Constant `AudioEngine::MAX_FRAME_SIZE_SAMPLES` (960). -/
def MAX_FRAME_SIZE_SAMPLES : Nat := SAMPLE_RATE * 60 / 1000

/-- Error code `OPUS_BUFFER_TOO_SMALL` of libopus (opus_defines.h). -/
def OPUS_BUFFER_TOO_SMALL : Int := -2

/-- What one call of `OpusDecoder::decode(data, len, pcm, frame_size)` does:
the decoder afterwards, the returned value (a sample count, or a negative
error code) and the samples it stored to `pcm[0..)`. -/
structure DecodeResult (D α : Type) where
  decoder : D
  ret : Int
  pcm : List α

/-- The codec behind `OpusDecoder::decode` (libopus, outside the repository),
as a transition function of an arbitrary decoder state: the arguments are the
state, the packet (`none` for the null pointer with length 0, which selects
loss concealment) and `frame_size`. -/
abbrev DecodeFn (D α : Type) : Type := D → Option (List Nat) → Nat → DecodeResult D α

/-- One recorded call of `decode`: the packet (`none` for a concealment call)
and `frame_size`. -/
abbrev DecodeCall : Type := Option (List Nat) × Nat

/-- Number of concealment calls (null data) among recorded `decode` calls. -/
def plcCalls (log : List DecodeCall) : Nat := (log.filter (fun c => c.1.isNone)).length

/-- A `std::vector<float>` after `decode` stored `pcm` at its start. -/
def overlay {α : Type} (pcm buf : List α) : List α :=
  pcm.take buf.length ++ buf.drop pcm.length

/-- The members of `AudioEngine` the receive path reads or writes;
`m_decoder = none` is the null pointer. -/
structure AudioEngine (D α : Type) where
  m_decoder : Option D
  m_audioReady : Bool
  m_lastAudioSeq : Nat
  m_jitterBuffer : AudioJitterBuffer α

/-- Decoder, jitter buffer and recorded `decode` calls after a stretch of the
receive path. -/
structure Progress (D α : Type) where
  decoder : D
  jitterBuffer : AudioJitterBuffer α
  calls : List DecodeCall

/-- Payload decode with its retry: the decoder afterwards, the final
`decodedSampleCount`, the vector `decodedSamples`, and the recorded calls. -/
structure PayloadResult (D α : Type) where
  decoder : D
  decodedSampleCount : Int
  decodedSamples : List α
  calls : List DecodeCall

namespace AudioEngine

variable {D α : Type} [Zero α]

/-- The `while (missing--)` loop: one concealment `decode` per missing unit,
each result with a positive count written to the jitter buffer. -/
def plcLoop (dec : DecodeFn D α) : Nat → D → AudioJitterBuffer α → Progress D α
  | 0, d, jb => { decoder := d, jitterBuffer := jb, calls := [] }
  | missing + 1, d, jb =>
    let plc : List α := List.replicate (MAX_FRAME_SIZE_SAMPLES * CHANNELS) 0
    let r := dec d none MAX_FRAME_SIZE_SAMPLES
    let plcSamples := r.ret
    let jb1 :=
      if plcSamples > 0 then
        Android.writeSamples jb ((overlay r.pcm plc).take plcSamples.toNat)
      else jb
    let rest := plcLoop dec missing r.decoder jb1
    { rest with calls := (none, MAX_FRAME_SIZE_SAMPLES) :: rest.calls }

/-- The block "Handle missing packets with packet loss concealment":
`expected` and `diff` are `quint16` values. -/
def concealGap (dec : DecodeFn D α) (d : D) (lastAudioSeq sequence : Nat)
    (jb : AudioJitterBuffer α) : Progress D α :=
  if lastAudioSeq ≠ 0 then
    let expected := (lastAudioSeq + 1) % U16
    let diff := (sequence + U16 - expected) % U16
    if diff > 0 then plcLoop dec diff d jb
    else { decoder := d, jitterBuffer := jb, calls := [] }
  else { decoder := d, jitterBuffer := jb, calls := [] }

/-- The payload decode: first with the 20 ms capacity, and once more with
the 60 ms capacity when the codec answers `OPUS_BUFFER_TOO_SMALL`. -/
def decodePayload (dec : DecodeFn D α) (d : D) (audioData : List Nat) :
    PayloadResult D α :=
  let decodedSamples : List α := List.replicate (FRAME_SIZE_SAMPLES * CHANNELS) 0
  let r1 := dec d (some audioData) FRAME_SIZE_SAMPLES
  let decodedSamples1 := overlay r1.pcm decodedSamples
  if r1.ret = OPUS_BUFFER_TOO_SMALL then
    let resized := decodedSamples1 ++
      List.replicate (MAX_FRAME_SIZE_SAMPLES * CHANNELS - decodedSamples1.length) 0
    let r2 := dec r1.decoder (some audioData) MAX_FRAME_SIZE_SAMPLES
    { decoder := r2.decoder, decodedSampleCount := r2.ret,
      decodedSamples := overlay r2.pcm resized,
      calls := [(some audioData, FRAME_SIZE_SAMPLES), (some audioData, MAX_FRAME_SIZE_SAMPLES)] }
  else
    { decoder := r1.decoder, decodedSampleCount := r1.ret,
      decodedSamples := decodedSamples1,
      calls := [(some audioData, FRAME_SIZE_SAMPLES)] }

/-- Slot `processReceivedAudio(audioData, sequence)`: the engine afterwards
and the `decode` calls made, in order. (The ready-read trigger and the
time stamp of the last write are not modelled.) -/
def processReceivedAudio (dec : DecodeFn D α) (e : AudioEngine D α)
    (audioData : List Nat) (sequence : Nat) : AudioEngine D α × List DecodeCall :=
  match e.m_decoder with
  | none => (e, [])
  | some d =>
    if !e.m_audioReady then (e, [])
    else
      let g := concealGap dec d e.m_lastAudioSeq sequence e.m_jitterBuffer
      let p := decodePayload dec g.decoder audioData
      let jb :=
        if p.decodedSampleCount > 0 then
          Android.writeSamples g.jitterBuffer
            (p.decodedSamples.take p.decodedSampleCount.toNat)
        else g.jitterBuffer
      ({ e with m_decoder := some p.decoder, m_jitterBuffer := jb,
                m_lastAudioSeq := sequence },
        g.calls ++ p.calls)

/-- Slot `processReceivedAudioDirect(audioData, size, sequence)`; the packet
is `audioData[0..size)`. -/
def processReceivedAudioDirect (dec : DecodeFn D α) (e : AudioEngine D α)
    (audioData : List Nat) (sequence : Nat) : AudioEngine D α × List DecodeCall :=
  match e.m_decoder with
  | none => (e, [])
  | some d =>
    if !e.m_audioReady then (e, [])
    else
      let g := concealGap dec d e.m_lastAudioSeq sequence e.m_jitterBuffer
      let p := decodePayload dec g.decoder audioData
      let jb :=
        if p.decodedSampleCount > 0 then
          Android.writeSamples g.jitterBuffer
            (p.decodedSamples.take p.decodedSampleCount.toNat)
        else g.jitterBuffer
      ({ e with m_decoder := some p.decoder, m_jitterBuffer := jb,
                m_lastAudioSeq := sequence },
        g.calls ++ p.calls)

/-- A decoder for concrete runs: a concealment call yields `frame_size`
samples of silence, a payload is rejected with `OPUS_INVALID_PACKET` (-4). -/
def rejectingDecoder : DecodeFn Unit Int := fun _ data frame_size =>
  match data with
  | none => { decoder := (), ret := frame_size, pcm := List.replicate frame_size 0 }
  | some _ => { decoder := (), ret := -4, pcm := [] }

/-- A decoder for concrete runs whose state counts the concealment calls made
on it: such a call yields `frame_size` samples of silence, a payload is
rejected with `OPUS_INVALID_PACKET` (-4). -/
def countingDecoder : DecodeFn Nat Int := fun n data frame_size =>
  match data with
  | none => { decoder := n + 1, ret := frame_size, pcm := List.replicate frame_size 0 }
  | some _ => { decoder := n, ret := -4, pcm := [] }

/-- A ready engine with last recorded sequence `lastSeq` and an empty jitter
buffer of the capacity `setupAudio` configures
(`FRAME_SIZE_SAMPLES * m_maxBufferFrames`, 24 frames). -/
def readyEngine (lastSeq : Nat) : AudioEngine Unit Int :=
  { m_decoder := some (), m_audioReady := true, m_lastAudioSeq := lastSeq,
    m_jitterBuffer := AudioJitterBuffer.new (FRAME_SIZE_SAMPLES * 24) }

end AudioEngine

/-! ## Resampler (src/iOS/Resampler.cpp) -/

/-- Table `coeff_48_16` (50 entries), each entry the rational number its
decimal literal denotes. -/
def coeff_48_16 : List ℚ :=
  [
   -0.0006552324784575, -0.0023665474931056, -0.0046009521986267,
   -0.0065673940075750, -0.0063452223170932, -0.0030442928485507,
   0.0027216740916904, 0.0079365191173948, 0.0088820372171036,
   0.0034577679862077, -0.0063356171066514, -0.0145569576678951,
   -0.0143873806232840, -0.0031353455170217, 0.0143500967202013,
   0.0267723137455069, 0.0227432656734411, -0.0007785303731755,
   -0.0333072891420923, -0.0533991698157678, -0.0390764894652067,
   0.0189267202445683, 0.1088868590088443, 0.2005613197280159,
   0.2583048205906900, 0.2583048205906900, 0.2005613197280159,
   0.1088868590088443, 0.0189267202445683, -0.0390764894652067,
   -0.0533991698157678, -0.0333072891420923, -0.0007785303731755,
   0.0227432656734411, 0.0267723137455069, 0.0143500967202013,
   -0.0031353455170217, -0.0143873806232840, -0.0145569576678951,
   -0.0063356171066514, 0.0034577679862077, 0.0088820372171036,
   0.0079365191173948, 0.0027216740916904, -0.0030442928485507,
   -0.0063452223170932, -0.0065673940075750, -0.0046009521986267,
   -0.0023665474931056, -0.0006552324784575 ]

/-- Table `coeff_48_16_wide` (54 entries), each entry the rational number its
decimal literal denotes. -/
def coeff_48_16_wide : List ℚ :=
  [
   5.11059239270262E-4, -8.255590813253409E-4, -0.0022883650051252883,
   -0.00291284164121095, -0.0012268298491091916, 0.0022762075309263855,
   0.004665122182146708, 0.0028373838432406684, -0.0029213363716820875,
   -0.007788031828919018, -0.006016833804341717, 0.002968009107977126,
   0.01198761593254768, 0.011232706838970668, -0.0019206055143741107,
   -0.017561483250559024, -0.019661897398973553, -0.0011813015957021255,
   0.025346590995928835, 0.034210485687661864, 0.008664040822720114,
   -0.03840386432673845, -0.0655288086799168, -0.030167800561122577,
   0.07566615695450109, 0.21042482376878066, 0.3043049697785759,
   0.3043049697785759, 0.21042482376878066, 0.07566615695450109,
   -0.030167800561122577, -0.0655288086799168, -0.03840386432673845,
   0.008664040822720114, 0.034210485687661864, 0.025346590995928835,
   -0.0011813015957021255, -0.019661897398973553, -0.017561483250559024,
   -0.0019206055143741107, 0.011232706838970668, 0.01198761593254768,
   0.002968009107977126, -0.006016833804341717, -0.007788031828919018,
   -0.0029213363716820875, 0.0028373838432406684, 0.004665122182146708,
   0.0022762075309263855, -0.0012268298491091916, -0.00291284164121095,
   -0.0022883650051252883, -8.255590813253409E-4, 5.11059239270262E-4 ]

/-- The `enum Mode` of `Resampler`. -/
inductive Mode where
  | Linear
  | Decim48To16
  | Interp16To48
  deriving DecidableEq, Repr

/-- Members of `class Resampler`, samples and `m_pos` in exact arithmetic.
`m_channels` is a natural number: the constructor cannot complete with a
negative channel count in linear mode (the `resize` throws), and the FIR
modes have one channel. `int` counts are exact integers. -/
structure Resampler where
  m_mode : Mode
  m_inRate : Int
  m_outRate : Int
  m_channels : Nat
  m_prevSamples : List ℚ
  m_pos : ℚ
  m_queue : List ℚ
  m_delay : List ℚ

namespace Resampler

/-- Constructor `Resampler(inRate, outRate, channels)`. -/
def create (inRate outRate : Int) (channels : Nat) : Resampler :=
  let linear : Resampler :=
    { m_mode := Mode.Linear, m_inRate := inRate, m_outRate := outRate,
      m_channels := channels, m_prevSamples := List.replicate channels 0,
      m_pos := 0, m_queue := [], m_delay := [] }
  if inRate = 48000 ∧ outRate = 16000 then
    if channels ≠ 1 then linear
    else
      { m_mode := Mode.Decim48To16, m_inRate := inRate, m_outRate := outRate,
        m_channels := channels, m_prevSamples := [], m_pos := 0, m_queue := [],
        m_delay := List.replicate coeff_48_16_wide.length 0 }
  else if inRate = 16000 ∧ outRate = 48000 then
    if channels ≠ 1 then linear
    else
      { m_mode := Mode.Interp16To48, m_inRate := inRate, m_outRate := outRate,
        m_channels := channels, m_prevSamples := [], m_pos := 0, m_queue := [],
        m_delay := List.replicate (coeff_48_16.length / 3) 0 }
  else linear

/-- The floats `input[0..k)` of a `const float*` argument. -/
def readInput (input : List ℚ) (k : Nat) : List ℚ :=
  (List.range k).map (fun i => input.getD i 0)

/-- Conversion `static_cast<int>(pos)`: truncation towards zero. -/
def truncInt (q : ℚ) : Int := if 0 ≤ q then ⌊q⌋ else ⌈q⌉

/-- The samples one iteration of the linear loop appends: for every channel
`s0 + (s1 - s0) * frac` at `idx = (int)pos`. -/
def linearFrame (data : List ℚ) (channels : Nat) (pos : ℚ) : List ℚ :=
  let idx := truncInt pos
  let frac := pos - (idx : ℚ)
  (List.range channels).map (fun (ch : Nat) =>
    let s0 := data.getD (idx * (channels : Int) + (ch : Int)).toNat 0
    let s1 := data.getD ((idx + 1) * (channels : Int) + (ch : Int)).toNat 0
    s0 + (s1 - s0) * frac)

/-- The loop `while (pos < avail - 1)` of the linear mode, `limit` being
`avail - 1`: the final `pos` and the output, or `none` when the loop is
still running after `fuel` iterations. -/
def linearLoop (data : List ℚ) (channels : Nat) (step : ℚ) (limit : Int) :
    Nat → ℚ → Option (ℚ × List ℚ)
  | 0, pos => if pos < limit then none else some (pos, [])
  | fuel + 1, pos =>
    if pos < limit then
      (linearLoop data channels step limit fuel (pos + step)).map
        (fun r => (r.1, linearFrame data channels pos ++ r.2))
    else some (pos, [])

/-- Iterations granted to the linear loop: as many as a positive step needs
to reach `limit` from `pos`, none for a step that never reaches it. -/
def linearFuel (step pos : ℚ) (limit : Int) : Nat :=
  if 0 < step then ⌈((limit : ℚ) - pos) / step⌉.toNat else 0

/-- Branch `m_mode == Linear` of `process`, for `sampleCount = n > 0`;
`none` when the loop does not terminate. -/
def processLinear (r : Resampler) (input : List ℚ) (n : Nat) : Option (Resampler × List ℚ) :=
  let step : ℚ := (r.m_inRate : ℚ) / (r.m_outRate : ℚ)
  let data : List ℚ :=
    (List.range r.m_channels).map (fun (ch : Nat) => r.m_prevSamples.getD ch 0)
      ++ readInput input (n * r.m_channels)
  let avail : Int := (n : Int) + 1
  match linearLoop data r.m_channels step (avail - 1)
      (linearFuel step r.m_pos (avail - 1)) r.m_pos with
  | none => none
  | some (pos, output) =>
    some ({ r with
            m_pos := pos - ((avail - 1 : Int) : ℚ),
            m_prevSamples :=
              (List.range r.m_channels).map
                (fun (ch : Nat) =>
                  data.getD ((avail - 1) * (r.m_channels : Int) + (ch : Int)).toNat 0)
              ++ r.m_prevSamples.drop r.m_channels },
          output)

/-- Sum `coeff[offset + t * stride] * delay[t]` over `t < taps`, accumulated
from `0` in the order of the loop. -/
def firSum (coeff delay : List ℚ) (taps offset stride : Nat) : ℚ :=
  (List.range taps).foldl
    (fun sum t => sum + coeff.getD (offset + t * stride) 0 * delay.getD t 0) 0

/-- The loop `while (m_queue.size() >= 3)` of the decimator: the remaining
queue, the delay line and the output. -/
def decimLoop : List ℚ → List ℚ → List ℚ × List ℚ × List ℚ
  | q0 :: q1 :: q2 :: rest, delay =>
    let delay1 := ([q2, q1, q0] ++ delay).take delay.length
    let sum := firSum coeff_48_16_wide delay1 coeff_48_16_wide.length 0 1
    let r := decimLoop rest delay1
    (r.1, r.2.1, sum :: r.2.2)
  | queue, delay => (queue, delay, [])

/-- The loop `while (!m_queue.empty())` of the interpolator: the delay line
and the output (the queue ends empty). -/
def interpLoop (tapsPerPhase : Nat) : List ℚ → List ℚ → List ℚ × List ℚ
  | [], delay => (delay, [])
  | q :: rest, delay =>
    let delay1 := (q :: delay.take (tapsPerPhase - 1)) ++ delay.drop tapsPerPhase
    let out := (List.range 3).map
      (fun phase => firSum coeff_48_16 delay1 tapsPerPhase phase 3 * 3)
    let r := interpLoop tapsPerPhase rest delay1
    (r.1, out ++ r.2)

/-- Member `process(input, sampleCount)`: the resampler afterwards and the
returned vector; `none` when the call does not return. -/
def process (r : Resampler) (input : List ℚ) (sampleCount : Int) :
    Option (Resampler × List ℚ) :=
  if sampleCount ≤ 0 then some (r, [])
  else
    match r.m_mode with
    | Mode.Linear => processLinear r input sampleCount.toNat
    | Mode.Decim48To16 =>
      let l := decimLoop (r.m_queue ++ readInput input sampleCount.toNat) r.m_delay
      some ({ r with m_queue := l.1, m_delay := l.2.1 }, l.2.2)
    | Mode.Interp16To48 =>
      let tapsPerPhase := coeff_48_16.length / 3
      let l := interpLoop tapsPerPhase (r.m_queue ++ readInput input sampleCount.toNat) r.m_delay
      some ({ r with m_queue := [], m_delay := l.1 }, l.2)

/-- Member `reset()`. -/
def reset (r : Resampler) : Resampler :=
  { r with m_pos := 0,
           m_prevSamples := List.replicate r.m_prevSamples.length 0,
           m_queue := [],
           m_delay := List.replicate r.m_delay.length 0 }

/-- A series of `process` calls, each with its input and `sampleCount`: the
resampler afterwards and the returned vectors in order. -/
def processAll : Resampler → List (List ℚ × Int) → Option (Resampler × List (List ℚ))
  | r, [] => some (r, [])
  | r, call :: calls =>
    match process r call.1 call.2 with
    | none => none
    | some (r1, out) =>
      match processAll r1 calls with
      | none => none
      | some (r2, outs) => some (r2, out :: outs)

/-- The class invariant `process` relies on: one channel in the FIR modes;
in linear mode positive rates, a non-negative position and one carried sample
per channel. -/
def WF (r : Resampler) : Prop :=
  (r.m_mode ≠ Mode.Linear → r.m_channels = 1) ∧
  (r.m_mode = Mode.Linear →
    0 < r.m_inRate ∧ 0 < r.m_outRate ∧ 0 ≤ r.m_pos ∧
    r.m_prevSamples.length = r.m_channels)

end Resampler

/-- Resamplers reached from `r0` through `process` calls that returned. -/
inductive ReachedFrom (r0 : Resampler) : Resampler → Prop
  | start : ReachedFrom r0 r0
  | step {r r1 : Resampler} (input : List ℚ) (sampleCount : Int) (out : List ℚ) :
      ReachedFrom r0 r → Resampler.process r input sampleCount = some (r1, out) →
      ReachedFrom r0 r1

/-! ## AudioEngine: the capture path (src/android/AudioEngine.cpp) -/

/-- Constant `AudioEngine::OPUS_BUFFER_SIZE`. -/
def OPUS_BUFFER_SIZE : Nat := 4000

/-- Integer division of C++ (`int / int`): truncation towards zero. -/
def cdiv (a b : Int) : Int := Int.tdiv a b

/-- The `QAudioFormat::Int16` branch of `onAudioInputReadyRead`: `src` is the
capture block as `qint16` samples (`totalSamples = src.length`), the result
the first `monoSamples` entries of `m_reusableFloatBuffer`, in exact
arithmetic. -/
def mixdownInt16 (src : List Int) (inputChannels : Int) : List ℚ :=
  let totalSamples : Int := (src.length : Int)
  let monoSamples : Int := cdiv totalSamples inputChannels
  if inputChannels = 1 then
    (List.range monoSamples.toNat).map (fun (i : Nat) =>
      ((src.getD i 0 : Int) : ℚ) * ((1 : ℚ) / 32768))
  else
    let invChannels : ℚ := (1 : ℚ) / (inputChannels : ℚ)
    let invScale : ℚ := invChannels / 32768
    (List.range monoSamples.toNat).map (fun (i : Nat) =>
      let sum : ℚ := (List.range inputChannels.toNat).foldl
        (fun (sum : ℚ) (ch : Nat) =>
          sum + ((src.getD (i * inputChannels.toNat + ch) 0 : Int) : ℚ)) 0
      sum * invScale)

/-- What one call of `OpusEncoder::encode(pcm, frame_size, output,
max_output_bytes)` does: the encoder afterwards, the returned value (a byte
count, or a negative error code) and the bytes stored to `output`. -/
structure EncodeResult (E : Type) where
  encoder : E
  ret : Int
  output : List Nat

/-- The codec behind `OpusEncoder::encode` (libopus, outside the
repository), as a transition function of an arbitrary encoder state: the
arguments are the state, the frame `pcm[0..frame_size)` and
`max_output_bytes`. -/
abbrev EncodeFn (E : Type) : Type := E → List ℚ → Nat → EncodeResult E

/-- Result of the encode loop: the encoder, the accumulator
`m_pendingInputSamples`, the frames handed to `encode` in order, and the
payloads of the emitted `audioDataEncoded` signals in order. -/
structure EncodeProgress (E : Type) where
  encoder : E
  pending : List ℚ
  frames : List (List ℚ)
  emitted : List (List Nat)

/-- The loop `while (m_pendingInputSamples.size() >= FRAME_SIZE_SAMPLES)`:
encode the first frame, emit its bytes when the count is positive, erase it
from the accumulator. -/
def encodeLoop {E : Type} (enc : EncodeFn E) (e : E) (pending : List ℚ) : EncodeProgress E :=
  if _hge : pending.length ≥ FRAME_SIZE_SAMPLES then
    let r := enc e (pending.take FRAME_SIZE_SAMPLES) OPUS_BUFFER_SIZE
    let rest := encodeLoop enc r.encoder (pending.drop FRAME_SIZE_SAMPLES)
    { encoder := rest.encoder
      pending := rest.pending
      frames := pending.take FRAME_SIZE_SAMPLES :: rest.frames
      emitted := (if r.ret > 0 then [r.output.take r.ret.toNat] else []) ++ rest.emitted }
  else
    { encoder := e, pending := pending, frames := [], emitted := [] }
termination_by pending.length
decreasing_by
  simp only [List.length_drop]
  have : 0 < FRAME_SIZE_SAMPLES := by decide
  omega

/-- The end of `onAudioInputReadyRead`: append the processed samples to
`m_pendingInputSamples`, then run the encode loop. -/
def accumulateAndEncode {E : Type} (enc : EncodeFn E) (e : E) (pending newSamples : List ℚ) :
    EncodeProgress E :=
  encodeLoop enc e (pending ++ newSamples)

/-- An encoder for concrete runs: every frame becomes the one byte `0`. -/
def oneByteEncoder : EncodeFn Unit := fun _ _ _ => { encoder := (), ret := 1, output := [0] }

/-- The microphone gain members `m_micGainDb` and `m_micGainLinear`, over an
ordered field. -/
structure MicGain (K : Type) where
  m_micGainDb : K
  m_micGainLinear : K

/-- Slot `setMicGainDb(gainDb)`; `pow` is `std::pow` of the C library. -/
def setMicGainDb {K : Type} [LinearOrderedField K] (pow : K → K → K) (g : MicGain K)
    (gainDb : K) : MicGain K :=
  let gainDb := max (-20) (min 20 gainDb)
  if |g.m_micGainDb - gainDb| < 1 / 10 then g
  else { m_micGainDb := gainDb, m_micGainLinear := pow 10 (gainDb / 20) }

/-- The gain stage of `onAudioInputReadyRead`. -/
def applyMicGain {K : Type} [LinearOrderedField K] (g : MicGain K) (sampleData : List K) :
    List K :=
  if g.m_micGainLinear ≠ 1 then sampleData.map (fun s => s * g.m_micGainLinear)
  else sampleData

/-- Members of `AudioEngine::AudioLimiter`, over an ordered field. -/
structure AudioLimiter (K : Type) where
  thresholdDb_ : K
  ratio_ : K
  outputGain_ : K
  envDb_ : K

namespace AudioLimiter

variable {K : Type} [LinearOrderedField K]

/-- Constructor `AudioLimiter()`. -/
def new : AudioLimiter K :=
  { thresholdDb_ := -6, ratio_ := 1 / 10, outputGain_ := 1, envDb_ := 1 / 10 ^ 25 }

/-- Constant `ATTACK_COEF` (0.99). -/
def ATTACK_COEF : K := 99 / 100

/-- Constant `RELEASE_COEF` (0.9995). -/
def RELEASE_COEF : K := 9995 / 10000

/-- Constant `DC_OFFSET` (1.0E-25). -/
def DC_OFFSET : K := 1 / 10 ^ 25

/-- Constant `LOG_2_DB` (8.6858896380650365530225783783321). -/
def LOG_2_DB : K := 86858896380650365530225783783321 / 10 ^ 31

/-- Constant `DB_2_LOG` (0.11512925464970228420089957273422). -/
def DB_2_LOG : K := 11512925464970228420089957273422 / 10 ^ 32

/-- Member `lin2dB`; `log` is the logarithm of the C library. -/
def lin2dB (log : K → K) (lin : K) : K := log lin * LOG_2_DB

/-- Member `dB2lin`; `exp` is the exponential of the C library. -/
def dB2lin (exp : K → K) (dB : K) : K := exp (dB * DB_2_LOG)

/-- One iteration of the loop of `processAudio`: the limiter afterwards and
the value stored back to `samples[i]`. -/
def processSample (log exp : K → K) (l : AudioLimiter K) (sample : K) : AudioLimiter K × K :=
  let rectified := |sample| + DC_OFFSET
  let keyDb := lin2dB log rectified
  let overDb0 := keyDb - l.thresholdDb_
  let overDb1 := if overDb0 < 0 then 0 else overDb0
  let overDb := overDb1 + DC_OFFSET
  let envDb :=
    if overDb > l.envDb_ then overDb + ATTACK_COEF * (l.envDb_ - overDb)
    else overDb + RELEASE_COEF * (l.envDb_ - overDb)
  let overDb2 := envDb - DC_OFFSET
  let gainReductionDb := overDb2 * (l.ratio_ - 1)
  let gainReduction := dB2lin exp gainReductionDb
  ({ l with envDb_ := envDb }, l.outputGain_ * sample * gainReduction)

/-- Member `processAudio(samples, count)`: the limiter afterwards and the
samples as the loop leaves them. -/
def processAudio (log exp : K → K) : AudioLimiter K → List K → AudioLimiter K × List K
  | l, [] => (l, [])
  | l, s :: rest =>
    let r := processSample log exp l s
    let t := processAudio log exp r.1 rest
    (t.1, r.2 :: t.2)

end AudioLimiter

/-! ## Silence -/

/-- Every sample of a vector is `0.0`. -/
def AllZero (l : List ℚ) : Prop := ∀ s ∈ l, s = 0

instance (l : List ℚ) : Decidable (AllZero l) := by
  unfold AllZero
  infer_instance

/-- The retained samples of a resampler are all zero: the carried samples of
the linear mode, the input queue and the delay line of the FIR modes. -/
def Resampler.Silent (r : Resampler) : Prop :=
  AllZero r.m_prevSamples ∧ AllZero r.m_queue ∧ AllZero r.m_delay

/-- A series of `process` calls on all-zero input: call `j` passes
`ns[j] * channels` zeros and `sampleCount = ns[j]`. -/
def silentCalls (channels : Nat) (ns : List Int) : List (List ℚ × Int) :=
  ns.map (fun n => (List.replicate (n.toNat * channels) 0, n))

/-! ## Output bridge (AudioStreamDevice)

The bridge holds pointers to the engine's jitter buffer and output resampler;
here their states are components of the bridge state. The `int` products and
sums of the size computations wrap to 32 bits (two's complement), and so
does the conversion of the `qint64` argument and of an `unsigned` value to
`int`; differences of two counts between `0` and `2^31` and the headroom
added to a quotient are exact. A vector size is taken as it is (vectors hold
fewer than `2^31` samples). The bytes stored into `data` are given as the
list of stored samples, each `bytesPerSample` bytes wide. -/

/-- Conversion of an integer value to `int` (32 bit, two's complement). -/
def toInt (z : Int) : Int := (z + 2147483648) % 4294967296 - 2147483648

/-- The enum `QAudioFormat::SampleFormat`. -/
inductive SampleFormat where
  | Unknown
  | UInt8
  | Int16
  | Int32
  | Float
  deriving DecidableEq, Repr

/-- The local `bytesPerSample`: `sizeof(qint16)` for `Int16`, else
`sizeof(float)`. -/
def bytesPerSample (f : SampleFormat) : Int := if f = SampleFormat.Int16 then 2 else 4

/-- Rounding to the nearest integer, a tie going to the even one (the
rounding of IEEE 754 arithmetic). -/
def roundHalfEven (y : ℚ) : Int :=
  if y - (⌊y⌋ : ℚ) < 1 / 2 then ⌊y⌋
  else if 1 / 2 < y - (⌊y⌋ : ℚ) then ⌊y⌋ + 1
  else if ⌊y⌋ % 2 = 0 then ⌊y⌋ else ⌊y⌋ + 1

/-- The `float` (IEEE 754 binary32) a real result of magnitude below `2^128`
is rounded to: the nearest multiple, a tie going to the even one, of the
spacing `2^(e - 23)` of the floats around it, `e = max ⌊log2 |x|⌋ (-126)`. -/
def roundFloat (x : ℚ) : ℚ :=
  if x = 0 then 0
  else
    (roundHalfEven (x / (2 : ℚ) ^ (max (Int.log 2 |x|) (-126) - 23)) : ℚ)
      * (2 : ℚ) ^ (max (Int.log 2 |x|) (-126) - 23)

/-- One sample in the `Int16` format: clamped to `[-1, 1]`, then
`static_cast<qint16>(sample * 32767.0f)`, the `float` product with its
fraction dropped; the stored integer as a number. -/
def toInt16Sample (s : ℚ) : ℚ :=
  ((Resampler.truncInt (roundFloat (max (-1) (min 1 s) * 32767)) : Int) : ℚ)

/-- The samples stored for `samples` in format `f`: converted for `Int16`,
copied otherwise. -/
def storeSamples (f : SampleFormat) (samples : List ℚ) : List ℚ :=
  if f = SampleFormat.Int16 then samples.map toInt16Sample else samples

namespace Android

/-- Members of `class AudioStreamDevice` (src/android/AudioStreamDevice.h);
`m_outputResampler` is `none` for a null pointer. -/
structure AudioStreamDevice where
  m_jitterBuffer : AudioJitterBuffer ℚ
  m_outputResampler : Option Resampler
  m_outputSampleRate : Int
  m_sampleFormat : SampleFormat

/-- What a `readData` call that returns leaves behind: the bridge, the return
value and the samples stored into `data` from its start on. -/
structure ReadResult where
  device : AudioStreamDevice
  ret : Int
  stored : List ℚ

/-- Member `bytesAvailable()`. -/
def bytesAvailable (d : AudioStreamDevice) : Int :=
  let availableNativeSamples := toInt (AudioJitterBuffer.samplesInBuffer d.m_jitterBuffer)
  let bytesPerSample := bytesPerSample d.m_sampleFormat
  match d.m_outputResampler with
  | some _ =>
    let resampledSamples :=
      cdiv (toInt (availableNativeSamples * d.m_outputSampleRate)) 16000
    toInt (resampledSamples * bytesPerSample)
  | none => toInt (availableNativeSamples * bytesPerSample)

/-- The part of `readData(data, maxSize)` after the local `samplesToGenerate`
is computed; `none` when the call does not return (the vector constructor
throws on a negative size, or `process` does not return). -/
def generate (d : AudioStreamDevice) (samplesToGenerate : Int) : Option ReadResult :=
  let bytesPerSample := bytesPerSample d.m_sampleFormat
  if samplesToGenerate = 0 then some { device := d, ret := 0, stored := [] }
  else
    let samplesToReadFromBuffer :=
      match d.m_outputResampler with
      | some _ => cdiv (toInt (samplesToGenerate * 16000)) d.m_outputSampleRate
      | none => samplesToGenerate
    if samplesToReadFromBuffer < 0 then none
    else
      let rd := Android.readSamples d.m_jitterBuffer samplesToReadFromBuffer
      let nativeSamples := rd.2
      match d.m_outputResampler with
      | none =>
        some { device := { d with m_jitterBuffer := rd.1 },
               ret := (nativeSamples.length : Int) * bytesPerSample,
               stored := storeSamples d.m_sampleFormat nativeSamples }
      | some r =>
        match Resampler.process r nativeSamples (nativeSamples.length : Int) with
        | none => none
        | some (r1, resampledSamples) =>
          some { device := { d with m_jitterBuffer := rd.1, m_outputResampler := some r1 },
                 ret := (resampledSamples.length : Int) * bytesPerSample,
                 stored := storeSamples d.m_sampleFormat resampledSamples }

/-- Member `readData(data, maxSize)`: the locals `samplesSinkCanHold`,
`samplesWeHave` and `samplesToGenerate`, then `generate`. -/
def readData (d : AudioStreamDevice) (maxSize : Int) : Option ReadResult :=
  let bytesPerSample := bytesPerSample d.m_sampleFormat
  let samplesSinkCanHold := toInt (cdiv maxSize bytesPerSample)
  let samplesWeHave := toInt (cdiv (bytesAvailable d) bytesPerSample)
  let samplesToGenerate := min samplesSinkCanHold samplesWeHave
  generate d samplesToGenerate

end Android

namespace Ios

/-- Members of `class AudioStreamDevice` as src/iOS/AudioStreamDevice.cpp
uses them: those of the other variant, the leftover vector `m_resampleTail`
and the read index `m_tailPos` into it (`m_tailMutex` guards both). -/
structure AudioStreamDevice where
  m_jitterBuffer : AudioJitterBuffer ℚ
  m_outputResampler : Option Resampler
  m_outputSampleRate : Int
  m_sampleFormat : SampleFormat
  m_resampleTail : List ℚ
  m_tailPos : Nat

/-- The locals of `readData` that the lambda `writeChunk` updates, and the
samples stored into `data` so far. -/
structure Sink where
  samplesWritten : Int
  bytesWritten : Int
  data : List ℚ

/-- What a `readData` call that returns leaves behind: the bridge, the return
value, the samples stored into `data` from its start on, and the vector
`*finalSamples` of the call (empty when the call returns before it reads the
jitter buffer). -/
structure ReadResult where
  device : AudioStreamDevice
  ret : Int
  stored : List ℚ
  produced : List ℚ

/-- The lambda `writeChunk(src, count)` of `readData`: the returned `toWrite`
and the locals afterwards. -/
def writeChunk (f : SampleFormat) (samplesSinkCanHold : Int) (k : Sink) (src : List ℚ)
    (count : Int) : Int × Sink :=
  let toWrite := min count (samplesSinkCanHold - k.samplesWritten)
  if toWrite ≤ 0 then (0, k)
  else
    (toWrite,
     { samplesWritten := k.samplesWritten + toWrite,
       bytesWritten := (k.samplesWritten + toWrite) * bytesPerSample f,
       data := k.data ++ storeSamples f (Resampler.readInput src toWrite.toNat) })

/-- Step 4 of `readData`: write what fits of `*finalSamples`, keep the rest
in `m_resampleTail`, return `bytesWritten`. -/
def writeAndStash (d : AudioStreamDevice) (samplesSinkCanHold : Int) (k : Sink)
    (finalSamples : List ℚ) : ReadResult :=
  let produced : Int := (finalSamples.length : Int)
  let w := writeChunk d.m_sampleFormat samplesSinkCanHold k finalSamples produced
  let usedNow := w.1
  let d1 :=
    if usedNow < produced then
      if d.m_resampleTail.isEmpty ∨ d.m_tailPos ≥ d.m_resampleTail.length then
        { d with m_resampleTail := finalSamples.drop usedNow.toNat, m_tailPos := 0 }
      else
        { d with m_resampleTail := d.m_resampleTail ++ finalSamples.drop usedNow.toNat }
    else d
  { device := d1, ret := w.2.bytesWritten, stored := w.2.data, produced := finalSamples }

/-- Steps 2 and 3 of `readData`, then step 4: read the jitter buffer and
resample; `none` when `process` does not return. -/
def produceMore (d : AudioStreamDevice) (samplesSinkCanHold : Int) (k : Sink) :
    Option ReadResult :=
  let remainingOut := samplesSinkCanHold - k.samplesWritten
  if remainingOut ≤ 0 then
    some { device := d, ret := k.bytesWritten, stored := k.data, produced := [] }
  else
    let samplesToReadFromBuffer :=
      match d.m_outputResampler with
      | some _ =>
        max 1 (cdiv (toInt (remainingOut * 16000 + (d.m_outputSampleRate - 1)))
          d.m_outputSampleRate) + 16
      | none => remainingOut
    let rd := Ios.readSamples d.m_jitterBuffer samplesToReadFromBuffer
    let nativeSamples := rd.2
    match d.m_outputResampler with
    | none => some (writeAndStash { d with m_jitterBuffer := rd.1 } samplesSinkCanHold k
        nativeSamples)
    | some r =>
      match Resampler.process r nativeSamples (nativeSamples.length : Int) with
      | none => none
      | some (r1, resampledSamples) =>
        some (writeAndStash { d with m_jitterBuffer := rd.1, m_outputResampler := some r1 }
          samplesSinkCanHold k resampledSamples)

/-- Member `readData(data, maxSize)`; `none` when `process` does not
return. -/
def readData (d : AudioStreamDevice) (maxSize : Int) : Option ReadResult :=
  if maxSize ≤ 0 then some { device := d, ret := 0, stored := [], produced := [] }
  else
    let samplesSinkCanHold := toInt (cdiv maxSize (bytesPerSample d.m_sampleFormat))
    if samplesSinkCanHold ≤ 0 then
      some { device := d, ret := 0, stored := [], produced := [] }
    else
      let k0 : Sink := { samplesWritten := 0, bytesWritten := 0, data := [] }
      let tailAvail : Int := (d.m_resampleTail.length : Int) - (d.m_tailPos : Int)
      if tailAvail > 0 then
        let w := writeChunk d.m_sampleFormat samplesSinkCanHold k0
          (d.m_resampleTail.drop d.m_tailPos) tailAvail
        let used := w.1
        let tailPos := d.m_tailPos + used.toNat
        let d1 :=
          if tailPos ≥ d.m_resampleTail.length then
            { d with m_resampleTail := [], m_tailPos := 0 }
          else { d with m_tailPos := tailPos }
        if w.2.samplesWritten ≥ samplesSinkCanHold then
          some { device := d1, ret := w.2.bytesWritten, stored := w.2.data, produced := [] }
        else produceMore d1 samplesSinkCanHold w.2
      else produceMore d samplesSinkCanHold k0

end Ios

namespace Ios

/-- The unread part of the leftover tail: `m_resampleTail` from `m_tailPos`
on. -/
def unread (d : AudioStreamDevice) : List ℚ := d.m_resampleTail.drop d.m_tailPos

/-- What happens to a bridge: the sink calls `readData(data, maxSize)`, or
decoded samples are written to the jitter buffer. -/
inductive BridgeEvent where
  | read (maxSize : Int)
  | write (samples : List ℚ)

/-- A series of events on a bridge: the bridge afterwards, all samples
delivered to the caller and all `*finalSamples` vectors produced, each
concatenated in the order of the calls; `none` when a call does not
return. -/
def runBridge : AudioStreamDevice → List BridgeEvent →
    Option (AudioStreamDevice × List ℚ × List ℚ)
  | d, [] => some (d, [], [])
  | d, BridgeEvent.read maxSize :: es =>
    match readData d maxSize with
    | none => none
    | some res =>
      match runBridge res.device es with
      | none => none
      | some (d2, delivered, produced) =>
        some (d2, res.stored ++ delivered, res.produced ++ produced)
  | d, BridgeEvent.write samples :: es =>
    runBridge { d with m_jitterBuffer := Ios.writeSamples d.m_jitterBuffer samples } es

end Ios

/-! ## Two threads on the atomic-index buffer

`writeSamples` and `readSamples` of src/iOS/AudioJitterBuffer.cpp cut into
the pieces between which the other thread may run: the entry of a call (its
loads of `m_head` and `m_tail`), one loop iteration, and the exit. A schedule
names the thread that runs its next piece. -/

namespace Ios

variable {α : Type} [Zero α]

/-- The locals of a `writeSamples` call between two iterations: `head`,
`tail` and the samples `samples[i..count)` still to write. -/
structure Writer (α : Type) where
  head : Nat
  tail : Nat
  rest : List α

/-- The locals of a `readSamples` call between two iterations: `tail`,
`avail`, `count - i` and `output[0..i)`. -/
structure Reader (α : Type) where
  tail : Nat
  avail : Nat
  left : Nat
  output : List α

/-- Entry of `writeSamples`: `none` when `count <= 0` (the call returns),
else the locals after the loads of `m_head` and `m_tail`. -/
def writeBegin (b : AudioJitterBuffer α) (samples : List α) : Option (Writer α) :=
  if samples.length = 0 then none
  else some { head := b.m_head, tail := b.m_tail, rest := samples }

/-- One iteration of the loop of `writeSamples`: the sample is stored at the
local `head`; `m_tail` is stored when the local `tail` is hit; `m_head` is
stored. -/
def writeIter (b : AudioJitterBuffer α) (w : Writer α) : AudioJitterBuffer α × Writer α :=
  match w.rest with
  | [] => (b, w)
  | s :: rest =>
    let fifo := b.m_fifo.set w.head s
    let next := uadd w.head 1 % b.m_fifoSize
    if next = w.tail then
      let drop := b.m_fifoSize >>> 1
      let tail1 := uadd w.tail drop % b.m_fifoSize
      ({ b with m_fifo := fifo, m_tail := tail1, m_head := next },
       { head := next, tail := tail1, rest := rest })
    else
      ({ b with m_fifo := fifo, m_head := next },
       { head := next, tail := w.tail, rest := rest })

/-- Entry of `readSamples`: `none` when `count <= 0`, else the locals after
the loads of `m_head` and `m_tail`. -/
def readBegin (b : AudioJitterBuffer α) (count : Int) : Option (Reader α) :=
  if count ≤ 0 then none
  else
    some { tail := b.m_tail,
           avail := usub (uadd b.m_head b.m_fifoSize) b.m_tail % b.m_fifoSize,
           left := count.toNat,
           output := [] }

/-- One iteration of the loop of `readSamples`: the sample at the local
`tail` goes to `output[i]`. -/
def readIter (b : AudioJitterBuffer α) (r : Reader α) : Reader α :=
  { tail := uadd r.tail 1 % b.m_fifoSize,
    avail := r.avail - 1,
    left := r.left - 1,
    output := r.output ++ [b.m_fifo.getD r.tail 0] }

/-- Exit of `readSamples`: the local `tail` is stored to `m_tail` and the
rest of `output` is filled with silence. -/
def readEnd (b : AudioJitterBuffer α) (r : Reader α) : AudioJitterBuffer α × List α :=
  ({ b with m_tail := r.tail }, r.output ++ List.replicate r.left 0)

/-- The producer thread and the consumer thread on one buffer: the calls
each has still to make, the call each is in, and the outputs of the reads
that returned. -/
structure Threads (α : Type) where
  buffer : AudioJitterBuffer α
  producerCalls : List (List α)
  writer : Option (Writer α)
  consumerCalls : List Int
  reader : Option (Reader α)
  delivered : List (List α)

/-- The thread that runs next. -/
inductive Turn where
  | producer
  | consumer
  deriving DecidableEq, Repr

/-- The next piece of the thread whose turn it is. -/
def step (t : Threads α) : Turn → Threads α
  | Turn.producer =>
    match t.writer with
    | some w =>
      match w.rest with
      | [] => { t with writer := none }
      | _ :: _ => { t with buffer := (writeIter t.buffer w).1, writer := some (writeIter t.buffer w).2 }
    | none =>
      match t.producerCalls with
      | [] => t
      | samples :: calls =>
        { t with producerCalls := calls, writer := writeBegin t.buffer samples }
  | Turn.consumer =>
    match t.reader with
    | some r =>
      if r.left > 0 ∧ r.avail > 0 then { t with reader := some (readIter t.buffer r) }
      else
        { t with buffer := (readEnd t.buffer r).1, reader := none,
                 delivered := t.delivered ++ [(readEnd t.buffer r).2] }
    | none =>
      match t.consumerCalls with
      | [] => t
      | count :: calls => { t with consumerCalls := calls, reader := readBegin t.buffer count }

/-- A schedule run from a state. -/
def run (t : Threads α) (schedule : List Turn) : Threads α := schedule.foldl step t

/-- Both threads before their first call, on buffer `b`. -/
def threads (b : AudioJitterBuffer α) (producerCalls : List (List α))
    (consumerCalls : List Int) : Threads α :=
  { buffer := b, producerCalls := producerCalls, writer := none,
    consumerCalls := consumerCalls, reader := none, delivered := [] }

end Ios

/-! ## AudioEngine: construction and flush -/

namespace AudioEngine

variable {D α : Type} [Zero α]

/-- The members of the receive path after the constructor `AudioEngine()`:
no decoder yet, not ready, `m_lastAudioSeq = 0`, the jitter buffer at its
default capacity 3200. -/
def new : AudioEngine D α :=
  { m_decoder := none, m_audioReady := false, m_lastAudioSeq := 0,
    m_jitterBuffer := AudioJitterBuffer.new 3200 }

/-- Member `flushAudioBuffers()`: the jitter buffer is cleared, the last
sequence is reset, and an existing decoder is replaced by a newly constructed
one, `fresh`. (The output device reset is not modelled.) -/
def flushAudioBuffers (fresh : D) (e : AudioEngine D α) : AudioEngine D α :=
  { e with m_jitterBuffer := AudioJitterBuffer.clear e.m_jitterBuffer,
           m_lastAudioSeq := 0,
           m_decoder := match e.m_decoder with
             | some _ => some fresh
             | none => none }

end AudioEngine

/-! ## The two jitter-buffer variants, call by call -/

/-- A call on a jitter buffer. -/
inductive JbCall (α : Type) where
  | setSize (newSize : Nat)
  | setPrebufSamples (prebufSamples : Nat)
  | clear
  | writeSamples (samples : List α)
  | readSamples (count : Int)
  | samplesInBuffer

/-- What the caller sees after a call: the samples a `readSamples` call
stored to `output` (nothing for the other calls), and the results of
`samplesInBuffer()`, `empty()` and `prebufSamples()`. -/
structure JbView (α : Type) where
  output : List α
  occupancy : Nat
  empty : Bool
  prebufSamples : Nat

namespace Android

variable {α : Type} [Zero α]

/-- One call on the plain-index variant: the buffer afterwards and the
samples read. -/
def call (b : AudioJitterBuffer α) : JbCall α → AudioJitterBuffer α × List α
  | JbCall.setSize newSize => (AudioJitterBuffer.setSize b newSize, [])
  | JbCall.setPrebufSamples prebufSamples =>
    (AudioJitterBuffer.setPrebufSamples b prebufSamples, [])
  | JbCall.clear => (AudioJitterBuffer.clear b, [])
  | JbCall.writeSamples samples => (Android.writeSamples b samples, [])
  | JbCall.readSamples count => Android.readSamples b count
  | JbCall.samplesInBuffer => (b, [])

/-- A series of calls on the plain-index variant: what the caller sees after
each. -/
def runCalls : AudioJitterBuffer α → List (JbCall α) → List (JbView α)
  | _, [] => []
  | b, c :: cs =>
    { output := (call b c).2,
      occupancy := AudioJitterBuffer.samplesInBuffer (call b c).1,
      empty := AudioJitterBuffer.empty (call b c).1,
      prebufSamples := AudioJitterBuffer.prebufSamples (call b c).1 }
      :: runCalls (call b c).1 cs

end Android

namespace Ios

variable {α : Type} [Zero α]

/-- Modelled from the spec: the inline member `empty()` of the atomic-index
variant is declared in src/iOS/AudioJitterBuffer.h, which is not among the
sources; the variants being one abstraction, it compares the two indices as
the plain-index one does. -/
def empty (b : AudioJitterBuffer α) : Bool := decide (b.m_head = b.m_tail)

/-- Modelled from the spec: the inline member `prebufSamples()` of the
atomic-index variant (src/iOS/AudioJitterBuffer.h is not among the sources)
returns the configured threshold. -/
def prebufSamples (b : AudioJitterBuffer α) : Nat := b.m_prebufSamples

/-- Member `setSize(unsigned newSize)` of src/iOS/AudioJitterBuffer.cpp. -/
def setSize (b : AudioJitterBuffer α) (newSize : Nat) : AudioJitterBuffer α :=
  let sz := if newSize ≠ 0 then newSize else 1
  Ios.clear { b with m_fifoSize := sz, m_fifo := List.replicate sz 0 }

/-- Member `setPrebufSamples(unsigned prebufSamples)` of
src/iOS/AudioJitterBuffer.cpp. -/
def setPrebufSamples (b : AudioJitterBuffer α) (prebufSamples : Nat) :
    AudioJitterBuffer α :=
  let p := min prebufSamples (usub b.m_fifoSize 1)
  let b1 := { b with m_prebufSamples := p }
  if Ios.empty b1 then { b1 with m_prebuf := decide (p > 0) } else b1

/-- One call on the atomic-index variant, made by one thread: the buffer
afterwards and the samples read. -/
def call (b : AudioJitterBuffer α) : JbCall α → AudioJitterBuffer α × List α
  | JbCall.setSize newSize => (Ios.setSize b newSize, [])
  | JbCall.setPrebufSamples prebufSamples => (Ios.setPrebufSamples b prebufSamples, [])
  | JbCall.clear => (Ios.clear b, [])
  | JbCall.writeSamples samples => (Ios.writeSamples b samples, [])
  | JbCall.readSamples count => Ios.readSamples b count
  | JbCall.samplesInBuffer => (b, [])

/-- A series of calls on the atomic-index variant: what the caller sees
after each. -/
def runCalls : AudioJitterBuffer α → List (JbCall α) → List (JbView α)
  | _, [] => []
  | b, c :: cs =>
    { output := (call b c).2,
      occupancy := Ios.samplesInBuffer (call b c).1,
      empty := Ios.empty (call b c).1,
      prebufSamples := Ios.prebufSamples (call b c).1 }
      :: runCalls (call b c).1 cs

end Ios

/-! ## AudioEngine: output setup (src/android/AudioEngine.cpp) -/

/-- A `QAudioFormat` as far as `setupAudio` uses it: sample rate and sample
format (the channel count is 1 throughout). -/
structure AudioFormat where
  sampleRate : Int
  sampleFormat : SampleFormat

/-- What the output `QAudioDevice` answers (Qt, outside the repository):
`isFormatSupported(format)` and `preferredFormat()`. -/
structure OutputDevice where
  isFormatSupported : AudioFormat → Bool
  preferredFormat : AudioFormat

/-- The members of `AudioEngine` that `setupAudio` reads or writes on the
output side; `m_audioSink` is `true` for a non-null pointer, the other
pointers are `none` when null. The bridge holds a pointer to
`m_jitterBuffer`; its own copy here is the jitter buffer at the time of its
construction. -/
structure OutputSide where
  m_audioSink : Bool
  m_audioStreamDevice : Option Android.AudioStreamDevice
  m_outputResampler : Option Resampler
  m_outputFormat : AudioFormat
  m_jitterBuffer : AudioJitterBuffer ℚ
  m_audioReady : Bool

namespace OutputSide

/-- The output side after the constructor `AudioEngine()`: all pointers
null, a default `QAudioFormat`, the jitter buffer at its default capacity. -/
def new : OutputSide :=
  { m_audioSink := false, m_audioStreamDevice := none, m_outputResampler := none,
    m_outputFormat := { sampleRate := 0, sampleFormat := SampleFormat.Unknown },
    m_jitterBuffer := AudioJitterBuffer.new 3200, m_audioReady := false }

/-- Member `initializeAudioComponents()`, the jitter-buffer part: 24 frames
of capacity, 20 frames (400 ms) of prebuffer; `m_maxBufferFrames` is 24. -/
def initializeAudioComponents (e : OutputSide) : OutputSide :=
  let sized := AudioJitterBuffer.setSize e.m_jitterBuffer (FRAME_SIZE_SAMPLES * 24)
  let prebufFrames := 400 / FRAME_SIZE_MS
  { e with m_jitterBuffer :=
      AudioJitterBuffer.setPrebufSamples sized (FRAME_SIZE_SAMPLES * prebufFrames) }

/-- Member `setupAudio()`. `platformFormat` is the sample format the
preprocessor selects (`Int16` under `Q_OS_ANDROID`, else `Float`). The bridge
is constructed from `m_outputResampler.get()` before the new resampler is
moved into `m_outputResampler`, so it receives the pointer the member held on
entry. -/
def setupAudio (platformFormat : SampleFormat) (outputDevice : OutputDevice)
    (e : OutputSide) : OutputSide :=
  if !e.m_audioSink then
    let e1 := initializeAudioComponents e
    let outFormat : AudioFormat :=
      { sampleRate := SAMPLE_RATE, sampleFormat := platformFormat }
    let negotiated : AudioFormat × Option Resampler :=
      if !outputDevice.isFormatSupported outFormat then
        let alt : AudioFormat := { outFormat with sampleRate := 48000 }
        if outputDevice.isFormatSupported alt then
          (alt, some (Resampler.create SAMPLE_RATE 48000 CHANNELS))
        else
          let pref := outputDevice.preferredFormat
          if pref.sampleRate ≠ SAMPLE_RATE then
            (pref, some (Resampler.create SAMPLE_RATE pref.sampleRate CHANNELS))
          else (pref, none)
      else (outFormat, none)
    let outFormat1 := negotiated.1
    let resampler := negotiated.2
    let bridge : Android.AudioStreamDevice :=
      { m_jitterBuffer := e1.m_jitterBuffer,
        m_outputResampler := e1.m_outputResampler,
        m_outputSampleRate := outFormat1.sampleRate,
        m_sampleFormat := outFormat1.sampleFormat }
    { e1 with
      m_audioSink := true,
      m_audioStreamDevice := some bridge,
      m_outputFormat := outFormat1,
      m_outputResampler :=
        match resampler with
        | some r => some r
        | none => e1.m_outputResampler,
      m_audioReady := true }
  else { e with m_audioReady := true }

/-- An output device that supports the rate 48000 only and prefers it. -/
def device48k : OutputDevice :=
  { isFormatSupported := fun f => decide (f.sampleRate = 48000),
    preferredFormat := { sampleRate := 48000, sampleFormat := SampleFormat.Int16 } }

end OutputSide

/-! ## Resampler: reference filters -/

/-- The calls `process(c.data(), c.size())` for a series of input
vectors. -/
def chunkCalls (chunks : List (List ℚ)) : List (List ℚ × Int) :=
  chunks.map (fun c => (c, (c.length : Int)))

/-- The sample `x_{m-t}` of a stream `x_0, x_1, ...`, taken as `0` before the
start of the stream. -/
def past (x : List ℚ) (m t : Nat) : ℚ := if t ≤ m then x.getD (m - t) 0 else 0

/-- The FIR reference of the decimator: output `k` is the sum over
`t = 0..53` of `coeff_48_16_wide[t] * x_{3k+2-t}`. -/
def decimReference (x : List ℚ) (k : Nat) : ℚ :=
  ∑ t in Finset.range 54, coeff_48_16_wide.getD t 0 * past x (3 * k + 2) t

/-- The polyphase reference of the interpolator: the output of phase `p` for
input sample `m` is `3` times the sum over `t = 0..15` of
`coeff_48_16[p + 3t] * x_{m-t}`. -/
def interpReference (x : List ℚ) (m p : Nat) : ℚ :=
  3 * ∑ t in Finset.range 16, coeff_48_16.getD (p + 3 * t) 0 * past x m t

/-- The table entries the three phases of the interpolator read: `p + 3t`
for `p < 3` and `t < 16`. -/
def interpTaps : List Nat :=
  (List.range 3).flatMap (fun p => (List.range 16).map (fun t => p + 3 * t))

/-- The linear-interpolation reference: output `j` lies at position
`j * inRate / outRate` of the stream prefixed by one zero sample,
`z[i] + (z[i+1] - z[i]) * f` with `i` the integer part and `f` the fraction
of the position. -/
def linearReference (inRate outRate : Int) (x : List ℚ) (j : Nat) : ℚ :=
  let z : List ℚ := 0 :: x
  let q : ℚ := (j : ℚ) * (inRate : ℚ) / (outRate : ℚ)
  let i : Nat := ⌊q⌋₊
  z.getD i 0 + (z.getD (i + 1) 0 - z.getD i 0) * (q - (i : ℚ))

/-- The value of the linear interpolation of mono `data` at the position
`pos ≥ 0`. -/
def linearAt (data : List ℚ) (pos : ℚ) : ℚ :=
  data.getD ⌊pos⌋₊ 0
    + (data.getD (⌊pos⌋₊ + 1) 0 - data.getD ⌊pos⌋₊ 0) * (pos - (⌊pos⌋₊ : ℚ))
/-! ## Jitter buffer: lemmas -/

section JitterBuffer

set_option linter.unusedSectionVars false

variable {α : Type} [Zero α]

theorem mod_wrap {x N : Nat} (h : x < 2 * N) :
    x % N = if x < N then x else x - N := by
  split_ifs with hx
  · exact Nat.mod_eq_of_lt hx
  · have h1 : x = (x - N) + N := by omega
    rw [h1, Nat.add_mod_right, Nat.mod_eq_of_lt (by omega)]
    omega

theorem sib_eq {b : AudioJitterBuffer α} (h : WF b) :
    samplesInBuffer b =
      if b.m_tail ≤ b.m_head then b.m_head - b.m_tail
      else b.m_head + b.m_fifoSize - b.m_tail := by
  obtain ⟨h1, h2, _, h4, h5⟩ := h
  have e : usub (uadd b.m_head b.m_fifoSize) b.m_tail = b.m_head + b.m_fifoSize - b.m_tail := by
    simp only [usub, uadd, U32]; omega
  rw [samplesInBuffer, e, mod_wrap (by omega)]
  split_ifs <;> omega

theorem step_eq {N t : Nat} (hN : 0 < N) (hN2 : N ≤ 2147483648) (ht : t < N) :
    uadd t 1 % N = if t + 1 < N then t + 1 else 0 := by
  have e : uadd t 1 = t + 1 := by simp only [uadd, U32]; omega
  rw [e, mod_wrap (by omega)]
  split_ifs <;> omega

theorem drop_eq {N t : Nat} (hN : 0 < N) (hN2 : N ≤ 2147483648) (ht : t < N) :
    uadd t (N >>> 1) % N = if t + N / 2 < N then t + N / 2 else t + N / 2 - N := by
  have e : uadd t (N >>> 1) = t + N / 2 := by
    simp only [uadd, U32, Nat.shiftRight_eq_div_pow]; omega
  rw [e, mod_wrap (by omega)]


theorem contents_eq (b : AudioJitterBuffer α) :
    contents b = ringList b.m_fifo b.m_fifoSize b.m_tail (samplesInBuffer b) := rfl

theorem ringList_length (fifo : List α) (N t k : Nat) :
    (ringList fifo N t k).length = k := by
  simp [ringList]

theorem ringList_succ (fifo : List α) (N t k : Nat) :
    ringList fifo N t (k + 1) = ringList fifo N t k ++ [fifo.getD ((t + k) % N) 0] := by
  simp [ringList, List.range_succ]

theorem ringList_cons (fifo : List α) (N t k : Nat) :
    ringList fifo N t (k + 1) =
      fifo.getD (t % N) 0 :: ringList fifo N ((t + 1) % N) k := by
  simp only [ringList, List.range_succ_eq_map, List.map_cons, List.map_map, Nat.add_zero]
  congr 1
  apply List.map_congr_left
  intro i _
  simp only [Function.comp, Nat.mod_add_mod]
  congr 2
  omega

theorem ringList_drop (fifo : List α) (N t k d : Nat) :
    (ringList fifo N t k).drop d = ringList fifo N ((t + d) % N) (k - d) := by
  apply List.ext_getElem
  · simp [ringList]
  · intro i h1 h2
    simp only [ringList, List.getElem_drop, List.getElem_map, List.getElem_range,
      Nat.mod_add_mod]
    congr 2
    omega

theorem getD_set_eq (l : List α) (h j : Nat) (s d : α) (hh : h < l.length) :
    (l.set h s).getD j d = if j = h then s else l.getD j d := by
  simp only [List.getD_eq_getElem?_getD, List.getElem?_set]
  split_ifs with h1 h2 h3
  · simp
  · omega
  · omega
  · rfl

theorem ringList_set (fifo : List α) (N t k h : Nat) (s : α)
    (hne : ∀ i, i < k → (t + i) % N ≠ h) :
    ringList (fifo.set h s) N t k = ringList fifo N t k := by
  apply List.map_congr_left
  intro i hi
  have hi2 : i < k := by simpa using hi
  by_cases hh : h < fifo.length
  · rw [getD_set_eq _ _ _ _ _ hh, if_neg (hne i hi2)]
  · rw [List.set_eq_of_length_le (by omega)]

theorem ring_idx_eq_head {b : AudioJitterBuffer α} (h : WF b) {j : Nat}
    (hj : j < b.m_fifoSize) :
    (b.m_tail + j) % b.m_fifoSize = b.m_head ↔ j = samplesInBuffer b := by
  rw [sib_eq h]
  obtain ⟨h1, h2, _, h4, h5⟩ := h
  rw [mod_wrap (by omega)]
  split_ifs <;> omega

theorem sib_lt {b : AudioJitterBuffer α} (h : WF b) : samplesInBuffer b < b.m_fifoSize := by
  rw [samplesInBuffer]; exact Nat.mod_lt _ h.size_pos

/-- Effect of one `writeOne` on a well-formed buffer. -/
theorem writeOne_spec {b : AudioJitterBuffer α} (h : WF b) (s : α) :
    WF (Android.writeOne b s) ∧
    (Android.writeOne b s).m_fifoSize = b.m_fifoSize ∧
    (Android.writeOne b s).m_prebufSamples = b.m_prebufSamples ∧
    (Android.writeOne b s).m_prebuf = b.m_prebuf ∧
    (samplesInBuffer b + 1 < b.m_fifoSize →
      (Android.writeOne b s).m_tail = b.m_tail ∧
      samplesInBuffer (Android.writeOne b s) = samplesInBuffer b + 1 ∧
      contents (Android.writeOne b s) = contents b ++ [s]) ∧
    (samplesInBuffer b + 1 = b.m_fifoSize → 2 ≤ b.m_fifoSize →
      (Android.writeOne b s).m_tail = (b.m_tail + b.m_fifoSize / 2) % b.m_fifoSize ∧
      samplesInBuffer (Android.writeOne b s) = b.m_fifoSize - b.m_fifoSize / 2 ∧
      contents (Android.writeOne b s) = (contents b ++ [s]).drop (b.m_fifoSize / 2)) := by
  have hsib := sib_eq h
  have hk := sib_lt h
  obtain ⟨h1, h2, h3, h4, h5⟩ := h
  have hstep := @step_eq b.m_fifoSize b.m_head h1 h2 h4
  have hdrop := @drop_eq b.m_fifoSize b.m_tail h1 h2 h5
  -- the ring segment of `k + 1` samples from `tail` after the store
  have hseg : ringList (b.m_fifo.set b.m_head s) b.m_fifoSize b.m_tail (samplesInBuffer b + 1)
      = contents b ++ [s] := by
    rw [ringList_succ, ringList_set, contents_eq]
    · congr 2
      have e : (b.m_tail + samplesInBuffer b) % b.m_fifoSize = b.m_head :=
        (ring_idx_eq_head ⟨h1, h2, h3, h4, h5⟩ hk).2 rfl
      rw [e, getD_set_eq _ _ _ _ _ (by omega), if_pos rfl]
    · intro i hi he
      have := (ring_idx_eq_head ⟨h1, h2, h3, h4, h5⟩ (by omega)).1 he
      omega
  by_cases hc : uadd b.m_head 1 % b.m_fifoSize = b.m_tail
  · -- collision
    have hw : Android.writeOne b s =
        { b with m_fifo := b.m_fifo.set b.m_head s, m_head := uadd b.m_head 1 % b.m_fifoSize,
                 m_tail := uadd b.m_tail (b.m_fifoSize >>> 1) % b.m_fifoSize } := by
      simp only [Android.writeOne, if_pos hc]
    have hfull : samplesInBuffer b + 1 = b.m_fifoSize := by
      rw [hsib]; rw [hstep] at hc; split_ifs at hc ⊢ <;> omega
    have hwf : WF (Android.writeOne b s) := by
      rw [hw]
      refine ⟨h1, h2, ?_, ?_, ?_⟩
      · simpa using h3
      · exact Nat.mod_lt _ h1
      · exact Nat.mod_lt _ h1
    refine ⟨hwf, by rw [hw], by rw [hw], by rw [hw], fun hlt => by omega, fun _ hN => ?_⟩
    have ht : (Android.writeOne b s).m_tail = (b.m_tail + b.m_fifoSize / 2) % b.m_fifoSize := by
      rw [hw]; show uadd b.m_tail (b.m_fifoSize >>> 1) % b.m_fifoSize = _
      rw [hdrop, mod_wrap (by omega)]
    have hs : samplesInBuffer (Android.writeOne b s) = b.m_fifoSize - b.m_fifoSize / 2 := by
      rw [sib_eq hwf, hw]
      dsimp only
      rw [hdrop, hstep]
      rw [hstep] at hc
      split_ifs at hc ⊢ <;> omega
    refine ⟨ht, hs, ?_⟩
    rw [contents_eq, hs, ht, ← hseg, ringList_drop, hfull]
    rw [hw]
  · have hw : Android.writeOne b s =
        { b with m_fifo := b.m_fifo.set b.m_head s,
                 m_head := uadd b.m_head 1 % b.m_fifoSize } := by
      simp only [Android.writeOne, if_neg hc]
    have hnf : samplesInBuffer b + 1 < b.m_fifoSize := by
      rw [hsib]; rw [hstep] at hc; split_ifs at hc ⊢ <;> omega
    have hwf : WF (Android.writeOne b s) := by
      rw [hw]
      refine ⟨h1, h2, ?_, ?_, h5⟩
      · simpa using h3
      · exact Nat.mod_lt _ h1
    have hs : samplesInBuffer (Android.writeOne b s) = samplesInBuffer b + 1 := by
      rw [sib_eq hwf, hsib, hw]
      dsimp only
      rw [hstep]
      rw [hstep] at hc
      split_ifs at hc ⊢ <;> omega
    refine ⟨hwf, by rw [hw], by rw [hw], by rw [hw], fun _ => ⟨by rw [hw], hs, ?_⟩, fun he => by omega⟩
    rw [contents_eq, hs, ← hseg, hw]

/-- Effect of one iteration of the read loop on a non-empty buffer. -/
theorem read_step {b : AudioJitterBuffer α} (h : WF b) (hpos : 0 < samplesInBuffer b) :
    WF { b with m_tail := uadd b.m_tail 1 % b.m_fifoSize } ∧
    samplesInBuffer { b with m_tail := uadd b.m_tail 1 % b.m_fifoSize }
      = samplesInBuffer b - 1 ∧
    contents b = b.m_fifo.getD b.m_tail 0 ::
      contents { b with m_tail := uadd b.m_tail 1 % b.m_fifoSize } := by
  have hsib := sib_eq h
  obtain ⟨h1, h2, h3, h4, h5⟩ := h
  have hstep := @step_eq b.m_fifoSize b.m_tail h1 h2 h5
  have hwf : WF { b with m_tail := uadd b.m_tail 1 % b.m_fifoSize } :=
    ⟨h1, h2, h3, h4, Nat.mod_lt _ h1⟩
  have hs : samplesInBuffer { b with m_tail := uadd b.m_tail 1 % b.m_fifoSize }
      = samplesInBuffer b - 1 := by
    rw [sib_eq hwf, hsib]
    rw [hsib] at hpos
    dsimp only
    rw [hstep]
    split_ifs at hpos ⊢ <;> omega
  refine ⟨hwf, hs, ?_⟩
  have e1 : uadd b.m_tail 1 = b.m_tail + 1 := by simp only [uadd, U32]; omega
  rw [contents_eq, contents_eq, hs]
  dsimp only
  obtain ⟨k, hk⟩ : ∃ k, samplesInBuffer b = k + 1 := ⟨samplesInBuffer b - 1, by omega⟩
  rw [hk, ringList_cons, Nat.mod_eq_of_lt h5, e1]
  rfl

/-- The read loop started with `avail = samplesInBuffer()`. -/
theorem readLoop_spec (k : Nat) : ∀ {b : AudioJitterBuffer α}, WF b →
    WF (Android.readLoop b k (samplesInBuffer b)).1 ∧
    (Android.readLoop b k (samplesInBuffer b)).1.m_fifoSize = b.m_fifoSize ∧
    (Android.readLoop b k (samplesInBuffer b)).1.m_fifo = b.m_fifo ∧
    (Android.readLoop b k (samplesInBuffer b)).1.m_head = b.m_head ∧
    (Android.readLoop b k (samplesInBuffer b)).1.m_prebufSamples = b.m_prebufSamples ∧
    (Android.readLoop b k (samplesInBuffer b)).1.m_prebuf = b.m_prebuf ∧
    (Android.readLoop b k (samplesInBuffer b)).2 = (contents b).take (min k (samplesInBuffer b)) ∧
    contents (Android.readLoop b k (samplesInBuffer b)).1
      = (contents b).drop (min k (samplesInBuffer b)) ∧
    samplesInBuffer (Android.readLoop b k (samplesInBuffer b)).1
      = samplesInBuffer b - min k (samplesInBuffer b) := by
  induction k with
  | zero =>
    intro b h
    simp [Android.readLoop, h]
  | succ k ih =>
    intro b h
    by_cases hpos : 0 < samplesInBuffer b
    · obtain ⟨hwf, hs, hc⟩ := read_step h hpos
      have ih1 := ih hwf
      rw [hs] at ih1
      simp only [Android.readLoop, if_pos hpos]
      obtain ⟨i1, i2, i3, i4, i5, i6, i7, i8, i9⟩ := ih1
      refine ⟨i1, i2, i3, i4, i5, i6, ?_, ?_, ?_⟩
      · rw [i7, hc]
        have : min (k + 1) (samplesInBuffer b) = min k (samplesInBuffer b - 1) + 1 := by omega
        rw [this, List.take_succ_cons]
      · rw [i8, hc]
        have : min (k + 1) (samplesInBuffer b) = min k (samplesInBuffer b - 1) + 1 := by omega
        rw [this, List.drop_succ_cons]
      · rw [i9]; omega
    · have h0 : samplesInBuffer b = 0 := by omega
      simp [Android.readLoop, h0, h]

theorem contents_length (b : AudioJitterBuffer α) :
    (contents b).length = samplesInBuffer b := by
  simp [contents]

/-- Result of `readSamples` with a positive count on a well-formed buffer. -/
theorem readSamples_spec {b : AudioJitterBuffer α} (h : WF b) (n : Nat) (hn : 0 < n) :
    (Android.readSamples b (n : Int)).2
      = (contents b).take (min n (samplesInBuffer b))
        ++ List.replicate (n - min n (samplesInBuffer b)) 0 ∧
    WF (Android.readSamples b (n : Int)).1 ∧
    (Android.readSamples b (n : Int)).1.m_fifoSize = b.m_fifoSize ∧
    contents (Android.readSamples b (n : Int)).1
      = (contents b).drop (min n (samplesInBuffer b)) ∧
    samplesInBuffer (Android.readSamples b (n : Int)).1
      = samplesInBuffer b - min n (samplesInBuffer b) := by
  have hc : ¬ ((n : Int) ≤ 0) := by omega
  obtain ⟨i1, i2, _, _, _, _, i7, i8, i9⟩ := readLoop_spec n h
  have hl : (Android.readLoop b n (samplesInBuffer b)).2.length = min n (samplesInBuffer b) := by
    rw [i7, List.length_take, contents_length]; omega
  simp only [Android.readSamples, if_neg hc, Int.toNat_ofNat]
  refine ⟨?_, i1, i2, i8, i9⟩
  show (Android.readLoop b n (samplesInBuffer b)).2 ++
    List.replicate (n - (Android.readLoop b n (samplesInBuffer b)).2.length) 0 = _
  rw [hl, i7]

/-! ### The two variants agree -/

theorem ios_readLoop_congr (b1 b2 : AudioJitterBuffer α) (hf : b1.m_fifo = b2.m_fifo)
    (hs : b1.m_fifoSize = b2.m_fifoSize) (k : Nat) :
    ∀ avail tail, Ios.readLoop b1 k avail tail = Ios.readLoop b2 k avail tail := by
  induction k with
  | zero => intro avail tail; rfl
  | succ k ih =>
    intro avail tail
    simp only [Ios.readLoop, ih, hf, hs]

theorem readLoop_ios (k : Nat) : ∀ (b : AudioJitterBuffer α) (avail : Nat),
    Android.readLoop b k avail =
      ({ b with m_tail := (Ios.readLoop b k avail b.m_tail).1 },
        (Ios.readLoop b k avail b.m_tail).2) := by
  induction k with
  | zero => intro b avail; rfl
  | succ k ih =>
    intro b avail
    by_cases hpos : avail > 0
    · simp only [Android.readLoop, Ios.readLoop, if_pos hpos]
      rw [ih]
      rw [ios_readLoop_congr { b with m_tail := uadd b.m_tail 1 % b.m_fifoSize } b rfl rfl]
    · simp only [Android.readLoop, Ios.readLoop, if_neg hpos]

theorem ios_readSamples_eq (b : AudioJitterBuffer α) (count : Int) :
    Ios.readSamples b count = Android.readSamples b count := by
  simp only [Ios.readSamples, Android.readSamples]
  split_ifs
  · rfl
  · rw [readLoop_ios]

theorem ios_writeLoop_eq (samples : List α) : ∀ (b : AudioJitterBuffer α),
    Ios.writeLoop b samples b.m_head b.m_tail = Android.writeSamples b samples := by
  induction samples with
  | nil => intro b; rfl
  | cons s rest ih =>
    intro b
    simp only [Ios.writeLoop, Android.writeSamples, List.foldl_cons]
    by_cases hc : uadd b.m_head 1 % b.m_fifoSize = b.m_tail
    · rw [if_pos hc]
      have hw : Android.writeOne b s =
          { b with m_fifo := b.m_fifo.set b.m_head s,
                   m_tail := uadd b.m_tail (b.m_fifoSize >>> 1) % b.m_fifoSize,
                   m_head := uadd b.m_head 1 % b.m_fifoSize } := by
        simp only [Android.writeOne, if_pos hc]
      rw [hw]
      exact ih _
    · rw [if_neg hc]
      have hw : Android.writeOne b s =
          { b with m_fifo := b.m_fifo.set b.m_head s,
                   m_head := uadd b.m_head 1 % b.m_fifoSize } := by
        simp only [Android.writeOne, if_neg hc]
      rw [hw]
      exact ih _

theorem ios_writeSamples_eq (b : AudioJitterBuffer α) (samples : List α) :
    Ios.writeSamples b samples = Android.writeSamples b samples := by
  simp only [Ios.writeSamples]
  split_ifs with h
  · have : samples = [] := List.length_eq_zero.mp h
    subst this; rfl
  · exact ios_writeLoop_eq samples b

theorem ios_samplesInBuffer_eq (b : AudioJitterBuffer α) :
    Ios.samplesInBuffer b = samplesInBuffer b := rfl

theorem ios_clear_eq (b : AudioJitterBuffer α) : Ios.clear b = clear b := rfl

theorem sib_zero_iff {b : AudioJitterBuffer α} (h : WF b) :
    samplesInBuffer b = 0 ↔ b.m_head = b.m_tail := by
  rw [sib_eq h]
  obtain ⟨h1, h2, _, h4, h5⟩ := h
  split_ifs <;> omega

theorem wf_new {N : Nat} (h1 : 1 ≤ N) (h2 : N ≤ 2147483648) :
    WF (new N : AudioJitterBuffer α) :=
  ⟨h1, h2, by simp [new], h1, h1⟩

theorem wf_clear {b : AudioJitterBuffer α} (h : WF b) : WF (clear b) :=
  ⟨h.size_pos, h.size_le, h.fifo_len, h.size_pos, h.size_pos⟩

theorem wf_setSize (b : AudioJitterBuffer α) {N : Nat} (h1 : 1 ≤ N) (h2 : N ≤ 2147483648) :
    WF (setSize b N) ∧ (setSize b N).m_fifoSize = N := by
  have hN : N ≠ 0 := by omega
  have e : setSize b N = clear { b with m_fifoSize := N, m_fifo := List.replicate N (0 : α) } := by
    simp only [setSize, if_pos hN]
  rw [e]
  exact ⟨⟨h1, h2, by simp [clear], h1, h1⟩, rfl⟩

theorem emptyStart_spec {N : Nat} (h1 : 1 ≤ N) (h2 : N ≤ 2147483648)
    {b0 : AudioJitterBuffer α} (hb : IsEmptyStart N b0) :
    WF b0 ∧ b0.m_fifoSize = N ∧ samplesInBuffer b0 = 0 ∧ contents b0 = [] := by
  have key : WF b0 ∧ b0.m_fifoSize = N ∧ b0.m_head = b0.m_tail := by
    rcases hb with rfl | ⟨b, rfl⟩ | ⟨b, hw, hN, rfl⟩
    · exact ⟨wf_new h1 h2, rfl, rfl⟩
    · have e : (setSize b N).m_head = (setSize b N).m_tail := by simp [setSize, clear]
      exact ⟨(wf_setSize b h1 h2).1, (wf_setSize b h1 h2).2, e⟩
    · exact ⟨wf_clear hw, hN, rfl⟩
  obtain ⟨hw, hN, he⟩ := key
  have h0 := (sib_zero_iff hw).2 he
  refine ⟨hw, hN, h0, ?_⟩
  rw [contents, h0]; rfl

theorem foldl_writeSamples (ws : List (List α)) : ∀ b : AudioJitterBuffer α,
    ws.foldl Android.writeSamples b = Android.writeSamples b ws.flatten := by
  induction ws with
  | nil => intro b; rfl
  | cons w ws ih =>
    intro b
    rw [List.foldl_cons, ih, List.flatten_cons]
    simp only [Android.writeSamples, List.foldl_append]

theorem foldl_ios_writeSamples (ws : List (List α)) (b : AudioJitterBuffer α) :
    ws.foldl Ios.writeSamples b = ws.foldl Android.writeSamples b := by
  have : (Ios.writeSamples : AudioJitterBuffer α → List α → AudioJitterBuffer α)
      = Android.writeSamples := by
    funext b xs; exact ios_writeSamples_eq b xs
  rw [this]

/-- Writes that stay below capacity append to the contents. -/
theorem writeSamples_below (xs : List α) : ∀ {b : AudioJitterBuffer α}, WF b →
    samplesInBuffer b + xs.length < b.m_fifoSize →
    WF (Android.writeSamples b xs) ∧
    (Android.writeSamples b xs).m_fifoSize = b.m_fifoSize ∧
    samplesInBuffer (Android.writeSamples b xs) = samplesInBuffer b + xs.length ∧
    contents (Android.writeSamples b xs) = contents b ++ xs := by
  induction xs with
  | nil => intro b h _; simp [Android.writeSamples, h]
  | cons s rest ih =>
    intro b h hlt
    obtain ⟨w1, w2, _, _, w5, _⟩ := writeOne_spec h s
    simp only [List.length_cons] at hlt
    obtain ⟨_, w6, w7⟩ := w5 (by omega)
    obtain ⟨i1, i2, i3, i4⟩ := ih w1 (by rw [w2, w6]; omega)
    simp only [Android.writeSamples, List.foldl_cons] at i1 i2 i3 i4 ⊢
    refine ⟨i1, by rw [i2, w2], by rw [i3, w6, List.length_cons]; omega, ?_⟩
    rw [i4, w7, List.append_assoc, List.singleton_append]

/-- Any write leaves a suffix of the old contents followed by the new samples. -/
theorem writeSamples_suffix (xs : List α) : ∀ {b : AudioJitterBuffer α}, WF b →
    2 ≤ b.m_fifoSize →
    WF (Android.writeSamples b xs) ∧
    (Android.writeSamples b xs).m_fifoSize = b.m_fifoSize ∧
    samplesInBuffer (Android.writeSamples b xs) ≤ samplesInBuffer b + xs.length ∧
    (xs ≠ [] → 0 < samplesInBuffer (Android.writeSamples b xs)) ∧
    contents (Android.writeSamples b xs) = (contents b ++ xs).drop
      (samplesInBuffer b + xs.length - samplesInBuffer (Android.writeSamples b xs)) := by
  induction xs with
  | nil => intro b h _; simp [Android.writeSamples, h]
  | cons s rest ih =>
    intro b h hN
    obtain ⟨w1, w2, _, _, w5, w6⟩ := writeOne_spec h s
    have hk := sib_lt h
    -- one step, both cases at once
    have hone : samplesInBuffer (Android.writeOne b s) ≤ samplesInBuffer b + 1 ∧
        0 < samplesInBuffer (Android.writeOne b s) ∧
        contents (Android.writeOne b s) = (contents b ++ [s]).drop
          (samplesInBuffer b + 1 - samplesInBuffer (Android.writeOne b s)) := by
      by_cases hc : samplesInBuffer b + 1 < b.m_fifoSize
      · obtain ⟨_, a, c⟩ := w5 hc
        refine ⟨by omega, by omega, ?_⟩
        rw [c, a]; simp
      · have hf : samplesInBuffer b + 1 = b.m_fifoSize := by omega
        obtain ⟨_, a, c⟩ := w6 hf hN
        refine ⟨by omega, by omega, ?_⟩
        rw [c, a]
        congr 1
        omega
    obtain ⟨o1, o2, o3⟩ := hone
    obtain ⟨i1, i2, i3, i4, i5⟩ := ih w1 (by rw [w2]; exact hN)
    simp only [Android.writeSamples, List.foldl_cons] at i1 i2 i3 i4 i5 ⊢
    refine ⟨i1, by rw [i2, w2], by rw [List.length_cons]; omega, ?_, ?_⟩
    · intro _
      by_cases hr : rest = []
      · subst hr; simpa using o2
      · exact i4 hr
    · rw [i5, o3, ← List.drop_append_of_le_length, List.drop_drop, List.append_assoc,
        List.singleton_append, List.length_cons]
      · congr 1; omega
      · rw [List.length_append, contents_length, List.length_singleton]; omega

theorem writeSamples_wf (xs : List α) : ∀ {b : AudioJitterBuffer α}, WF b →
    WF (Android.writeSamples b xs) ∧
    (Android.writeSamples b xs).m_fifoSize = b.m_fifoSize := by
  induction xs with
  | nil => intro b h; exact ⟨h, rfl⟩
  | cons s rest ih =>
    intro b h
    obtain ⟨w1, w2, _⟩ := writeOne_spec h s
    obtain ⟨i1, i2⟩ := ih w1
    simp only [Android.writeSamples, List.foldl_cons] at i1 i2 ⊢
    exact ⟨i1, by rw [i2, w2]⟩

theorem readSamples_nonpos (b : AudioJitterBuffer α) {n : Int} (hn : n ≤ 0) :
    Android.readSamples b n = (b, []) := by
  simp only [Android.readSamples, if_pos hn]

/-- Result of `readSamples` for any count on a well-formed buffer. -/
theorem readSamples_int {b : AudioJitterBuffer α} (h : WF b) (n : Int) :
    WF (Android.readSamples b n).1 ∧
    (Android.readSamples b n).1.m_fifoSize = b.m_fifoSize ∧
    (0 ≤ n →
      (Android.readSamples b n).2
        = (contents b).take (min n.toNat (samplesInBuffer b))
          ++ List.replicate (n.toNat - min n.toNat (samplesInBuffer b)) 0 ∧
      contents (Android.readSamples b n).1
        = (contents b).drop (min n.toNat (samplesInBuffer b)) ∧
      samplesInBuffer (Android.readSamples b n).1
        = samplesInBuffer b - min n.toNat (samplesInBuffer b)) := by
  by_cases hn : n ≤ 0
  · rw [readSamples_nonpos b hn]
    refine ⟨h, rfl, fun h0 => ?_⟩
    have : n = 0 := by omega
    subst this
    simp
  · obtain ⟨k, rfl⟩ : ∃ k : Nat, n = (k : Int) := ⟨n.toNat, by omega⟩
    obtain ⟨r1, r2, r3, r4, r5⟩ := readSamples_spec h k (by omega)
    exact ⟨r2, r3, fun _ => ⟨by simpa using r1, by simpa using r4, by simpa using r5⟩⟩

theorem reachable_wf {N : Nat} (h1 : 1 ≤ N) (h2 : N ≤ 2147483648)
    {b : AudioJitterBuffer α} (hr : Reachable N b) : WF b ∧ b.m_fifoSize = N := by
  induction hr with
  | init => exact ⟨wf_new h1 h2, rfl⟩
  | write xs _ ih =>
    obtain ⟨a, c⟩ := writeSamples_wf xs ih.1
    exact ⟨a, by rw [c, ih.2]⟩
  | read n _ ih =>
    obtain ⟨a, c, _⟩ := readSamples_int ih.1 n
    exact ⟨a, by rw [c, ih.2]⟩
  | clear _ ih => exact ⟨wf_clear ih.1, ih.2⟩
  | writeAtomic xs _ ih =>
    rw [ios_writeSamples_eq]
    obtain ⟨a, c⟩ := writeSamples_wf xs ih.1
    exact ⟨a, by rw [c, ih.2]⟩
  | readAtomic n _ ih =>
    rw [ios_readSamples_eq]
    obtain ⟨a, c, _⟩ := readSamples_int ih.1 n
    exact ⟨a, by rw [c, ih.2]⟩
  | clearAtomic _ ih => exact ⟨wf_clear ih.1, ih.2⟩

/-! ## Claims -/

/-- C1 (amended): for every capacity `1 ≤ N ≤ 2^31` and every sequence of
`writeSamples` calls applied to an empty buffer (fresh, after `setSize`, or
after `clear`) with total sample count `T < N`, `samplesInBuffer()` equals
`T`, a following `readSamples(out, T)` returns exactly the written samples in
their original order, and the buffer is empty afterwards; in both variants. -/
theorem C1_fifo_round_trip (N : Nat) (h1 : 1 ≤ N) (h2 : N ≤ 2147483648)
    (b0 : AudioJitterBuffer α) (hb : IsEmptyStart N b0) (ws : List (List α))
    (hT : ws.flatten.length < N) :
    (samplesInBuffer (ws.foldl Android.writeSamples b0) = ws.flatten.length ∧
      (Android.readSamples (ws.foldl Android.writeSamples b0) ws.flatten.length).2
        = ws.flatten ∧
      samplesInBuffer
        (Android.readSamples (ws.foldl Android.writeSamples b0) ws.flatten.length).1 = 0 ∧
      empty (Android.readSamples (ws.foldl Android.writeSamples b0) ws.flatten.length).1
        = true) ∧
    (Ios.samplesInBuffer (ws.foldl Ios.writeSamples b0) = ws.flatten.length ∧
      (Ios.readSamples (ws.foldl Ios.writeSamples b0) ws.flatten.length).2 = ws.flatten ∧
      Ios.samplesInBuffer
        (Ios.readSamples (ws.foldl Ios.writeSamples b0) ws.flatten.length).1 = 0 ∧
      empty (Ios.readSamples (ws.foldl Ios.writeSamples b0) ws.flatten.length).1 = true) := by
  have key : samplesInBuffer (ws.foldl Android.writeSamples b0) = ws.flatten.length ∧
      (Android.readSamples (ws.foldl Android.writeSamples b0) ws.flatten.length).2
        = ws.flatten ∧
      samplesInBuffer
        (Android.readSamples (ws.foldl Android.writeSamples b0) ws.flatten.length).1 = 0 ∧
      empty (Android.readSamples (ws.foldl Android.writeSamples b0) ws.flatten.length).1
        = true := by
    obtain ⟨e1, e2, e3, e4⟩ := emptyStart_spec h1 h2 hb
    rw [foldl_writeSamples]
    obtain ⟨w1, w2, w3, w4⟩ := writeSamples_below ws.flatten e1 (by rw [e3, e2]; omega)
    rw [e3, Nat.zero_add] at w3
    rw [e4, List.nil_append] at w4
    obtain ⟨r1, _, r3⟩ := readSamples_int w1 (ws.flatten.length : Int)
    obtain ⟨r4, _, r6⟩ := r3 (by omega)
    rw [w3] at r4 r6
    simp only [Int.toNat_ofNat, Nat.min_self, Nat.sub_self, List.replicate_zero,
      List.append_nil] at r4 r6
    refine ⟨w3, ?_, r6, ?_⟩
    · rw [r4, w4, ← w3, ← contents_length, w4, List.take_length]
    · simp only [empty, decide_eq_true_eq]
      exact (sib_zero_iff r1).1 r6
  refine ⟨key, ?_⟩
  simp only [ios_samplesInBuffer_eq, ios_readSamples_eq, foldl_ios_writeSamples]
  exact key

/-- C1 witness: capacity 4, a fresh buffer, the writes `[1]` then `[2, 3]`. -/
theorem C1_fifo_round_trip_witness :
    (1 ≤ 4 ∧ 4 ≤ 2147483648 ∧ [[(1 : Int)], [2, 3]].flatten.length < 4) ∧
    (Android.readSamples
      ([[(1 : Int)], [2, 3]].foldl Android.writeSamples (new 4))
      [[(1 : Int)], [2, 3]].flatten.length).2 = [[(1 : Int)], [2, 3]].flatten :=
  ⟨by decide,
   (C1_fifo_round_trip 4 (by decide) (by decide) (new 4) (Or.inl rfl)
      [[(1 : Int)], [2, 3]] (by decide)).1.2.1⟩

/-- C1 as stated fails for a capacity above `2^31`: with capacity `2^32 - 1`
one written sample gives `samplesInBuffer() = 0`, and reading one sample
returns silence instead of the sample. -/
theorem C1_counterexample :
    samplesInBuffer (Android.writeSamples (new 4294967295 : AudioJitterBuffer Int) [7]) = 0 ∧
    (Android.readSamples
      (Android.writeSamples (new 4294967295 : AudioJitterBuffer Int) [7]) 1).2 = [0] ∧
    Ios.samplesInBuffer (Ios.writeSamples (new 4294967295 : AudioJitterBuffer Int) [7]) = 0 := by
  decide

/-- C2 (amended): for every buffer state of capacity at most `2^31` with
occupancy `k` and every request `n ≥ 0`, `readSamples(out, n)` stores the
`m = min(n, k)` oldest buffered samples in FIFO order to `out[0..m)` and `0`
to `out[m..n)`, and leaves the remaining `k - m` samples; on an empty buffer
it produces `n` zeros and leaves the buffer empty; with `n ≤ 0` it changes
nothing; both variants compute the same. -/
theorem C2_read_semantics (b : AudioJitterBuffer α) (h : WF b) (n : Int) :
    (0 ≤ n →
      (Android.readSamples b n).2
        = (contents b).take (min n.toNat (samplesInBuffer b))
          ++ List.replicate (n.toNat - min n.toNat (samplesInBuffer b)) 0 ∧
      contents (Android.readSamples b n).1
        = (contents b).drop (min n.toNat (samplesInBuffer b)) ∧
      samplesInBuffer (Android.readSamples b n).1
        = samplesInBuffer b - min n.toNat (samplesInBuffer b)) ∧
    (0 ≤ n → samplesInBuffer b = 0 →
      (Android.readSamples b n).2 = List.replicate n.toNat 0 ∧
      samplesInBuffer (Android.readSamples b n).1 = 0) ∧
    (n ≤ 0 → Android.readSamples b n = (b, [])) ∧
    Ios.readSamples b n = Android.readSamples b n := by
  obtain ⟨_, _, r⟩ := readSamples_int h n
  refine ⟨r, fun h0 hk => ?_, fun hn => readSamples_nonpos b hn, ios_readSamples_eq b n⟩
  obtain ⟨r1, _, r3⟩ := r h0
  rw [hk] at r1 r3
  exact ⟨by simpa using r1, by simpa using r3⟩

/-- C2 witness: capacity 4 holding `[1, 2, 3]`, request 5. -/
theorem C2_read_semantics_witness :
    WF (Android.writeSamples (new 4 : AudioJitterBuffer Int) [1, 2, 3]) ∧
    (Android.readSamples (Android.writeSamples (new 4 : AudioJitterBuffer Int) [1, 2, 3]) 5).2
      = [1, 2, 3, 0, 0] :=
  have hw : WF (Android.writeSamples (new 4 : AudioJitterBuffer Int) [1, 2, 3]) :=
    ⟨by decide, by decide, by decide, by decide, by decide⟩
  ⟨hw, ((C2_read_semantics _ hw 5).1 (by decide)).1.trans (by decide)⟩

/-- C2 as stated fails for a capacity above `2^31`: with capacity `2^32 - 1`,
head `2^32 - 3` and tail `2^32 - 2` the occupancy is `2^32 - 2`, and reading
one sample leaves occupancy `2^32 - 4` instead of `2^32 - 3`. -/
theorem C2_counterexample :
    samplesInBuffer
      ({ m_fifo := List.replicate 4294967295 0, m_fifoSize := 4294967295,
         m_head := 4294967293, m_tail := 4294967294, m_prebufSamples := 0,
         m_prebuf := false } : AudioJitterBuffer Int) = 4294967294 ∧
    samplesInBuffer (Android.readSamples
      ({ m_fifo := List.replicate 4294967295 0, m_fifoSize := 4294967295,
         m_head := 4294967293, m_tail := 4294967294, m_prebufSamples := 0,
         m_prebuf := false } : AudioJitterBuffer Int) 1).1 = 4294967292 := by
  decide

/-- C3 (amended): for every capacity `2 ≤ N ≤ 2^31` and every stream written
in any chunking, with no reads, into an empty buffer, reading
`L = samplesInBuffer()` samples returns exactly the last `L` samples of the
stream in order (`L ≥ 1` when the stream is not empty); in both variants. -/
theorem C3_overflow_keeps_newest (N : Nat) (h1 : 2 ≤ N) (h2 : N ≤ 2147483648)
    (b0 : AudioJitterBuffer α) (hb : IsEmptyStart N b0) (ws : List (List α)) :
    (samplesInBuffer (ws.foldl Android.writeSamples b0) ≤ ws.flatten.length ∧
      (ws.flatten ≠ [] → 0 < samplesInBuffer (ws.foldl Android.writeSamples b0)) ∧
      (Android.readSamples (ws.foldl Android.writeSamples b0)
          (samplesInBuffer (ws.foldl Android.writeSamples b0))).2
        = ws.flatten.drop
            (ws.flatten.length - samplesInBuffer (ws.foldl Android.writeSamples b0))) ∧
    (Ios.samplesInBuffer (ws.foldl Ios.writeSamples b0) ≤ ws.flatten.length ∧
      (ws.flatten ≠ [] → 0 < Ios.samplesInBuffer (ws.foldl Ios.writeSamples b0)) ∧
      (Ios.readSamples (ws.foldl Ios.writeSamples b0)
          (Ios.samplesInBuffer (ws.foldl Ios.writeSamples b0))).2
        = ws.flatten.drop
            (ws.flatten.length - Ios.samplesInBuffer (ws.foldl Ios.writeSamples b0))) := by
  have key : samplesInBuffer (ws.foldl Android.writeSamples b0) ≤ ws.flatten.length ∧
      (ws.flatten ≠ [] → 0 < samplesInBuffer (ws.foldl Android.writeSamples b0)) ∧
      (Android.readSamples (ws.foldl Android.writeSamples b0)
          (samplesInBuffer (ws.foldl Android.writeSamples b0))).2
        = ws.flatten.drop
            (ws.flatten.length - samplesInBuffer (ws.foldl Android.writeSamples b0)) := by
    obtain ⟨e1, e2, e3, e4⟩ := emptyStart_spec (by omega) h2 hb
    rw [foldl_writeSamples]
    obtain ⟨w1, _, w3, w4, w5⟩ := writeSamples_suffix ws.flatten e1 (by rw [e2]; exact h1)
    rw [e3, Nat.zero_add] at w3 w5
    rw [e4, List.nil_append] at w5
    obtain ⟨_, _, r3⟩ := readSamples_int w1
      (samplesInBuffer (Android.writeSamples b0 ws.flatten) : Int)
    obtain ⟨r4, _, _⟩ := r3 (by omega)
    simp only [Int.toNat_ofNat, Nat.min_self, Nat.sub_self, List.replicate_zero,
      List.append_nil] at r4
    refine ⟨w3, w4, ?_⟩
    rw [r4, ← contents_length, List.take_length, contents_length, w5]
  refine ⟨key, ?_⟩
  simp only [ios_samplesInBuffer_eq, ios_readSamples_eq, foldl_ios_writeSamples]
  exact key

/-- C3 witness: capacity 4, the stream `1..6` written as `[1, 2, 3]`, `[4, 5, 6]`. -/
theorem C3_overflow_keeps_newest_witness :
    (2 ≤ 4 ∧ 4 ≤ 2147483648) ∧
    (Android.readSamples ([[(1 : Int), 2, 3], [4, 5, 6]].foldl Android.writeSamples (new 4))
        (samplesInBuffer
          ([[(1 : Int), 2, 3], [4, 5, 6]].foldl Android.writeSamples (new 4)))).2
      = [5, 6] :=
  ⟨by decide,
   (C3_overflow_keeps_newest 4 (by decide) (by decide) (new 4) (Or.inl rfl)
      [[(1 : Int), 2, 3], [4, 5, 6]]).1.2.2.trans (by decide)⟩

/-- C3 as stated fails for a capacity above `2^31`: with capacity `2^32 - 1`
and the stream `[7, 8]`, `samplesInBuffer()` is `1` and reading one sample
returns `7`, not the most recently written `8`. -/
theorem C3_counterexample :
    samplesInBuffer (Android.writeSamples (new 4294967295 : AudioJitterBuffer Int) [7, 8]) = 1 ∧
    (Android.readSamples
      (Android.writeSamples (new 4294967295 : AudioJitterBuffer Int) [7, 8]) 1).2 = [7] ∧
    ([7, 8] : List Int).drop (2 - 1) = [8] := by
  decide

/-- C4 (amended): for every capacity `2 ≤ N ≤ 2^31`, whenever appending a
sample makes head equal tail, tail is advanced by exactly `N / 2` modulo `N`
and the occupancy right after that write is `N - N / 2`; in every state
reachable through write, read and clear the buffer keeps its capacity, its
occupancy is at most `N - 1`, and a write is never rejected: after writing a
non-empty block the newest buffered sample is the last sample written. -/
theorem C4_overflow_drops_half (N : Nat) (h1 : 2 ≤ N) (h2 : N ≤ 2147483648) :
    (∀ (b : AudioJitterBuffer α) (s : α), WF b → b.m_fifoSize = N →
      uadd b.m_head 1 % b.m_fifoSize = b.m_tail →
      (Android.writeOne b s).m_tail = (b.m_tail + N / 2) % N ∧
      samplesInBuffer (Android.writeOne b s) = N - N / 2) ∧
    (∀ b : AudioJitterBuffer α, Reachable N b →
      WF b ∧ b.m_fifoSize = N ∧ samplesInBuffer b ≤ N - 1 ∧
      ∀ xs : List α, xs ≠ [] →
        (contents (Android.writeSamples b xs)).getLast? = xs.getLast? ∧
        Ios.writeSamples b xs = Android.writeSamples b xs) := by
  constructor
  · intro b s h hN hc
    have hsib := sib_eq h
    obtain ⟨_, _, _, _, _, w6⟩ := writeOne_spec h s
    have hfull : samplesInBuffer b + 1 = b.m_fifoSize := by
      rw [hsib]
      rw [step_eq h.size_pos h.size_le h.head_lt] at hc
      have := h.tail_lt
      have := h.head_lt
      split_ifs at hc ⊢ <;> omega
    obtain ⟨a, c, _⟩ := w6 hfull (by omega)
    rw [hN] at a c
    exact ⟨a, c⟩
  · intro b hr
    obtain ⟨hw, hN⟩ := reachable_wf (by omega) h2 hr
    refine ⟨hw, hN, ?_, fun xs hx => ⟨?_, ios_writeSamples_eq b xs⟩⟩
    · have := sib_lt hw; omega
    · obtain ⟨_, _, w3, w4, w5⟩ := writeSamples_suffix xs hw (by omega)
      have hpos := w4 hx
      rw [w5, List.getLast?_drop, if_neg, List.getLast?_append_of_ne_nil _ hx]
      rw [List.length_append, contents_length]
      omega

/-- C4 witness: capacity 4 holding three samples; the fourth write collides. -/
theorem C4_overflow_drops_half_witness :
    (2 ≤ 4 ∧ 4 ≤ 2147483648) ∧
    (Android.writeOne (Android.writeSamples (new 4 : AudioJitterBuffer Int) [1, 2, 3]) 4).m_tail
      = (0 + 4 / 2) % 4 ∧
    samplesInBuffer
      (Android.writeOne (Android.writeSamples (new 4 : AudioJitterBuffer Int) [1, 2, 3]) 4)
      = 4 - 4 / 2 :=
  ⟨by decide,
   (C4_overflow_drops_half 4 (by decide) (by decide)).1
      (Android.writeSamples (new 4 : AudioJitterBuffer Int) [1, 2, 3]) 4
      ⟨by decide, by decide, by decide, by decide, by decide⟩ rfl (by decide)⟩

/-- C4 as stated fails for a capacity above `2^31`: with capacity `2^32 - 1`,
head `2^31` and tail `2^31 + 1` the next write makes head equal tail, and
tail becomes `0`, whereas `(tail + N / 2) mod N` is `1`. -/
theorem C4_counterexample :
    uadd 2147483648 1 % 4294967295 = 2147483649 ∧
    (Android.writeOne
      ({ m_fifo := List.replicate 4294967295 0, m_fifoSize := 4294967295,
         m_head := 2147483648, m_tail := 2147483649, m_prebufSamples := 0,
         m_prebuf := false } : AudioJitterBuffer Int) 7).m_tail = 0 ∧
    (2147483649 + 4294967295 / 2) % 4294967295 = 1 := by
  decide

end JitterBuffer

/-! ## Receive path: lemmas and claims -/

section ReceivePath

open AudioEngine

variable {D α : Type} [Zero α]

theorem plcLoop_calls (dec : DecodeFn D α) (n : Nat) : ∀ (d : D) (jb : AudioJitterBuffer α),
    (plcLoop dec n d jb).calls = List.replicate n (none, MAX_FRAME_SIZE_SAMPLES) := by
  induction n with
  | zero => intro d jb; rfl
  | succ n ih =>
    intro d jb
    simp only [plcLoop, ih, List.replicate_succ]

/-- What the concealment loop does to the decoder and the jitter buffer:
`n` times, one `decode` with null data on the current decoder, its frame
written to the jitter buffer when the count is positive. -/
theorem plcLoop_state (dec : DecodeFn D α) (n : Nat) : ∀ (d : D) (jb : AudioJitterBuffer α),
    ((plcLoop dec n d jb).decoder, (plcLoop dec n d jb).jitterBuffer) =
      Nat.iterate (fun (s : D × AudioJitterBuffer α) =>
        ((dec s.1 none MAX_FRAME_SIZE_SAMPLES).decoder,
          if (dec s.1 none MAX_FRAME_SIZE_SAMPLES).ret > 0 then
            Android.writeSamples s.2
              ((overlay (dec s.1 none MAX_FRAME_SIZE_SAMPLES).pcm
                (List.replicate (MAX_FRAME_SIZE_SAMPLES * CHANNELS) 0)).take
                (dec s.1 none MAX_FRAME_SIZE_SAMPLES).ret.toNat)
          else s.2)) n (d, jb) := by
  induction n with
  | zero => intro d jb; rfl
  | succ n ih =>
    intro d jb
    rw [Function.iterate_succ_apply, ← ih]
    rfl

/-- The concealment block on a non-zero last sequence: the loop runs
`(S - (P + 1)) mod 2^16` times. -/
theorem concealGap_state (dec : DecodeFn D α) (d : D) (P S : Nat) (jb : AudioJitterBuffer α)
    (hP : P ≠ 0) :
    ((concealGap dec d P S jb).decoder, (concealGap dec d P S jb).jitterBuffer) =
      Nat.iterate (fun (s : D × AudioJitterBuffer α) =>
        ((dec s.1 none MAX_FRAME_SIZE_SAMPLES).decoder,
          if (dec s.1 none MAX_FRAME_SIZE_SAMPLES).ret > 0 then
            Android.writeSamples s.2
              ((overlay (dec s.1 none MAX_FRAME_SIZE_SAMPLES).pcm
                (List.replicate (MAX_FRAME_SIZE_SAMPLES * CHANNELS) 0)).take
                (dec s.1 none MAX_FRAME_SIZE_SAMPLES).ret.toNat)
          else s.2)) ((S + U16 - (P + 1) % U16) % U16) (d, jb) := by
  unfold concealGap
  rw [if_pos hP]
  by_cases hd : (S + U16 - (P + 1) % U16) % U16 > 0
  · simp only [if_pos hd]
    exact plcLoop_state dec _ d jb
  · have h0 : (S + U16 - (P + 1) % U16) % U16 = 0 := by omega
    simp only [if_neg hd, h0]
    rfl

/-- The payload decode starts with one `decode` of the payload on the decoder
it is given, and decodes once more on the result when the buffer was too
small. -/
theorem decodePayload_decoder (dec : DecodeFn D α) (d : D) (audioData : List Nat) :
    (decodePayload dec d audioData).decoder =
      if (dec d (some audioData) FRAME_SIZE_SAMPLES).ret = OPUS_BUFFER_TOO_SMALL then
        (dec (dec d (some audioData) FRAME_SIZE_SAMPLES).decoder (some audioData)
          MAX_FRAME_SIZE_SAMPLES).decoder
      else (dec d (some audioData) FRAME_SIZE_SAMPLES).decoder := by
  unfold decodePayload
  by_cases h : (dec d (some audioData) FRAME_SIZE_SAMPLES).ret = OPUS_BUFFER_TOO_SMALL
  · simp only [if_pos h]
  · simp only [if_neg h]

theorem concealGap_calls (dec : DecodeFn D α) (d : D) (P S : Nat) (jb : AudioJitterBuffer α) :
    (concealGap dec d P S jb).calls =
      List.replicate (if P ≠ 0 then (S + U16 - (P + 1) % U16) % U16 else 0)
        (none, MAX_FRAME_SIZE_SAMPLES) := by
  unfold concealGap
  by_cases hP : P ≠ 0
  · simp only [if_pos hP]
    by_cases hd : (S + U16 - (P + 1) % U16) % U16 > 0
    · simp only [if_pos hd, plcLoop_calls]
    · have h0 : (S + U16 - (P + 1) % U16) % U16 = 0 := by omega
      rw [if_neg hd, h0, List.replicate_zero]
  · simp only [if_neg hP, List.replicate_zero]

theorem concealGap_noGap (dec : DecodeFn D α) (d : D) (P S : Nat) (jb : AudioJitterBuffer α)
    (h : P = 0 ∨ (S + U16 - (P + 1) % U16) % U16 = 0) :
    concealGap dec d P S jb = { decoder := d, jitterBuffer := jb, calls := [] } := by
  unfold concealGap
  rcases h with h | h
  · simp [h]
  · simp [h]

theorem plcCalls_replicate (n k : Nat) :
    plcCalls (List.replicate n ((none, k) : DecodeCall)) = n := by
  simp [plcCalls]

theorem plcCalls_append (a b : List DecodeCall) :
    plcCalls (a ++ b) = plcCalls a + plcCalls b := by
  simp [plcCalls]

theorem decodePayload_calls (dec : DecodeFn D α) (d : D) (audioData : List Nat) :
    (decodePayload dec d audioData).calls ≠ [] ∧
    (∀ c ∈ (decodePayload dec d audioData).calls, c.1 = some audioData) ∧
    plcCalls (decodePayload dec d audioData).calls = 0 := by
  unfold decodePayload
  by_cases h : (dec d (some audioData) FRAME_SIZE_SAMPLES).ret = OPUS_BUFFER_TOO_SMALL
  · simp [h, plcCalls]
  · simp [h, plcCalls]

/-- What `processReceivedAudio` does on an engine that is ready. -/
theorem process_ready (dec : DecodeFn D α) (e : AudioEngine D α) (d : D)
    (audioData : List Nat) (S : Nat) (hdec : e.m_decoder = some d)
    (hready : e.m_audioReady = true) :
    processReceivedAudio dec e audioData S =
      ({ e with
          m_decoder := some (decodePayload dec
            (concealGap dec d e.m_lastAudioSeq S e.m_jitterBuffer).decoder audioData).decoder,
          m_jitterBuffer :=
            if (decodePayload dec
                (concealGap dec d e.m_lastAudioSeq S e.m_jitterBuffer).decoder
                audioData).decodedSampleCount > 0 then
              Android.writeSamples
                (concealGap dec d e.m_lastAudioSeq S e.m_jitterBuffer).jitterBuffer
                ((decodePayload dec
                  (concealGap dec d e.m_lastAudioSeq S e.m_jitterBuffer).decoder
                  audioData).decodedSamples.take
                  (decodePayload dec
                    (concealGap dec d e.m_lastAudioSeq S e.m_jitterBuffer).decoder
                    audioData).decodedSampleCount.toNat)
            else (concealGap dec d e.m_lastAudioSeq S e.m_jitterBuffer).jitterBuffer,
          m_lastAudioSeq := S },
        (concealGap dec d e.m_lastAudioSeq S e.m_jitterBuffer).calls ++
          (decodePayload dec
            (concealGap dec d e.m_lastAudioSeq S e.m_jitterBuffer).decoder audioData).calls) := by
  simp only [processReceivedAudio, hdec, hready]
  rfl

theorem processDirect_eq (dec : DecodeFn D α) (e : AudioEngine D α)
    (audioData : List Nat) (S : Nat) :
    processReceivedAudioDirect dec e audioData S = processReceivedAudio dec e audioData S :=
  rfl

theorem process_notReady (dec : DecodeFn D α) (e : AudioEngine D α)
    (audioData : List Nat) (S : Nat) (h : e.m_decoder = none ∨ e.m_audioReady = false) :
    processReceivedAudio dec e audioData S = (e, []) := by
  unfold processReceivedAudio
  rcases h with h | h
  · simp [h]
  · cases hd : e.m_decoder <;> simp [h]

/-- Number of concealment calls of one `processReceivedAudio` on a ready engine. -/
theorem process_plcCalls (dec : DecodeFn D α) (e : AudioEngine D α) (d : D)
    (audioData : List Nat) (S : Nat) (hdec : e.m_decoder = some d)
    (hready : e.m_audioReady = true) :
    plcCalls (processReceivedAudio dec e audioData S).2 =
      if e.m_lastAudioSeq ≠ 0 then (S + U16 - (e.m_lastAudioSeq + 1) % U16) % U16 else 0 := by
  rw [process_ready dec e d audioData S hdec hready]
  simp only [plcCalls_append, concealGap_calls, plcCalls_replicate,
    (decodePayload_calls dec _ audioData).2.2, Nat.add_zero]

/-- A ready engine stays ready and records the unit's sequence number. -/
theorem process_keeps_ready (dec : DecodeFn D α) (e : AudioEngine D α) (d : D)
    (audioData : List Nat) (S : Nat) (hdec : e.m_decoder = some d)
    (hready : e.m_audioReady = true) :
    (∃ d1 : D, (processReceivedAudio dec e audioData S).1.m_decoder = some d1) ∧
    (processReceivedAudio dec e audioData S).1.m_audioReady = true ∧
    (processReceivedAudio dec e audioData S).1.m_lastAudioSeq = S := by
  rw [process_ready dec e d audioData S hdec hready]
  exact ⟨⟨_, rfl⟩, hready, rfl⟩

theorem gap_formula {P S : Nat} (hS : S < 65536) :
    (S + U16 - (P + 1) % U16) % U16 = (((S : Int) - ((P : Int) + 1)) % 65536).toNat := by
  simp only [U16]
  omega

/-- C5: on a ready engine whose last recorded sequence `P` is non-zero, a
unit with sequence `S` makes the decoder's loss-concealment mode (null data,
length 0) run exactly `(S - (P + 1)) mod 2^16` times, all before the payload
is decoded, and not at all when `S = P + 1 (mod 2^16)`: the recorded calls
are that many concealment calls followed by the payload calls, and the
decoder and the jitter buffer are what that many concealment decodes (each
on the decoder the one before left, its frame written when the count is
positive) make of them, the payload then being decoded on that decoder. For
the stream `[5, 6, 9]` unit 6 causes no concealment call and unit 9 exactly
two. -/
theorem C5_concealment_count (dec : DecodeFn D α) (e : AudioEngine D α) (d : D)
    (hdec : e.m_decoder = some d) (hready : e.m_audioReady = true) :
    (∀ (audioData : List Nat) (S : Nat), e.m_lastAudioSeq ≠ 0 → S < 65536 →
      (∃ payloadCalls : List DecodeCall,
        (processReceivedAudio dec e audioData S).2 =
          List.replicate ((((S : Int) - ((e.m_lastAudioSeq : Int) + 1)) % 65536).toNat)
            (none, MAX_FRAME_SIZE_SAMPLES) ++ payloadCalls ∧
        payloadCalls ≠ [] ∧ ∀ c ∈ payloadCalls, c.1 = some audioData) ∧
      plcCalls (processReceivedAudio dec e audioData S).2 =
        (((S : Int) - ((e.m_lastAudioSeq : Int) + 1)) % 65536).toNat ∧
      (S = (e.m_lastAudioSeq + 1) % 65536 →
        plcCalls (processReceivedAudio dec e audioData S).2 = 0) ∧
      (∃ (dN : D) (jbN : AudioJitterBuffer α),
        Nat.iterate (fun (s : D × AudioJitterBuffer α) =>
          ((dec s.1 none MAX_FRAME_SIZE_SAMPLES).decoder,
            if (dec s.1 none MAX_FRAME_SIZE_SAMPLES).ret > 0 then
              Android.writeSamples s.2
                ((overlay (dec s.1 none MAX_FRAME_SIZE_SAMPLES).pcm
                  (List.replicate (MAX_FRAME_SIZE_SAMPLES * CHANNELS) 0)).take
                  (dec s.1 none MAX_FRAME_SIZE_SAMPLES).ret.toNat)
            else s.2))
          ((((S : Int) - ((e.m_lastAudioSeq : Int) + 1)) % 65536).toNat)
          (d, e.m_jitterBuffer) = (dN, jbN) ∧
        (processReceivedAudio dec e audioData S).1.m_decoder =
          some (if (dec dN (some audioData) FRAME_SIZE_SAMPLES).ret = OPUS_BUFFER_TOO_SMALL then
            (dec (dec dN (some audioData) FRAME_SIZE_SAMPLES).decoder (some audioData)
              MAX_FRAME_SIZE_SAMPLES).decoder
          else (dec dN (some audioData) FRAME_SIZE_SAMPLES).decoder) ∧
        (processReceivedAudio dec e audioData S).1.m_jitterBuffer =
          if (decodePayload dec dN audioData).decodedSampleCount > 0 then
            Android.writeSamples jbN
              ((decodePayload dec dN audioData).decodedSamples.take
                (decodePayload dec dN audioData).decodedSampleCount.toNat)
          else jbN)) ∧
    (∀ a5 a6 a9 : List Nat,
      plcCalls (processReceivedAudio dec
        (processReceivedAudio dec e a5 5).1 a6 6).2 = 0 ∧
      plcCalls (processReceivedAudio dec
        (processReceivedAudio dec (processReceivedAudio dec e a5 5).1 a6 6).1 a9 9).2 = 2) := by
  constructor
  · intro audioData S hP hS
    have hcount := process_plcCalls dec e d audioData S hdec hready
    rw [if_pos hP, gap_formula hS] at hcount
    refine ⟨⟨(decodePayload dec
        (concealGap dec d e.m_lastAudioSeq S e.m_jitterBuffer).decoder audioData).calls,
      ?_, (decodePayload_calls dec _ audioData).1,
      (decodePayload_calls dec _ audioData).2.1⟩, hcount, fun hnext => ?_, ?_⟩
    · rw [process_ready dec e d audioData S hdec hready]
      simp only [concealGap_calls, if_pos hP, gap_formula hS]
    · rw [hcount]
      omega
    · have hst := concealGap_state dec d e.m_lastAudioSeq S e.m_jitterBuffer hP
      rw [gap_formula hS] at hst
      refine ⟨(concealGap dec d e.m_lastAudioSeq S e.m_jitterBuffer).decoder,
        (concealGap dec d e.m_lastAudioSeq S e.m_jitterBuffer).jitterBuffer, hst.symm, ?_, ?_⟩
      · rw [process_ready dec e d audioData S hdec hready, ← decodePayload_decoder]
      · rw [process_ready dec e d audioData S hdec hready]
  · intro a5 a6 a9
    obtain ⟨⟨d5, e5d⟩, e5r, e5s⟩ := process_keeps_ready dec e d a5 5 hdec hready
    obtain ⟨⟨d6, e6d⟩, e6r, e6s⟩ := process_keeps_ready dec _ d5 a6 6 e5d e5r
    refine ⟨?_, ?_⟩
    · rw [process_plcCalls dec _ _ a6 6 e5d e5r, e5s]; decide
    · rw [process_plcCalls dec _ _ a9 9 e6d e6r, e6s]; decide

/-- C5 witness: a ready engine with last sequence 5, whose decoder counts the
concealment calls made on it, receives unit 9. -/
theorem C5_concealment_count_witness :
    ((⟨some 0, true, 5, new (FRAME_SIZE_SAMPLES * 24)⟩ : AudioEngine Nat Int).m_decoder = some 0 ∧
      (⟨some 0, true, 5, new (FRAME_SIZE_SAMPLES * 24)⟩ : AudioEngine Nat Int).m_audioReady
        = true) ∧
    plcCalls (processReceivedAudio countingDecoder
      ⟨some 0, true, 5, new (FRAME_SIZE_SAMPLES * 24)⟩ [] 9).2 = 3 ∧
    (processReceivedAudio countingDecoder
      ⟨some 0, true, 5, new (FRAME_SIZE_SAMPLES * 24)⟩ [] 9).1.m_decoder = some 3 :=
  ⟨⟨rfl, rfl⟩,
    ((C5_concealment_count countingDecoder ⟨some 0, true, 5, new (FRAME_SIZE_SAMPLES * 24)⟩ 0
      rfl rfl).1 [] 9 (by decide) (by decide)).2.1.trans (by decide),
    by
      obtain ⟨_, _, _, dN, jbN, hit, hd, _⟩ :=
        (C5_concealment_count countingDecoder ⟨some 0, true, 5, new (FRAME_SIZE_SAMPLES * 24)⟩ 0
          rfl rfl).1 [] 9 (by decide) (by decide)
      have h3 : dN = 3 := (congrArg Prod.fst hit).symm
      rw [hd, h3]
      rfl⟩

/-- C6, the code at the failing input: with last recorded sequence 5, the
out-of-order unit 4 makes `processReceivedAudio` (and the direct variant) run
65534 concealment decodes before the payload, and a duplicate unit 5 runs
65535, for every decoder and every jitter buffer. -/
theorem C6_out_of_order_conceals (dec : DecodeFn D α) (d : D) (jb : AudioJitterBuffer α)
    (audioData : List Nat) :
    plcCalls (processReceivedAudio dec
      { m_decoder := some d, m_audioReady := true, m_lastAudioSeq := 5, m_jitterBuffer := jb }
      audioData 4).2 = 65534 ∧
    plcCalls (processReceivedAudioDirect dec
      { m_decoder := some d, m_audioReady := true, m_lastAudioSeq := 5, m_jitterBuffer := jb }
      audioData 4).2 = 65534 ∧
    plcCalls (processReceivedAudio dec
      { m_decoder := some d, m_audioReady := true, m_lastAudioSeq := 5, m_jitterBuffer := jb }
      audioData 5).2 = 65535 := by
  refine ⟨?_, ?_, ?_⟩
  · rw [process_plcCalls dec _ d audioData 4 rfl rfl]; dsimp only; decide
  · rw [processDirect_eq, process_plcCalls dec _ d audioData 4 rfl rfl]; dsimp only; decide
  · rw [process_plcCalls dec _ d audioData 5 rfl rfl]; dsimp only; decide

/-- C7 (amended): a failed payload decode does not keep the previous sequence:
for every unit processed while the engine is ready, also when its payload
decode fails, the recorded last-seen sequence afterwards is the unit's own
sequence number; the sequence state keeps its value only when the call returns
early (no decoder, or audio not ready). Both slots behave alike. -/
theorem C7_sequence_recorded (dec : DecodeFn D α) (e : AudioEngine D α)
    (audioData : List Nat) (S : Nat) :
    (∀ d : D, e.m_decoder = some d → e.m_audioReady = true →
      (processReceivedAudio dec e audioData S).1.m_lastAudioSeq = S ∧
      (processReceivedAudioDirect dec e audioData S).1.m_lastAudioSeq = S) ∧
    (e.m_decoder = none ∨ e.m_audioReady = false →
      (processReceivedAudio dec e audioData S).1.m_lastAudioSeq = e.m_lastAudioSeq ∧
      (processReceivedAudioDirect dec e audioData S).1.m_lastAudioSeq = e.m_lastAudioSeq) := by
  constructor
  · intro d hdec hready
    rw [processDirect_eq, process_ready dec e d audioData S hdec hready]
    exact ⟨rfl, rfl⟩
  · intro h
    rw [processDirect_eq, process_notReady dec e audioData S h]
    exact ⟨rfl, rfl⟩

/-- C7 witness: the failing unit 6 after unit 5 is recorded as 6. -/
theorem C7_sequence_recorded_witness :
    (decodePayload rejectingDecoder () []).decodedSampleCount ≤ 0 ∧
    (processReceivedAudio rejectingDecoder (readyEngine 5) [] 6).1.m_lastAudioSeq = 6 :=
  ⟨by decide,
   ((C7_sequence_recorded rejectingDecoder (readyEngine 5) [] 6).1 () rfl rfl).1⟩

/-- C7 as stated fails: the payload of unit 6 fails to decode, the recorded
sequence was 5 before the call and is 6 after it. -/
theorem C7_counterexample :
    (decodePayload rejectingDecoder
      (concealGap rejectingDecoder () 5 6 (readyEngine 5).m_jitterBuffer).decoder
      []).decodedSampleCount ≤ 0 ∧
    (readyEngine 5).m_lastAudioSeq = 5 ∧
    (processReceivedAudio rejectingDecoder (readyEngine 5) [] 6).1.m_lastAudioSeq ≠ 5 ∧
    (processReceivedAudioDirect rejectingDecoder (readyEngine 5) [] 6).1.m_lastAudioSeq ≠ 5 := by
  decide

/-- After a failed payload decode the jitter buffer is the one the
concealment block left. -/
theorem process_failed_jitterBuffer (dec : DecodeFn D α) (e : AudioEngine D α) (d : D)
    (audioData : List Nat) (S : Nat) (hdec : e.m_decoder = some d)
    (hready : e.m_audioReady = true)
    (hfail : (decodePayload dec
      (concealGap dec d e.m_lastAudioSeq S e.m_jitterBuffer).decoder
      audioData).decodedSampleCount ≤ 0) :
    (processReceivedAudio dec e audioData S).1.m_jitterBuffer =
      (concealGap dec d e.m_lastAudioSeq S e.m_jitterBuffer).jitterBuffer := by
  rw [process_ready dec e d audioData S hdec hready]
  simp only [if_neg (not_lt.mpr hfail)]

/-- C8 (amended): a failed payload decode writes no payload samples: for
every unit whose payload decode fails, the jitter buffer after
`processReceivedAudio` is the buffer as the concealment frames synthesized for
the unit's sequence gap left it; when the unit shows no gap (last sequence 0,
or `S = P + 1 (mod 2^16)`) the jitter buffer is the one before the call. -/
theorem C8_failure_writes_no_payload (dec : DecodeFn D α) (e : AudioEngine D α) (d : D)
    (audioData : List Nat) (S : Nat) (hdec : e.m_decoder = some d)
    (hready : e.m_audioReady = true)
    (hfail : (decodePayload dec
      (concealGap dec d e.m_lastAudioSeq S e.m_jitterBuffer).decoder
      audioData).decodedSampleCount ≤ 0) :
    (processReceivedAudio dec e audioData S).1.m_jitterBuffer =
      (concealGap dec d e.m_lastAudioSeq S e.m_jitterBuffer).jitterBuffer ∧
    (e.m_lastAudioSeq = 0 ∨ S = (e.m_lastAudioSeq + 1) % 65536 →
      (processReceivedAudio dec e audioData S).1.m_jitterBuffer = e.m_jitterBuffer) := by
  have hj := process_failed_jitterBuffer dec e d audioData S hdec hready hfail
  refine ⟨hj, fun h => ?_⟩
  rw [hj, concealGap_noGap]
  rcases h with h | h
  · exact Or.inl h
  · right
    simp only [U16]
    omega

/-- C8 witness: the failing unit 6 after unit 5 leaves the buffer as it was. -/
theorem C8_failure_writes_no_payload_witness :
    ((readyEngine 5).m_decoder = some () ∧ (readyEngine 5).m_audioReady = true ∧
      (decodePayload rejectingDecoder
        (concealGap rejectingDecoder () (readyEngine 5).m_lastAudioSeq 6
          (readyEngine 5).m_jitterBuffer).decoder []).decodedSampleCount ≤ 0) ∧
    (processReceivedAudio rejectingDecoder (readyEngine 5) [] 6).1.m_jitterBuffer
      = (readyEngine 5).m_jitterBuffer :=
  ⟨⟨rfl, rfl, by decide⟩,
   (C8_failure_writes_no_payload rejectingDecoder (readyEngine 5) () [] 6 rfl rfl
      (by decide)).2 (Or.inr (by decide))⟩

/-- C8 as stated fails: unit 7 after unit 5 shows a gap of one unit, its
payload fails to decode, and the jitter buffer, empty before the call, holds
the 960 samples of the concealment frame afterwards. -/
theorem C8_counterexample :
    (decodePayload rejectingDecoder
      (concealGap rejectingDecoder () 5 7 (readyEngine 5).m_jitterBuffer).decoder
      []).decodedSampleCount ≤ 0 ∧
    AudioJitterBuffer.samplesInBuffer (readyEngine 5).m_jitterBuffer = 0 ∧
    AudioJitterBuffer.samplesInBuffer
      (processReceivedAudio rejectingDecoder (readyEngine 5) [] 7).1.m_jitterBuffer = 960 := by
  have hfail : (decodePayload rejectingDecoder
      (concealGap rejectingDecoder () 5 7 (readyEngine 5).m_jitterBuffer).decoder
      []).decodedSampleCount ≤ 0 := by decide
  have hgap : (concealGap rejectingDecoder () 5 7 (readyEngine 5).m_jitterBuffer).jitterBuffer
      = Android.writeSamples (AudioJitterBuffer.new 7680) (List.replicate 960 (0 : Int)) := by
    have e : concealGap rejectingDecoder () 5 7 (readyEngine 5).m_jitterBuffer
        = plcLoop rejectingDecoder 1 () (readyEngine 5).m_jitterBuffer := rfl
    rw [e]
    simp only [plcLoop, rejectingDecoder, readyEngine, overlay, MAX_FRAME_SIZE_SAMPLES,
      FRAME_SIZE_SAMPLES, SAMPLE_RATE, FRAME_SIZE_MS, CHANNELS]
    norm_num
    rfl
  have hwf : AudioJitterBuffer.WF (AudioJitterBuffer.new 7680 : AudioJitterBuffer Int) :=
    wf_new (by decide) (by decide)
  have h0 : AudioJitterBuffer.samplesInBuffer (AudioJitterBuffer.new 7680 : AudioJitterBuffer Int)
      = 0 := by decide
  refine ⟨hfail, by decide, ?_⟩
  rw [process_failed_jitterBuffer rejectingDecoder (readyEngine 5) () [] 7 rfl rfl hfail]
  show AudioJitterBuffer.samplesInBuffer
    (concealGap rejectingDecoder () 5 7 (readyEngine 5).m_jitterBuffer).jitterBuffer = 960
  rw [hgap, (writeSamples_below (List.replicate 960 (0 : Int)) hwf
    (by rw [h0, List.length_replicate]; decide)).2.2.1, h0, List.length_replicate]

end ReceivePath

/-! ## Resampler: lemmas and claims -/

section ResamplerProofs

open Resampler

theorem readInput_eq (input : List ℚ) (k : Nat) (h : input.length = k) :
    readInput input k = input := by
  subst h
  apply List.ext_getElem
  · simp [readInput]
  · intro i h1 h2
    simp only [readInput, List.getElem_map, List.getElem_range]
    exact List.getD_eq_getElem _ _ h2

theorem decimLoop_cons3 (q0 q1 q2 : ℚ) (rest d : List ℚ) :
    decimLoop (q0 :: q1 :: q2 :: rest) d =
      ((decimLoop rest (([q2, q1, q0] ++ d).take d.length)).1,
       (decimLoop rest (([q2, q1, q0] ++ d).take d.length)).2.1,
       firSum coeff_48_16_wide (([q2, q1, q0] ++ d).take d.length)
          coeff_48_16_wide.length 0 1 ::
         (decimLoop rest (([q2, q1, q0] ++ d).take d.length)).2.2) := by
  rw [decimLoop]

theorem decimLoop_append : ∀ (a d b : List ℚ),
    decimLoop (a ++ b) d =
      ((decimLoop ((decimLoop a d).1 ++ b) (decimLoop a d).2.1).1,
       (decimLoop ((decimLoop a d).1 ++ b) (decimLoop a d).2.1).2.1,
       (decimLoop a d).2.2 ++ (decimLoop ((decimLoop a d).1 ++ b) (decimLoop a d).2.1).2.2)
  | [], d, b => by simp [decimLoop]
  | [q0], d, b => by simp [decimLoop]
  | [q0, q1], d, b => by simp [decimLoop]
  | q0 :: q1 :: q2 :: rest, d, b => by
    have ih := decimLoop_append rest (([q2, q1, q0] ++ d).take d.length) b
    rw [List.cons_append, List.cons_append, List.cons_append, decimLoop_cons3,
      decimLoop_cons3, ih]
    rfl

theorem interpLoop_cons (t : Nat) (q : ℚ) (rest d : List ℚ) :
    interpLoop t (q :: rest) d =
      ((interpLoop t rest ((q :: d.take (t - 1)) ++ d.drop t)).1,
       (List.range 3).map
          (fun phase => firSum coeff_48_16 ((q :: d.take (t - 1)) ++ d.drop t) t phase 3 * 3)
         ++ (interpLoop t rest ((q :: d.take (t - 1)) ++ d.drop t)).2) := by
  rw [interpLoop]

theorem interpLoop_append (t : Nat) : ∀ (a d b : List ℚ),
    interpLoop t (a ++ b) d =
      ((interpLoop t b (interpLoop t a d).1).1,
       (interpLoop t a d).2 ++ (interpLoop t b (interpLoop t a d).1).2)
  | [], d, b => by simp [interpLoop]
  | q :: rest, d, b => by
    have ih := interpLoop_append t rest ((q :: d.take (t - 1)) ++ d.drop t) b
    rw [List.cons_append, interpLoop_cons, interpLoop_cons, ih, List.append_assoc]

theorem process_nonpos (r : Resampler) (input : List ℚ) {n : Int} (h : n ≤ 0) :
    process r input n = some (r, []) := by
  simp only [process, if_pos h]

theorem process_decim (r : Resampler) (hm : r.m_mode = Mode.Decim48To16)
    (x : List ℚ) (n : Nat) (h : 0 < n) (hx : x.length = n) :
    process r x n =
      some ({ r with m_queue := (decimLoop (r.m_queue ++ x) r.m_delay).1,
                     m_delay := (decimLoop (r.m_queue ++ x) r.m_delay).2.1 },
            (decimLoop (r.m_queue ++ x) r.m_delay).2.2) := by
  have c : ¬ ((n : Int) ≤ 0) := by omega
  simp only [process, if_neg c, hm, Int.toNat_ofNat, readInput_eq x n hx]

theorem process_interp (r : Resampler) (hm : r.m_mode = Mode.Interp16To48)
    (x : List ℚ) (n : Nat) (h : 0 < n) (hx : x.length = n) :
    process r x n =
      some ({ r with m_queue := [],
                     m_delay := (interpLoop (coeff_48_16.length / 3)
                        (r.m_queue ++ x) r.m_delay).1 },
            (interpLoop (coeff_48_16.length / 3) (r.m_queue ++ x) r.m_delay).2) := by
  have c : ¬ ((n : Int) ≤ 0) := by omega
  simp only [process, if_neg c, hm, Int.toNat_ofNat, readInput_eq x n hx]

/-- Chunking invariance of the decimator. -/
theorem decim_chunking (r : Resampler) (hm : r.m_mode = Mode.Decim48To16)
    (x y : List ℚ) (n1 n2 : Nat) (h1 : 0 < n1) (h2 : 0 < n2)
    (hx : x.length = n1) (hy : y.length = n2) :
    ∃ r1 o1 r2 o2, process r x n1 = some (r1, o1) ∧ process r1 y n2 = some (r2, o2) ∧
      process r (x ++ y) ((n1 + n2 : Nat) : Int) = some (r2, o1 ++ o2) := by
  have p1 := process_decim r hm x n1 h1 hx
  have p2 := process_decim
    { r with m_queue := (decimLoop (r.m_queue ++ x) r.m_delay).1,
             m_delay := (decimLoop (r.m_queue ++ x) r.m_delay).2.1 } hm y n2 h2 hy
  refine ⟨_, _, _, _, p1, p2, ?_⟩
  rw [process_decim r hm (x ++ y) (n1 + n2) (by omega) (by rw [List.length_append, hx, hy])]
  rw [← List.append_assoc, decimLoop_append]

/-- Chunking invariance of the interpolator. -/
theorem interp_chunking (r : Resampler) (hm : r.m_mode = Mode.Interp16To48)
    (x y : List ℚ) (n1 n2 : Nat) (h1 : 0 < n1) (h2 : 0 < n2)
    (hx : x.length = n1) (hy : y.length = n2) :
    ∃ r1 o1 r2 o2, process r x n1 = some (r1, o1) ∧ process r1 y n2 = some (r2, o2) ∧
      process r (x ++ y) ((n1 + n2 : Nat) : Int) = some (r2, o1 ++ o2) := by
  have p1 := process_interp r hm x n1 h1 hx
  have p2 := process_interp
    { r with m_queue := [],
             m_delay := (interpLoop (coeff_48_16.length / 3) (r.m_queue ++ x) r.m_delay).1 }
    hm y n2 h2 hy
  refine ⟨_, _, _, _, p1, p2, ?_⟩
  rw [process_interp r hm (x ++ y) (n1 + n2) (by omega) (by rw [List.length_append, hx, hy])]
  rw [← List.append_assoc, interpLoop_append]
  simp

/-! ### The linear loop -/

theorem linearLoop_done (data : List ℚ) (c : Nat) (step : ℚ) (limit : Int) (F : Nat)
    {pos : ℚ} (h : ¬ pos < (limit : ℚ)) :
    linearLoop data c step limit F pos = some (pos, []) := by
  cases F <;> simp only [linearLoop, if_neg h]

theorem linearLoop_step (data : List ℚ) (c : Nat) (step : ℚ) (limit : Int) (F : Nat)
    {pos : ℚ} (h : pos < (limit : ℚ)) :
    linearLoop data c step limit (F + 1) pos =
      (linearLoop data c step limit F (pos + step)).map
        (fun r => (r.1, linearFrame data c pos ++ r.2)) := by
  simp only [linearLoop, if_pos h]

theorem linearLoop_zero_none (data : List ℚ) (c : Nat) (step : ℚ) (limit : Int)
    {pos : ℚ} (h : pos < (limit : ℚ)) :
    linearLoop data c step limit 0 pos = none := by
  simp only [linearLoop, if_pos h]

/-- More fuel does not change a result. -/
theorem linearLoop_mono (data : List ℚ) (c : Nat) (step : ℚ) (limit : Int) :
    ∀ (F : Nat) (pos : ℚ) (r : ℚ × List ℚ),
      linearLoop data c step limit F pos = some r →
      ∀ G : Nat, linearLoop data c step limit (F + G) pos = some r := by
  intro F
  induction F with
  | zero =>
    intro pos r h G
    by_cases hlt : pos < (limit : ℚ)
    · rw [linearLoop_zero_none _ _ _ _ hlt] at h; exact absurd h (by simp)
    · rw [linearLoop_done _ _ _ _ _ hlt] at h ⊢; exact h
  | succ F ih =>
    intro pos r h G
    by_cases hlt : pos < (limit : ℚ)
    · rw [linearLoop_step _ _ _ _ _ hlt, Option.map_eq_some'] at h
      obtain ⟨r1, h1, h2⟩ := h
      have e : F + 1 + G = (F + G) + 1 := by omega
      rw [e, linearLoop_step _ _ _ _ _ hlt, ih _ _ h1 G, Option.map_some', h2]
    · rw [linearLoop_done _ _ _ _ _ hlt] at h ⊢; exact h

/-- Two runs that both finish agree. -/
theorem linearLoop_unique (data : List ℚ) (c : Nat) (step : ℚ) (limit : Int)
    {F G : Nat} {pos : ℚ} {r s : ℚ × List ℚ}
    (hF : linearLoop data c step limit F pos = some r)
    (hG : linearLoop data c step limit G pos = some s) : r = s := by
  have a := linearLoop_mono data c step limit F pos r hF G
  have b := linearLoop_mono data c step limit G pos s hG F
  rw [Nat.add_comm] at b
  rw [a] at b
  exact Option.some.inj b

/-- The loop finishes within `F` iterations when `F` steps reach the limit. -/
theorem linearLoop_terminates (data : List ℚ) (c : Nat) (step : ℚ) (limit : Int) :
    ∀ (F : Nat) (pos : ℚ), (limit : ℚ) - pos ≤ F * step →
      ∃ r, linearLoop data c step limit F pos = some r := by
  intro F
  induction F with
  | zero =>
    intro pos h
    refine ⟨_, linearLoop_done _ _ _ _ _ ?_⟩
    simp only [Nat.cast_zero, zero_mul] at h
    linarith
  | succ F ih =>
    intro pos h
    by_cases hlt : pos < (limit : ℚ)
    · obtain ⟨r, hr⟩ := ih (pos + step) (by push_cast at h; linarith)
      exact ⟨_, by rw [linearLoop_step _ _ _ _ _ hlt, hr, Option.map_some']⟩
    · exact ⟨_, linearLoop_done _ _ _ _ _ hlt⟩

theorem linearFuel_enough (step pos : ℚ) (limit : Int) (hstep : 0 < step) :
    (limit : ℚ) - pos ≤ (linearFuel step pos limit : ℚ) * step := by
  simp only [linearFuel, if_pos hstep]
  have h1 : ((limit : ℚ) - pos) / step ≤ (⌈((limit : ℚ) - pos) / step⌉ : ℚ) := Int.le_ceil _
  have h2 : (⌈((limit : ℚ) - pos) / step⌉ : ℚ) ≤
      ((⌈((limit : ℚ) - pos) / step⌉.toNat : ℕ) : ℚ) := by
    have := Int.self_le_toNat ⌈((limit : ℚ) - pos) / step⌉
    exact_mod_cast this
  have h3 := le_trans h1 h2
  rwa [div_le_iff₀ hstep] at h3

/-- Running to `l1` and then on to `l2` is running to `l2`. -/
theorem linearLoop_split (data : List ℚ) (c : Nat) (step : ℚ) (l1 l2 : Int) (hl : l1 ≤ l2) :
    ∀ (F1 : Nat) (pos p1 : ℚ) (o1 : List ℚ),
      linearLoop data c step l1 F1 pos = some (p1, o1) →
      ∀ (F2 : Nat) (p2 : ℚ) (o2 : List ℚ),
        linearLoop data c step l2 F2 p1 = some (p2, o2) →
        linearLoop data c step l2 (F2 + F1) pos = some (p2, o1 ++ o2) := by
  have hl' : (l1 : ℚ) ≤ (l2 : ℚ) := by exact_mod_cast hl
  intro F1
  induction F1 with
  | zero =>
    intro pos p1 o1 h F2 p2 o2 h2
    by_cases hlt : pos < (l1 : ℚ)
    · rw [linearLoop_zero_none _ _ _ _ hlt] at h; exact absurd h (by simp)
    · rw [linearLoop_done _ _ _ _ _ hlt] at h
      obtain ⟨rfl, rfl⟩ := Prod.mk.inj (Option.some.inj h)
      simpa using h2
  | succ F1 ih =>
    intro pos p1 o1 h F2 p2 o2 h2
    by_cases hlt : pos < (l1 : ℚ)
    · rw [linearLoop_step _ _ _ _ _ hlt, Option.map_eq_some'] at h
      obtain ⟨⟨q1, u1⟩, h1, hq⟩ := h
      obtain ⟨rfl, rfl⟩ := Prod.mk.inj hq
      have := ih _ _ _ h1 F2 p2 o2 h2
      have e : F2 + (F1 + 1) = (F2 + F1) + 1 := by omega
      rw [e, linearLoop_step _ _ _ _ _ (lt_of_lt_of_le hlt hl'), this, Option.map_some']
      simp
    · rw [linearLoop_done _ _ _ _ _ hlt] at h
      obtain ⟨rfl, rfl⟩ := Prod.mk.inj (Option.some.inj h)
      simpa using linearLoop_mono data c step l2 F2 _ _ h2 (F1 + 1)

/-- A finished loop stopped at or beyond the limit. -/
theorem linearLoop_exit (data : List ℚ) (c : Nat) (step : ℚ) (limit : Int) :
    ∀ (F : Nat) (pos p : ℚ) (o : List ℚ),
      linearLoop data c step limit F pos = some (p, o) → (limit : ℚ) ≤ p := by
  intro F
  induction F with
  | zero =>
    intro pos p o h
    by_cases hlt : pos < (limit : ℚ)
    · rw [linearLoop_zero_none _ _ _ _ hlt] at h; exact absurd h (by simp)
    · rw [linearLoop_done _ _ _ _ _ hlt] at h
      obtain ⟨rfl, _⟩ := Prod.mk.inj (Option.some.inj h)
      exact not_lt.mp hlt
  | succ F ih =>
    intro pos p o h
    by_cases hlt : pos < (limit : ℚ)
    · rw [linearLoop_step _ _ _ _ _ hlt, Option.map_eq_some'] at h
      obtain ⟨⟨q1, u1⟩, h1, hq⟩ := h
      obtain ⟨rfl, _⟩ := Prod.mk.inj hq
      exact ih _ _ _ h1
    · rw [linearLoop_done _ _ _ _ _ hlt] at h
      obtain ⟨rfl, _⟩ := Prod.mk.inj (Option.some.inj h)
      exact not_lt.mp hlt

/-- The frame of a non-negative position, over natural-number indices. -/
theorem linearFrame_eq (data : List ℚ) (c : Nat) {pos : ℚ} (h : 0 ≤ pos) :
    linearFrame data c pos =
      (List.range c).map (fun ch =>
        data.getD (⌊pos⌋₊ * c + ch) 0
          + (data.getD ((⌊pos⌋₊ + 1) * c + ch) 0 - data.getD (⌊pos⌋₊ * c + ch) 0)
            * (pos - (⌊pos⌋₊ : ℚ))) := by
  have e1 : truncInt pos = ((⌊pos⌋₊ : ℕ) : ℤ) := by
    rw [truncInt, if_pos h, Int.natCast_floor_eq_floor h]
  simp only [linearFrame, e1]
  apply List.map_congr_left
  intro ch _
  have i0 : (((⌊pos⌋₊ : ℕ) : ℤ) * (c : ℤ) + (ch : ℤ)).toNat = ⌊pos⌋₊ * c + ch := by
    rw [← Nat.cast_mul, ← Nat.cast_add, Int.toNat_ofNat]
  have i1 : ((((⌊pos⌋₊ : ℕ) : ℤ) + 1) * (c : ℤ) + (ch : ℤ)).toNat = (⌊pos⌋₊ + 1) * c + ch := by
    have : (((⌊pos⌋₊ : ℕ) : ℤ) + 1) * (c : ℤ) + (ch : ℤ) = (((⌊pos⌋₊ + 1) * c + ch : ℕ) : ℤ) := by
      push_cast; ring
    rw [this, Int.toNat_ofNat]
  rw [i0, i1]
  simp

/-- Frames read only the two input frames around the position. -/
theorem linearFrame_congr (D D' : List ℚ) (c l : Nat)
    (hD : ∀ i, i < (l + 1) * c → D.getD i 0 = D'.getD i 0)
    {pos : ℚ} (h0 : 0 ≤ pos) (hl : pos < (l : ℚ)) :
    linearFrame D c pos = linearFrame D' c pos := by
  rw [linearFrame_eq D c h0, linearFrame_eq D' c h0]
  apply List.map_congr_left
  intro ch hch
  have hch' : ch < c := by simpa using hch
  have hk : ⌊pos⌋₊ < l := (Nat.floor_lt h0).2 hl
  have b1 : (⌊pos⌋₊ + 2) * c ≤ (l + 1) * c := Nat.mul_le_mul_right c (by omega)
  have e1 : (⌊pos⌋₊ + 1) * c = ⌊pos⌋₊ * c + c := Nat.succ_mul _ _
  have e2 : (⌊pos⌋₊ + 2) * c = ⌊pos⌋₊ * c + c + c := by ring
  rw [hD (⌊pos⌋₊ * c + ch) (by omega), hD ((⌊pos⌋₊ + 1) * c + ch) (by omega)]

/-- Frames of a position at or beyond `m`, read from the data without its
first `m` frames. -/
theorem linearFrame_shift (D D' : List ℚ) (c m : Nat)
    (hD : ∀ i, D'.getD i 0 = D.getD (i + m * c) 0)
    {pos : ℚ} (hm : (m : ℚ) ≤ pos) :
    linearFrame D c pos = linearFrame D' c (pos - m) := by
  have h0 : 0 ≤ pos := le_trans (Nat.cast_nonneg m) hm
  have h1 : 0 ≤ pos - m := by linarith
  rw [linearFrame_eq D c h0, linearFrame_eq D' c h1]
  have hk : m ≤ ⌊pos⌋₊ := Nat.le_floor hm
  have hf : ⌊pos - (m : ℚ)⌋₊ = ⌊pos⌋₊ - m := Nat.floor_sub_nat pos m
  apply List.map_congr_left
  intro ch _
  rw [hf, hD, hD]
  have a1 : (⌊pos⌋₊ - m) * c + ch + m * c = ⌊pos⌋₊ * c + ch := by
    have : ⌊pos⌋₊ = (⌊pos⌋₊ - m) + m := by omega
    conv_rhs => rw [this, Nat.add_mul]
    omega
  have a2 : (⌊pos⌋₊ - m + 1) * c + ch + m * c = (⌊pos⌋₊ + 1) * c + ch := by
    have : ⌊pos⌋₊ + 1 = (⌊pos⌋₊ - m + 1) + m := by omega
    conv_rhs => rw [this, Nat.add_mul]
    omega
  rw [a1, a2]
  have a3 : ((⌊pos⌋₊ - m : ℕ) : ℚ) = (⌊pos⌋₊ : ℚ) - (m : ℚ) := by
    rw [Nat.cast_sub hk]
  rw [a3]
  ring

theorem linearLoop_congr (D D' : List ℚ) (c l : Nat) (step : ℚ) (hstep : 0 ≤ step)
    (hD : ∀ i, i < (l + 1) * c → D.getD i 0 = D'.getD i 0) :
    ∀ (F : Nat) (pos : ℚ), 0 ≤ pos →
      linearLoop D c step (l : ℤ) F pos = linearLoop D' c step (l : ℤ) F pos := by
  intro F
  induction F with
  | zero => intro pos _; simp only [linearLoop]
  | succ F ih =>
    intro pos h0
    by_cases hlt : pos < (((l : ℕ) : ℤ) : ℚ)
    · rw [linearLoop_step _ _ _ _ _ hlt, linearLoop_step _ _ _ _ _ hlt,
        ih (pos + step) (by linarith),
        linearFrame_congr D D' c l hD h0 (by exact_mod_cast hlt)]
    · rw [linearLoop_done _ _ _ _ _ hlt, linearLoop_done _ _ _ _ _ hlt]

theorem linearLoop_shift (D D' : List ℚ) (c m l : Nat) (step : ℚ) (hstep : 0 ≤ step)
    (hD : ∀ i, D'.getD i 0 = D.getD (i + m * c) 0) :
    ∀ (F : Nat) (pos : ℚ), (m : ℚ) ≤ pos →
      linearLoop D c step ((m + l : ℕ) : ℤ) F pos =
        (linearLoop D' c step (l : ℤ) F (pos - m)).map (fun r => (r.1 + (m : ℚ), r.2)) := by
  have key : ∀ pos : ℚ, pos < (((m + l : ℕ) : ℤ) : ℚ) ↔ pos - m < (((l : ℕ) : ℤ) : ℚ) := by
    intro pos
    push_cast
    constructor <;> intro h <;> linarith
  intro F
  induction F with
  | zero =>
    intro pos _
    by_cases hlt : pos < (((m + l : ℕ) : ℤ) : ℚ)
    · rw [linearLoop_zero_none _ _ _ _ hlt, linearLoop_zero_none _ _ _ _ ((key pos).1 hlt)]
      rfl
    · rw [linearLoop_done _ _ _ _ _ hlt,
        linearLoop_done _ _ _ _ _ (fun h => hlt ((key pos).2 h))]
      simp
  | succ F ih =>
    intro pos hm
    by_cases hlt : pos < (((m + l : ℕ) : ℤ) : ℚ)
    · rw [linearLoop_step _ _ _ _ _ hlt, linearLoop_step _ _ _ _ _ ((key pos).1 hlt),
        ih (pos + step) (by linarith), linearFrame_shift D D' c m hD hm]
      have e : pos + step - (m : ℚ) = pos - (m : ℚ) + step := by ring
      rw [e, Option.map_map, Option.map_map]
      rfl
    · rw [linearLoop_done _ _ _ _ _ hlt,
        linearLoop_done _ _ _ _ _ (fun h => hlt ((key pos).2 h))]
      simp

/-! ### `process` in linear mode -/

theorem rate_step_pos {i o : Int} (hi : 0 < i) (ho : 0 < o) : 0 < (i : ℚ) / (o : ℚ) := by
  have h1 : (0 : ℚ) < (i : ℚ) := by exact_mod_cast hi
  have h2 : (0 : ℚ) < (o : ℚ) := by exact_mod_cast ho
  exact div_pos h1 h2

/-- Linear `process` with a positive count: the loop over `prev ++ input`
finishes, and the call returns its output, the carried position and the last
input frame. -/
theorem processLinear_spec (r : Resampler) (x : List ℚ) (n : Nat)
    (hp : r.m_prevSamples.length = r.m_channels) (hx : x.length = n * r.m_channels)
    (hstep : 0 < (r.m_inRate : ℚ) / (r.m_outRate : ℚ)) :
    ∃ (p : ℚ) (o : List ℚ),
      linearLoop (r.m_prevSamples ++ x) r.m_channels ((r.m_inRate : ℚ) / (r.m_outRate : ℚ))
        (n : ℤ) (linearFuel ((r.m_inRate : ℚ) / (r.m_outRate : ℚ)) r.m_pos (n : ℤ)) r.m_pos
        = some (p, o) ∧
      processLinear r x n =
        some ({ r with
                m_pos := p - (n : ℚ),
                m_prevSamples := (List.range r.m_channels).map
                  (fun ch => (r.m_prevSamples ++ x).getD (n * r.m_channels + ch) 0) },
              o) := by
  obtain ⟨⟨p, o⟩, hloop⟩ := linearLoop_terminates (r.m_prevSamples ++ x) r.m_channels
    ((r.m_inRate : ℚ) / (r.m_outRate : ℚ)) (n : ℤ)
    (linearFuel ((r.m_inRate : ℚ) / (r.m_outRate : ℚ)) r.m_pos (n : ℤ)) r.m_pos
    (linearFuel_enough _ _ _ hstep)
  refine ⟨p, o, hloop, ?_⟩
  have e1 : ((n : ℤ) + 1 - 1) = (n : ℤ) := by omega
  have hdata : (List.range r.m_channels).map (fun (ch : Nat) => r.m_prevSamples.getD ch 0)
      ++ readInput x (n * r.m_channels) = r.m_prevSamples ++ x := by
    rw [readInput_eq x _ hx]
    congr 1
    exact readInput_eq r.m_prevSamples r.m_channels hp
  have hidx : ∀ ch : Nat, ((n : ℤ) * (r.m_channels : ℤ) + (ch : ℤ)).toNat
      = n * r.m_channels + ch := by
    intro ch
    rw [← Nat.cast_mul, ← Nat.cast_add, Int.toNat_ofNat]
  have hdrop : r.m_prevSamples.drop r.m_channels = [] := by
    rw [List.drop_eq_nil_iff]; omega
  simp only [processLinear, e1, hdata, hloop, hidx, hdrop, List.append_nil, Int.cast_natCast]

theorem process_linear (r : Resampler) (hm : r.m_mode = Mode.Linear) (x : List ℚ) (n : Nat)
    (h : 0 < n) : process r x n = processLinear r x n := by
  have c : ¬ ((n : Int) ≤ 0) := by omega
  simp only [process, if_neg c, hm, Int.toNat_ofNat]

/-- Chunking invariance of the linear mode. -/
theorem linear_chunking (r : Resampler) (hm : r.m_mode = Mode.Linear)
    (hi : 0 < r.m_inRate) (ho : 0 < r.m_outRate) (hpos : 0 ≤ r.m_pos)
    (hp : r.m_prevSamples.length = r.m_channels)
    (x y : List ℚ) (n1 n2 : Nat) (h1 : 0 < n1) (h2 : 0 < n2)
    (hx : x.length = n1 * r.m_channels) (hy : y.length = n2 * r.m_channels) :
    ∃ r1 o1 r2 o2, process r x n1 = some (r1, o1) ∧ process r1 y n2 = some (r2, o2) ∧
      process r (x ++ y) ((n1 + n2 : Nat) : Int) = some (r2, o1 ++ o2) := by
  have hstep := rate_step_pos hi ho
  -- first call
  obtain ⟨p1, o1, l1, s1⟩ := processLinear_spec r x n1 hp hx hstep
  have hp1 : ((List.range r.m_channels).map
      (fun ch => (r.m_prevSamples ++ x).getD (n1 * r.m_channels + ch) 0)).length
      = r.m_channels := by simp
  have hexit1 := linearLoop_exit _ _ _ _ _ _ _ _ l1
  -- second call
  obtain ⟨p2, o2, l2, s2⟩ := processLinear_spec
    { r with
      m_pos := p1 - (n1 : ℚ),
      m_prevSamples := (List.range r.m_channels).map
        (fun ch => (r.m_prevSamples ++ x).getD (n1 * r.m_channels + ch) 0) }
    y n2 hp1 hy hstep
  -- the call on the whole input
  obtain ⟨p3, o3, l3, s3⟩ := processLinear_spec r (x ++ y) (n1 + n2) hp
    (by rw [List.length_append, hx, hy, Nat.add_mul]) hstep
  dsimp only at l2 s2
  -- data of the second call is the data of the whole call without `n1` frames
  have hlen1 : (r.m_prevSamples ++ x).length = n1 * r.m_channels + r.m_channels := by
    rw [List.length_append, hp, hx]; omega
  have hlast : (List.range r.m_channels).map
      (fun ch => (r.m_prevSamples ++ x).getD (n1 * r.m_channels + ch) 0)
      = (r.m_prevSamples ++ x).drop (n1 * r.m_channels) := by
    apply List.ext_getElem
    · simp [hlen1]
    · intro i hi1 hi2
      simp only [List.getElem_map, List.getElem_range, List.getElem_drop]
      rw [List.getD_eq_getElem]
  have hD2 : ∀ i, ((List.range r.m_channels).map
      (fun ch => (r.m_prevSamples ++ x).getD (n1 * r.m_channels + ch) 0) ++ y).getD i 0
      = (r.m_prevSamples ++ (x ++ y)).getD (i + n1 * r.m_channels) 0 := by
    intro i
    rw [hlast, ← List.append_assoc, ← List.drop_append_of_le_length (by omega)]
    simp only [List.getD_eq_getElem?_getD, List.getElem?_drop, Nat.add_comm]
  have hD1 : ∀ i, i < (n1 + 1) * r.m_channels →
      (r.m_prevSamples ++ (x ++ y)).getD i 0 = (r.m_prevSamples ++ x).getD i 0 := by
    intro i hi1
    rw [← List.append_assoc, List.getD_append _ _ _ _ (by rw [hlen1, Nat.succ_mul] at *; omega)]
  -- the whole loop is the first loop followed by the shifted second loop
  have la : linearLoop (r.m_prevSamples ++ (x ++ y)) r.m_channels
      ((r.m_inRate : ℚ) / (r.m_outRate : ℚ)) (n1 : ℤ)
      (linearFuel ((r.m_inRate : ℚ) / (r.m_outRate : ℚ)) r.m_pos (n1 : ℤ)) r.m_pos
      = some (p1, o1) := by
    rw [linearLoop_congr _ _ r.m_channels n1 _ (le_of_lt hstep) hD1 _ _ hpos]
    exact l1
  have lb := linearLoop_shift (r.m_prevSamples ++ (x ++ y)) _ r.m_channels n1 n2
    ((r.m_inRate : ℚ) / (r.m_outRate : ℚ)) (le_of_lt hstep) hD2
    (linearFuel ((r.m_inRate : ℚ) / (r.m_outRate : ℚ)) (p1 - (n1 : ℚ)) (n2 : ℤ)) p1
    (by exact_mod_cast hexit1)
  rw [l2, Option.map_some'] at lb
  have lc := linearLoop_split _ _ _ (n1 : ℤ) ((n1 + n2 : ℕ) : ℤ) (by omega) _ _ _ _ la _ _ _ lb
  have huniq := linearLoop_unique _ _ _ _ l3 lc
  obtain ⟨rfl, rfl⟩ := Prod.mk.inj huniq
  have q2 := (process_linear
    { r with
      m_pos := p1 - (n1 : ℚ),
      m_prevSamples := (List.range r.m_channels).map
        (fun ch => (r.m_prevSamples ++ x).getD (n1 * r.m_channels + ch) 0) }
    hm y n2 h2).trans s2
  refine ⟨_, _, _, _, (process_linear r hm x n1 h1).trans s1, q2, ?_⟩
  have epos : (p2, o2).1 + (n1 : ℚ) - ((n1 + n2 : ℕ) : ℚ) = p2 - (n2 : ℚ) := by
    push_cast; ring
  have eprev : (List.range r.m_channels).map
      (fun ch => (r.m_prevSamples ++ (x ++ y)).getD ((n1 + n2) * r.m_channels + ch) 0)
      = (List.range r.m_channels).map
        (fun ch => ((List.range r.m_channels).map
          (fun ch => (r.m_prevSamples ++ x).getD (n1 * r.m_channels + ch) 0) ++ y).getD
            (n2 * r.m_channels + ch) 0) := by
    apply List.map_congr_left
    intro ch _
    rw [hD2]
    congr 1
    rw [Nat.add_mul]; omega
  rw [process_linear r hm (x ++ y) (n1 + n2) (by omega), s3, epos, eprev]

/-- On a well-formed resampler every call on whole frames returns, and the
resampler stays well formed. -/
theorem process_total (r : Resampler) (hwf : WF r) (x : List ℚ) (n : Nat)
    (hx : x.length = n * r.m_channels) :
    ∃ r1 o1, process r x n = some (r1, o1) ∧ WF r1 ∧ r1.m_channels = r.m_channels := by
  by_cases hn : n = 0
  · subst hn
    exact ⟨r, [], process_nonpos r x (by simp), hwf, rfl⟩
  · have hpos : 0 < n := Nat.pos_of_ne_zero hn
    obtain ⟨hfir, hlin⟩ := hwf
    cases hm : r.m_mode with
    | Linear =>
      obtain ⟨hi, ho, hp0, hp⟩ := hlin hm
      obtain ⟨p, o, l, s⟩ := processLinear_spec r x n hp hx (rate_step_pos hi ho)
      have hexit := linearLoop_exit _ _ _ _ _ _ _ _ l
      refine ⟨_, _, (process_linear r hm x n hpos).trans s, ⟨fun h => hfir h, fun _ => ?_⟩, rfl⟩
      refine ⟨hi, ho, ?_, by simp⟩
      have : ((n : ℤ) : ℚ) = (n : ℚ) := by push_cast; rfl
      show 0 ≤ p - (n : ℚ)
      linarith
    | Decim48To16 =>
      have hc : r.m_channels = 1 := hfir (by rw [hm]; exact fun h => Mode.noConfusion h)
      refine ⟨_, _, process_decim r hm x n hpos (by rw [hx, hc, Nat.mul_one]),
        ⟨fun _ => hc, fun h => ?_⟩, rfl⟩
      exact absurd (hm.symm.trans h) (fun h => Mode.noConfusion h)
    | Interp16To48 =>
      have hc : r.m_channels = 1 := hfir (by rw [hm]; exact fun h => Mode.noConfusion h)
      refine ⟨_, _, process_interp r hm x n hpos (by rw [hx, hc, Nat.mul_one]),
        ⟨fun _ => hc, fun h => ?_⟩, rfl⟩
      exact absurd (hm.symm.trans h) (fun h => Mode.noConfusion h)

/-- C9: for every mode (the linear fallback over exact arithmetic with
positive rates), every well-formed starting state and all input blocks `x`
of `n1` frames and `y` of `n2` frames, `process(x)` followed by `process(y)`
returns, concatenated, the output of one `process` call on `x ++ y`, and both
ways leave the resampler in the same state. -/
theorem C9_chunking_invariance (r : Resampler) (hwf : WF r) (x y : List ℚ) (n1 n2 : Nat)
    (hx : x.length = n1 * r.m_channels) (hy : y.length = n2 * r.m_channels) :
    ∃ r1 o1 r2 o2,
      process r x (n1 : Int) = some (r1, o1) ∧
      process r1 y (n2 : Int) = some (r2, o2) ∧
      process r (x ++ y) ((n1 + n2 : Nat) : Int) = some (r2, o1 ++ o2) := by
  by_cases hn1 : n1 = 0
  · subst hn1
    have hx0 : x = [] := List.length_eq_zero.mp (by rw [hx, Nat.zero_mul])
    subst hx0
    obtain ⟨r2, o2, p2, _, _⟩ := process_total r hwf y n2 hy
    refine ⟨r, [], r2, o2, process_nonpos r [] (by simp), p2, ?_⟩
    simpa using p2
  by_cases hn2 : n2 = 0
  · subst hn2
    have hy0 : y = [] := List.length_eq_zero.mp (by rw [hy, Nat.zero_mul])
    subst hy0
    obtain ⟨r1, o1, p1, _, _⟩ := process_total r hwf x n1 hx
    refine ⟨r1, o1, r1, [], p1, process_nonpos r1 [] (by simp), ?_⟩
    simpa using p1
  have h1 : 0 < n1 := Nat.pos_of_ne_zero hn1
  have h2 : 0 < n2 := Nat.pos_of_ne_zero hn2
  obtain ⟨hfir, hlin⟩ := hwf
  cases hm : r.m_mode with
  | Linear =>
    obtain ⟨hi, ho, hp0, hp⟩ := hlin hm
    exact linear_chunking r hm hi ho hp0 hp x y n1 n2 h1 h2 hx hy
  | Decim48To16 =>
    have hc : r.m_channels = 1 := hfir (by rw [hm]; exact fun h => Mode.noConfusion h)
    rw [hc, Nat.mul_one] at hx hy
    exact decim_chunking r hm x y n1 n2 h1 h2 hx hy
  | Interp16To48 =>
    have hc : r.m_channels = 1 := hfir (by rw [hm]; exact fun h => Mode.noConfusion h)
    rw [hc, Nat.mul_one] at hx hy
    exact interp_chunking r hm x y n1 n2 h1 h2 hx hy

/-- C9 witness: the stereo linear resampler 16000 -> 44100, one frame then
two frames. -/
theorem C9_chunking_invariance_witness :
    (WF (create 16000 44100 2) ∧
      ([1, 2] : List ℚ).length = 1 * (create 16000 44100 2).m_channels ∧
      ([3, 4, 5, 6] : List ℚ).length = 2 * (create 16000 44100 2).m_channels) ∧
    ∃ r1 o1 r2 o2,
      process (create 16000 44100 2) [1, 2] ((1 : Nat) : Int) = some (r1, o1) ∧
      process r1 [3, 4, 5, 6] ((2 : Nat) : Int) = some (r2, o2) ∧
      process (create 16000 44100 2) ([1, 2] ++ [3, 4, 5, 6]) ((1 + 2 : Nat) : Int)
        = some (r2, o1 ++ o2) :=
  have hwf : WF (create 16000 44100 2) :=
    ⟨fun h => absurd rfl h, fun _ => ⟨by decide, by decide, le_refl _, rfl⟩⟩
  ⟨⟨hwf, rfl, rfl⟩, C9_chunking_invariance (create 16000 44100 2) hwf [1, 2] [3, 4, 5, 6] 1 2 rfl rfl⟩

/-! ### `reset` -/

theorem decimLoop_delay_length : ∀ (q d : List ℚ), (decimLoop q d).2.1.length = d.length
  | [], d => by simp [decimLoop]
  | [q0], d => by simp [decimLoop]
  | [q0, q1], d => by simp [decimLoop]
  | q0 :: q1 :: q2 :: rest, d => by
    rw [decimLoop_cons3]
    show (decimLoop rest (([q2, q1, q0] ++ d).take d.length)).2.1.length = d.length
    rw [decimLoop_delay_length rest]
    simp only [List.length_take, List.length_append, List.length_cons, List.length_nil]
    omega

theorem interpLoop_delay_length (t : Nat) (ht : 1 ≤ t) :
    ∀ (q d : List ℚ), t ≤ d.length → (interpLoop t q d).1.length = d.length
  | [], d, _ => by simp [interpLoop]
  | q :: rest, d, hd => by
    rw [interpLoop_cons]
    show (interpLoop t rest ((q :: d.take (t - 1)) ++ d.drop t)).1.length = d.length
    have hl : ((q :: d.take (t - 1)) ++ d.drop t).length = d.length := by
      simp only [List.length_append, List.length_cons, List.length_take, List.length_drop]
      omega
    rw [interpLoop_delay_length t ht rest _ (by rw [hl]; exact hd), hl]

theorem coeff_48_16_length : coeff_48_16.length = 50 := rfl

/-- What `reset` depends on: mode, rates, channel count and the sizes of the
two state vectors. -/
theorem reset_eq_of_shape {r s : Resampler} (h1 : r.m_mode = s.m_mode)
    (h2 : r.m_inRate = s.m_inRate) (h3 : r.m_outRate = s.m_outRate)
    (h4 : r.m_channels = s.m_channels)
    (h5 : r.m_prevSamples.length = s.m_prevSamples.length)
    (h6 : r.m_delay.length = s.m_delay.length) : reset r = reset s := by
  simp only [reset, h1, h2, h3, h4, h5, h6]

theorem reset_create (i o : Int) (c : Nat) : reset (create i o c) = create i o c := by
  unfold create
  split_ifs <;> simp [reset]

theorem create_shape (i o : Int) (c : Nat) :
    ((create i o c).m_mode = Mode.Linear → (create i o c).m_prevSamples.length = c) ∧
    ((create i o c).m_mode = Mode.Interp16To48 →
      (create i o c).m_delay.length = coeff_48_16.length / 3) ∧
    (create i o c).m_channels = c := by
  unfold create
  split_ifs <;> simp

/-- A `process` call that returns keeps the shape `reset` depends on. -/
theorem process_shape (r r1 : Resampler) (x : List ℚ) (n : Int) (out : List ℚ)
    (hlin : r.m_mode = Mode.Linear → r.m_prevSamples.length = r.m_channels)
    (hint : r.m_mode = Mode.Interp16To48 → r.m_delay.length = coeff_48_16.length / 3)
    (h : process r x n = some (r1, out)) :
    r1.m_mode = r.m_mode ∧ r1.m_inRate = r.m_inRate ∧ r1.m_outRate = r.m_outRate ∧
    r1.m_channels = r.m_channels ∧ r1.m_prevSamples.length = r.m_prevSamples.length ∧
    r1.m_delay.length = r.m_delay.length := by
  by_cases hn : n ≤ 0
  · rw [process_nonpos r x hn] at h
    obtain ⟨rfl, _⟩ := Prod.mk.inj (Option.some.inj h)
    exact ⟨rfl, rfl, rfl, rfl, rfl, rfl⟩
  · simp only [process, if_neg hn] at h
    cases hm : r.m_mode with
    | Linear =>
      rw [hm] at h
      simp only [processLinear] at h
      split at h
      · exact absurd h (by simp)
      · obtain ⟨rfl, _⟩ := Prod.mk.inj (Option.some.inj h)
        refine ⟨hm, rfl, rfl, rfl, ?_, rfl⟩
        have := hlin hm
        simp only [List.length_append, List.length_map, List.length_range, List.length_drop]
        omega
    | Decim48To16 =>
      rw [hm] at h
      obtain ⟨rfl, _⟩ := Prod.mk.inj (Option.some.inj h)
      exact ⟨rfl, rfl, rfl, rfl, rfl, decimLoop_delay_length _ _⟩
    | Interp16To48 =>
      rw [hm] at h
      obtain ⟨rfl, _⟩ := Prod.mk.inj (Option.some.inj h)
      refine ⟨rfl, rfl, rfl, rfl, rfl, ?_⟩
      have hd := hint hm
      exact interpLoop_delay_length _ (by rw [coeff_48_16_length]; decide) _ _
        (by rw [hd])

theorem reached_shape (i o : Int) (c : Nat) (r : Resampler)
    (h : ReachedFrom (create i o c) r) :
    r.m_mode = (create i o c).m_mode ∧ r.m_inRate = (create i o c).m_inRate ∧
    r.m_outRate = (create i o c).m_outRate ∧ r.m_channels = (create i o c).m_channels ∧
    r.m_prevSamples.length = (create i o c).m_prevSamples.length ∧
    r.m_delay.length = (create i o c).m_delay.length := by
  induction h with
  | start => exact ⟨rfl, rfl, rfl, rfl, rfl, rfl⟩
  | step input n out _ hp ih =>
    obtain ⟨a1, a2, a3, a4, a5, a6⟩ := ih
    obtain ⟨c1, c2, c3⟩ := create_shape i o c
    obtain ⟨b1, b2, b3, b4, b5, b6⟩ := process_shape _ _ input n out
      (fun hm => by rw [a5, a4, c3]; exact c1 (a1.symm.trans hm))
      (fun hm => by rw [a6]; exact c2 (a1.symm.trans hm)) hp
    exact ⟨b1.trans a1, b2.trans a2, b3.trans a3, b4.trans a4, b5.trans a5, b6.trans a6⟩

/-- C10: after any history of `process` calls on a newly constructed
resampler, `reset()` gives back exactly the newly constructed resampler with
the same `inRate`, `outRate` and `channels`; hence every subsequent series of
`process` calls returns from it what it returns from a new one, in every
mode. -/
theorem C10_reset_restores (inRate outRate : Int) (channels : Nat) (r : Resampler)
    (h : ReachedFrom (create inRate outRate channels) r) :
    reset r = create inRate outRate channels ∧
    ∀ calls : List (List ℚ × Int),
      processAll (reset r) calls = processAll (create inRate outRate channels) calls := by
  obtain ⟨a1, a2, a3, a4, a5, a6⟩ := reached_shape inRate outRate channels r h
  have e : reset r = create inRate outRate channels := by
    rw [reset_eq_of_shape a1 a2 a3 a4 a5 a6, reset_create]
  exact ⟨e, fun calls => by rw [e]⟩

/-- C10 witness: the decimator after one call on four samples. -/
theorem C10_reset_restores_witness :
    reset
      { create 48000 16000 1 with
        m_queue := (decimLoop ((create 48000 16000 1).m_queue ++ [1, 2, 3, 4])
          (create 48000 16000 1).m_delay).1,
        m_delay := (decimLoop ((create 48000 16000 1).m_queue ++ [1, 2, 3, 4])
          (create 48000 16000 1).m_delay).2.1 }
      = create 48000 16000 1 :=
  (C10_reset_restores 48000 16000 1 _
    (ReachedFrom.step [1, 2, 3, 4] ((4 : Nat) : Int) _ ReachedFrom.start
      (process_decim (create 48000 16000 1) rfl [1, 2, 3, 4] 4 (by decide) rfl))).1

end ResamplerProofs

/-! ## Capture path: lemmas and claims -/

section CapturePath

theorem cdiv_natCast (a b : Nat) : cdiv (a : Int) (b : Int) = ((a / b : Nat) : Int) :=
  (Int.ofNat_tdiv a b).symm

theorem foldl_add_eq_sum (f : Nat → ℚ) (n : Nat) :
    (List.range n).foldl (fun (sum : ℚ) (ch : Nat) => sum + f ch) 0
      = ∑ ch in Finset.range n, f ch := by
  induction n with
  | zero => simp
  | succ n ih => rw [List.range_succ, List.foldl_append, ih, Finset.sum_range_succ]; rfl

/-- The `qint16` mixdown on `C ≥ 1` channels, entry by entry. -/
theorem mixdownInt16_spec (src : List Int) (C : Nat) (hC : 1 ≤ C) :
    mixdownInt16 src (C : Int) =
      (List.range (src.length / C)).map (fun i =>
        (∑ ch in Finset.range C, ((src.getD (i * C + ch) 0 : Int) : ℚ)) / ((C : ℚ) * 32768)) := by
  unfold mixdownInt16
  simp only [cdiv_natCast, Int.toNat_ofNat]
  by_cases h1 : C = 1
  · subst h1
    simp only [Nat.cast_one, if_true]
    apply List.map_congr_left
    intro i _
    simp only [Finset.sum_range_one, Nat.mul_one, Nat.add_zero]
    ring
  · have hne : ((C : Int) = 1) = False := by
      simp only [eq_iff_iff, iff_false]; omega
    simp only [hne, if_false]
    apply List.map_congr_left
    intro i _
    rw [foldl_add_eq_sum (fun ch => ((src.getD (i * C + ch) 0 : Int) : ℚ)) C]
    simp only [Int.cast_natCast]
    have hC0 : (C : ℚ) ≠ 0 := by
      have : 0 < C := hC
      exact_mod_cast this.ne'
    field_simp

/-- C11: for an interleaved `qint16` capture block of `T` samples on `C ≥ 1`
channels the capture stage produces `T / C` (rounded down) mono samples, the
`i`-th being the sum of `src[i*C + ch]` over the channels divided by
`C * 32768`, every index read lying inside the block; for `C = 2` and
`T = 640` these are 320 samples, each the mean of its sample pair divided by
32768. -/
theorem C11_int16_mixdown_mean (src : List Int) (C : Nat) (hC : 1 ≤ C) :
    (mixdownInt16 src (C : Int)).length = src.length / C ∧
    (∀ i, i < src.length / C →
      (∀ ch, ch < C → i * C + ch < src.length) ∧
      (mixdownInt16 src (C : Int)).getD i 0 =
        (∑ ch in Finset.range C, ((src.getD (i * C + ch) 0 : Int) : ℚ))
          / ((C : ℚ) * 32768)) ∧
    (C = 2 → src.length = 640 →
      (mixdownInt16 src (C : Int)).length = 320 ∧
      ∀ i, i < 320 →
        (mixdownInt16 src (C : Int)).getD i 0 =
          ((((src.getD (2 * i) 0 : Int) : ℚ) + ((src.getD (2 * i + 1) 0 : Int) : ℚ)) / 2)
            / 32768) := by
  have hspec := mixdownInt16_spec src C hC
  have hlen : (mixdownInt16 src (C : Int)).length = src.length / C := by
    rw [hspec]; simp
  have hget : ∀ i, i < src.length / C →
      (mixdownInt16 src (C : Int)).getD i 0 =
        (∑ ch in Finset.range C, ((src.getD (i * C + ch) 0 : Int) : ℚ))
          / ((C : ℚ) * 32768) := by
    intro i hi
    rw [List.getD_eq_getElem _ _ (by rw [hlen]; exact hi)]
    simp only [hspec, List.getElem_map, List.getElem_range]
  refine ⟨hlen, fun i hi => ⟨fun ch hch => ?_, hget i hi⟩, fun h2 hT => ?_⟩
  · have h1 : (i + 1) * C ≤ src.length / C * C := Nat.mul_le_mul_right C hi
    have h2 : src.length / C * C ≤ src.length := Nat.div_mul_le_self _ _
    have h3 : (i + 1) * C = i * C + C := Nat.succ_mul i C
    omega
  · subst h2
    have hl : src.length / 2 = 320 := by rw [hT]
    refine ⟨by rw [hlen, hl], fun i hi => ?_⟩
    rw [hget i (by rw [hl]; exact hi)]
    simp only [Finset.sum_range_succ, Finset.sum_range_zero, zero_add, Nat.add_zero,
      Nat.mul_comm i 2, Nat.cast_ofNat]
    ring

/-- C11 witness: the stereo block `[100, 200, -300, 500]`. -/
theorem C11_int16_mixdown_mean_witness :
    1 ≤ 2 ∧ (mixdownInt16 [100, 200, -300, 500] ((2 : Nat) : Int)).length
      = [(100 : Int), 200, -300, 500].length / 2 :=
  ⟨by decide, (C11_int16_mixdown_mean [100, 200, -300, 500] 2 (by decide)).1⟩

theorem encodeLoop_short {E : Type} (enc : EncodeFn E) (e : E) (pending : List ℚ)
    (h : pending.length < FRAME_SIZE_SAMPLES) :
    encodeLoop enc e pending = { encoder := e, pending := pending, frames := [], emitted := [] } := by
  rw [encodeLoop, dif_neg (by omega)]

theorem encodeLoop_full {E : Type} (enc : EncodeFn E) (e : E) (pending : List ℚ)
    (h : pending.length ≥ FRAME_SIZE_SAMPLES) :
    (encodeLoop enc e pending).frames =
      pending.take FRAME_SIZE_SAMPLES ::
        (encodeLoop enc (enc e (pending.take FRAME_SIZE_SAMPLES) OPUS_BUFFER_SIZE).encoder
          (pending.drop FRAME_SIZE_SAMPLES)).frames ∧
    (encodeLoop enc e pending).pending =
      (encodeLoop enc (enc e (pending.take FRAME_SIZE_SAMPLES) OPUS_BUFFER_SIZE).encoder
        (pending.drop FRAME_SIZE_SAMPLES)).pending := by
  rw [encodeLoop, dif_pos h]
  exact ⟨rfl, rfl⟩

/-- The encode loop cuts the accumulator into consecutive frames and keeps
the remainder. -/
theorem encodeLoop_spec {E : Type} (enc : EncodeFn E) :
    ∀ (n : Nat) (e : E) (pending : List ℚ), pending.length = n →
      (encodeLoop enc e pending).frames =
        (List.range (pending.length / FRAME_SIZE_SAMPLES)).map
          (fun k => (pending.drop (FRAME_SIZE_SAMPLES * k)).take FRAME_SIZE_SAMPLES) ∧
      (encodeLoop enc e pending).pending =
        pending.drop (FRAME_SIZE_SAMPLES * (pending.length / FRAME_SIZE_SAMPLES)) := by
  have hF : FRAME_SIZE_SAMPLES = 320 := by decide
  intro n
  induction n using Nat.strong_induction_on with
  | _ n ih =>
    intro e pending hn
    by_cases h : pending.length ≥ FRAME_SIZE_SAMPLES
    · obtain ⟨f1, f2⟩ := encodeLoop_full enc e pending h
      have hlen : (pending.drop FRAME_SIZE_SAMPLES).length = n - FRAME_SIZE_SAMPLES := by
        rw [List.length_drop, hn]
      obtain ⟨i1, i2⟩ := ih (n - FRAME_SIZE_SAMPLES) (by rw [hF] at *; omega)
        (enc e (pending.take FRAME_SIZE_SAMPLES) OPUS_BUFFER_SIZE).encoder
        (pending.drop FRAME_SIZE_SAMPLES) hlen
      have hdiv : pending.length / FRAME_SIZE_SAMPLES
          = (pending.drop FRAME_SIZE_SAMPLES).length / FRAME_SIZE_SAMPLES + 1 := by
        rw [hlen, hn]; rw [hF] at *; omega
      rw [f1, f2, i1, i2, hdiv]
      constructor
      · rw [List.range_succ_eq_map, List.map_cons, List.map_map]
        congr 1
        apply List.map_congr_left
        intro k _
        simp only [Function.comp, List.drop_drop, Nat.mul_succ]
        congr 2
        omega
      · rw [List.drop_drop, Nat.mul_succ]
        congr 1
        omega
    · rw [encodeLoop_short enc e pending (by omega)]
      have h0 : pending.length / FRAME_SIZE_SAMPLES = 0 := Nat.div_eq_of_lt (by omega)
      simp [h0]

theorem encodeLoop_full_state {E : Type} (enc : EncodeFn E) (e : E) (pending : List ℚ)
    (h : pending.length ≥ FRAME_SIZE_SAMPLES) :
    (encodeLoop enc e pending).encoder =
      (encodeLoop enc (enc e (pending.take FRAME_SIZE_SAMPLES) OPUS_BUFFER_SIZE).encoder
        (pending.drop FRAME_SIZE_SAMPLES)).encoder ∧
    (encodeLoop enc e pending).emitted =
      (if (enc e (pending.take FRAME_SIZE_SAMPLES) OPUS_BUFFER_SIZE).ret > 0 then
        [(enc e (pending.take FRAME_SIZE_SAMPLES) OPUS_BUFFER_SIZE).output.take
          (enc e (pending.take FRAME_SIZE_SAMPLES) OPUS_BUFFER_SIZE).ret.toNat]
      else []) ++
      (encodeLoop enc (enc e (pending.take FRAME_SIZE_SAMPLES) OPUS_BUFFER_SIZE).encoder
        (pending.drop FRAME_SIZE_SAMPLES)).emitted := by
  rw [encodeLoop, dif_pos h]
  exact ⟨rfl, rfl⟩

/-- Running "encode the frame, emit its bytes when the count is positive"
over a list of frames from an emitted list `acc` puts `acc` in front. -/
theorem encodeFold_acc {E : Type} (enc : EncodeFn E) : ∀ (frames : List (List ℚ)) (e : E)
    (acc : List (List Nat)),
    frames.foldl (fun (s : E × List (List Nat)) (f : List ℚ) =>
        ((enc s.1 f OPUS_BUFFER_SIZE).encoder,
          s.2 ++ (if (enc s.1 f OPUS_BUFFER_SIZE).ret > 0 then
            [(enc s.1 f OPUS_BUFFER_SIZE).output.take (enc s.1 f OPUS_BUFFER_SIZE).ret.toNat]
          else []))) (e, acc) =
      ((frames.foldl (fun (s : E × List (List Nat)) (f : List ℚ) =>
        ((enc s.1 f OPUS_BUFFER_SIZE).encoder,
          s.2 ++ (if (enc s.1 f OPUS_BUFFER_SIZE).ret > 0 then
            [(enc s.1 f OPUS_BUFFER_SIZE).output.take (enc s.1 f OPUS_BUFFER_SIZE).ret.toNat]
          else []))) (e, [])).1,
       acc ++ (frames.foldl (fun (s : E × List (List Nat)) (f : List ℚ) =>
        ((enc s.1 f OPUS_BUFFER_SIZE).encoder,
          s.2 ++ (if (enc s.1 f OPUS_BUFFER_SIZE).ret > 0 then
            [(enc s.1 f OPUS_BUFFER_SIZE).output.take (enc s.1 f OPUS_BUFFER_SIZE).ret.toNat]
          else []))) (e, [])).2)
  | [], e, acc => by simp
  | f :: frames, e, acc => by
    rw [List.foldl_cons, List.foldl_cons, encodeFold_acc enc frames _ (acc ++ _),
      encodeFold_acc enc frames _ ([] ++ _)]
    simp only [List.nil_append, List.append_assoc]

/-- The encoder and the emitted payloads after the encode loop: every frame
handed to `encode` on the encoder the frame before left. -/
theorem encodeLoop_state {E : Type} (enc : EncodeFn E) :
    ∀ (n : Nat) (e : E) (pending : List ℚ), pending.length = n →
      ((encodeLoop enc e pending).encoder, (encodeLoop enc e pending).emitted) =
        (encodeLoop enc e pending).frames.foldl (fun (s : E × List (List Nat)) (f : List ℚ) =>
          ((enc s.1 f OPUS_BUFFER_SIZE).encoder,
            s.2 ++ (if (enc s.1 f OPUS_BUFFER_SIZE).ret > 0 then
              [(enc s.1 f OPUS_BUFFER_SIZE).output.take (enc s.1 f OPUS_BUFFER_SIZE).ret.toNat]
            else []))) (e, []) := by
  have hF : FRAME_SIZE_SAMPLES = 320 := by decide
  intro n
  induction n using Nat.strong_induction_on with
  | _ n ih =>
    intro e pending hn
    by_cases h : pending.length ≥ FRAME_SIZE_SAMPLES
    · obtain ⟨f1, _⟩ := encodeLoop_full enc e pending h
      obtain ⟨g1, g2⟩ := encodeLoop_full_state enc e pending h
      have hlen : (pending.drop FRAME_SIZE_SAMPLES).length = n - FRAME_SIZE_SAMPLES := by
        rw [List.length_drop, hn]
      have i := ih (n - FRAME_SIZE_SAMPLES) (by rw [hF] at *; omega)
        (enc e (pending.take FRAME_SIZE_SAMPLES) OPUS_BUFFER_SIZE).encoder
        (pending.drop FRAME_SIZE_SAMPLES) hlen
      rw [f1, g1, g2, List.foldl_cons, encodeFold_acc enc _ _ ([] ++ _), ← i]
      simp only [List.nil_append]
    · rw [encodeLoop_short enc e pending (by omega)]
      rfl

/-- C12: when a capture callback appends `m` processed samples to an
accumulator holding `p` samples, exactly `(p + m) / 320` (rounded down) encode
calls are made, the `k`-th on the samples `[320k, 320k + 320)` of the old
accumulator followed by the new samples, and afterwards the accumulator holds
exactly the last `(p + m) mod 320` samples; the encoder afterwards and the
emitted payloads are what encoding those frames in order, each on the encoder
the one before left and emitting its bytes when the count is positive, makes
of them; accumulating exactly 320 samples from empty makes exactly one encode
call and leaves the accumulator empty. -/
theorem C12_frame_accumulator {E : Type} (enc : EncodeFn E) (e : E)
    (pending newSamples : List ℚ) :
    (accumulateAndEncode enc e pending newSamples).frames.length
      = (pending.length + newSamples.length) / 320 ∧
    (∀ k, k < (pending.length + newSamples.length) / 320 →
      (accumulateAndEncode enc e pending newSamples).frames.getD k []
        = ((pending ++ newSamples).drop (320 * k)).take 320 ∧
      (((pending ++ newSamples).drop (320 * k)).take 320).length = 320) ∧
    (accumulateAndEncode enc e pending newSamples).pending
      = (pending ++ newSamples).drop
          (pending.length + newSamples.length - (pending.length + newSamples.length) % 320) ∧
    (accumulateAndEncode enc e pending newSamples).pending.length
      = (pending.length + newSamples.length) % 320 ∧
    ((accumulateAndEncode enc e pending newSamples).encoder,
        (accumulateAndEncode enc e pending newSamples).emitted)
      = ((List.range ((pending.length + newSamples.length) / 320)).map
          (fun k => ((pending ++ newSamples).drop (320 * k)).take 320)).foldl
          (fun (s : E × List (List Nat)) (f : List ℚ) =>
            ((enc s.1 f OPUS_BUFFER_SIZE).encoder,
              s.2 ++ (if (enc s.1 f OPUS_BUFFER_SIZE).ret > 0 then
                [(enc s.1 f OPUS_BUFFER_SIZE).output.take
                  (enc s.1 f OPUS_BUFFER_SIZE).ret.toNat]
              else []))) (e, []) ∧
    (pending = [] → newSamples.length = 320 →
      (accumulateAndEncode enc e pending newSamples).frames = [newSamples] ∧
      (accumulateAndEncode enc e pending newSamples).pending = [] ∧
      (accumulateAndEncode enc e pending newSamples).encoder
        = (enc e newSamples OPUS_BUFFER_SIZE).encoder ∧
      (accumulateAndEncode enc e pending newSamples).emitted
        = if (enc e newSamples OPUS_BUFFER_SIZE).ret > 0 then
            [(enc e newSamples OPUS_BUFFER_SIZE).output.take
              (enc e newSamples OPUS_BUFFER_SIZE).ret.toNat]
          else []) := by
  have hF : FRAME_SIZE_SAMPLES = 320 := by decide
  obtain ⟨s1, s2⟩ := encodeLoop_spec enc _ e (pending ++ newSamples) rfl
  have s3 := encodeLoop_state enc _ e (pending ++ newSamples) rfl
  rw [s1] at s3
  rw [hF, List.length_append] at s1 s2 s3
  have hmod : 320 * ((pending.length + newSamples.length) / 320)
      = pending.length + newSamples.length - (pending.length + newSamples.length) % 320 := by
    omega
  unfold accumulateAndEncode
  refine ⟨by rw [s1]; simp, fun k hk => ⟨?_, ?_⟩, by rw [s2, hmod], ?_, s3, fun hp hm => ?_⟩
  · rw [s1, List.getD_eq_getElem _ _ (by simpa using hk)]
    simp
  · rw [List.length_take, List.length_drop, List.length_append]
    have : 320 * (k + 1) ≤ 320 * ((pending.length + newSamples.length) / 320) :=
      Nat.mul_le_mul_left 320 hk
    omega
  · rw [s2, List.length_drop, List.length_append]
    omega
  · subst hp
    have t : newSamples.take 320 = newSamples := List.take_of_length_le (by omega)
    have d : newSamples.drop 320 = [] := List.drop_of_length_le (by omega)
    have e1 : 320 / 320 = 1 := by decide
    simp only [List.length_nil, Nat.zero_add, hm, List.nil_append, e1] at s1 s2 s3
    have s4 := congrArg Prod.fst s3
    have s5 := congrArg Prod.snd s3
    simp only [List.range_succ, List.range_zero, List.nil_append, List.map_cons, List.map_nil,
      Nat.mul_zero, List.drop_zero, t, List.foldl_cons, List.foldl_nil] at s4 s5
    rw [List.nil_append, s1, s2]
    refine ⟨by simp [List.range_succ, t], by simp [d], s4, s5⟩

/-- C12 witness: 320 samples arrive at an empty accumulator. -/
theorem C12_frame_accumulator_witness :
    (accumulateAndEncode oneByteEncoder () [] (List.replicate 320 0)).frames
      = [List.replicate 320 0] ∧
    (accumulateAndEncode oneByteEncoder () [] (List.replicate 320 0)).pending = [] ∧
    (accumulateAndEncode oneByteEncoder () [] (List.replicate 320 0)).emitted = [[0]] :=
  have h := (C12_frame_accumulator oneByteEncoder () [] (List.replicate 320 0)).2.2.2.2.2 rfl
    (List.length_replicate 320 0)
  ⟨h.1, h.2.1, h.2.2.2.trans rfl⟩

/-- C13 (amended): for every requested value `x` and every prior gain state,
`setMicGainDb(x)` stores `c = clamp(x, -20, 20)` and the linear factor
`pow(10, c / 20)` unless the stored dB value is within 0.1 dB of `c`, in which
case the call changes nothing; the factor applied to subsequent capture
samples is the stored linear factor. -/
theorem C13_mic_gain {K : Type} [LinearOrderedField K] (pow : K → K → K) (g : MicGain K)
    (x : K) :
    (1 / 10 ≤ |g.m_micGainDb - max (-20) (min 20 x)| →
      setMicGainDb pow g x =
        { m_micGainDb := max (-20) (min 20 x),
          m_micGainLinear := pow 10 (max (-20) (min 20 x) / 20) }) ∧
    (|g.m_micGainDb - max (-20) (min 20 x)| < 1 / 10 → setMicGainDb pow g x = g) ∧
    ∀ sampleData : List K,
      applyMicGain (setMicGainDb pow g x) sampleData =
        sampleData.map (fun s => s * (setMicGainDb pow g x).m_micGainLinear) := by
  refine ⟨fun h => ?_, fun h => ?_, fun sampleData => ?_⟩
  · simp only [setMicGainDb, if_neg (not_lt.mpr h)]
  · simp only [setMicGainDb, if_pos h]
  · unfold applyMicGain
    by_cases h1 : (setMicGainDb pow g x).m_micGainLinear = 1
    · rw [if_neg (not_not.mpr h1), h1]
      simp
    · rw [if_pos h1]

/-- C13 witness: from 0 dB, `setMicGainDb(6)` over the reals stores 6 dB and
the factor `10^(6/20)`. -/
theorem C13_mic_gain_witness :
    setMicGainDb (fun a b : ℝ => a ^ b) { m_micGainDb := 0, m_micGainLinear := 1 } 6
      = { m_micGainDb := max (-20) (min 20 6),
          m_micGainLinear := (10 : ℝ) ^ (max (-20) (min 20 (6 : ℝ)) / 20) } :=
  (C13_mic_gain (fun a b : ℝ => a ^ b) { m_micGainDb := 0, m_micGainLinear := 1 } 6).1
    (by
      rw [min_eq_right (by norm_num), max_eq_right (by norm_num), zero_sub, abs_neg,
        abs_of_pos (by norm_num)]
      norm_num)

/-- C13 as stated fails: from the gain state 0 dB (factor 1), in real
arithmetic, `setMicGainDb(0.05)` returns early and leaves the factor at 1,
which is not `10^(0.05 / 20)`. -/
theorem C13_counterexample :
    (setMicGainDb (fun a b : ℝ => a ^ b) { m_micGainDb := 0, m_micGainLinear := 1 }
      (1 / 20)).m_micGainLinear = 1 ∧
    (10 : ℝ) ^ (max (-20) (min 20 (1 / 20 : ℝ)) / 20) ≠ 1 := by
  have hc : max (-20) (min 20 (1 / 20 : ℝ)) = 1 / 20 := by
    rw [min_eq_right (by norm_num), max_eq_right (by norm_num)]
  constructor
  · have hlt : |(0 : ℝ) - max (-20) (min 20 (1 / 20 : ℝ))| < 1 / 10 := by
      rw [hc, abs_lt]; constructor <;> norm_num
    simp only [setMicGainDb, if_pos hlt]
  · rw [hc]
    exact (Real.one_lt_rpow (by norm_num) (by norm_num)).ne'

end CapturePath

/-! ## Limiter: lemmas and claims -/

section Limiter

open AudioLimiter

/-- The value the envelope approaches under full-scale input, positive. -/
theorem fullScale_over_pos :
    (1 : ℝ) / 10 ^ 25 < lin2dB Real.log (1 + 1 / 10 ^ 25) + 6 + 1 / 10 ^ 25 := by
  have h1 : 0 < Real.log (1 + 1 / 10 ^ 25) := Real.log_pos (by norm_num)
  have h2 : (0 : ℝ) < LOG_2_DB := by unfold LOG_2_DB; positivity
  have h3 : 0 < lin2dB Real.log (1 + 1 / 10 ^ 25) := mul_pos h1 h2
  linarith

/-- One full-scale sample moves the envelope towards the limit by the attack
coefficient. -/
theorem processSample_fullScale (l : AudioLimiter ℝ) (ht : l.thresholdDb_ = -6)
    (he : l.envDb_ < lin2dB Real.log (1 + 1 / 10 ^ 25) + 6 + 1 / 10 ^ 25) :
    (processSample Real.log Real.exp l 1).1.thresholdDb_ = -6 ∧
    (processSample Real.log Real.exp l 1).1.envDb_ =
      lin2dB Real.log (1 + 1 / 10 ^ 25) + 6 + 1 / 10 ^ 25
        - 99 / 100 * (lin2dB Real.log (1 + 1 / 10 ^ 25) + 6 + 1 / 10 ^ 25 - l.envDb_) := by
  have hpos := fullScale_over_pos
  have h0 : ¬ (lin2dB Real.log (|(1 : ℝ)| + DC_OFFSET) - l.thresholdDb_ < 0) := by
    rw [ht, abs_one]; unfold DC_OFFSET; linarith
  have h1 : lin2dB Real.log (|(1 : ℝ)| + DC_OFFSET) - l.thresholdDb_ + DC_OFFSET > l.envDb_ := by
    rw [ht, abs_one]; unfold DC_OFFSET; linarith
  refine ⟨ht, ?_⟩
  simp only [processSample, if_neg h0, if_pos h1]
  rw [ht, abs_one]
  unfold DC_OFFSET ATTACK_COEF
  ring

/-- Envelope after `k` full-scale samples, from any envelope below the limit. -/
theorem processAudio_fullScale (k : Nat) : ∀ (l : AudioLimiter ℝ), l.thresholdDb_ = -6 →
    l.envDb_ < lin2dB Real.log (1 + 1 / 10 ^ 25) + 6 + 1 / 10 ^ 25 →
    (processAudio Real.log Real.exp l (List.replicate k 1)).1.envDb_ =
      lin2dB Real.log (1 + 1 / 10 ^ 25) + 6 + 1 / 10 ^ 25
        - (99 / 100) ^ k * (lin2dB Real.log (1 + 1 / 10 ^ 25) + 6 + 1 / 10 ^ 25 - l.envDb_) := by
  induction k with
  | zero => intro l _ _; simp [processAudio]
  | succ k ih =>
    intro l ht he
    obtain ⟨t1, e1⟩ := processSample_fullScale l ht he
    have he1 : (processSample Real.log Real.exp l 1).1.envDb_
        < lin2dB Real.log (1 + 1 / 10 ^ 25) + 6 + 1 / 10 ^ 25 := by
      rw [e1]; linarith
    have := ih _ t1 he1
    simp only [List.replicate_succ, processAudio]
    rw [this, e1]
    ring

/-- C16: starting from a newly constructed limiter (envelope `1e-25`) and
feeding the constant sample `1.0`, in real arithmetic the envelope after `k`
samples equals `E - 0.99^k * (E - 1e-25)` with
`E = lin2dB(1 + 1e-25) + 6 + 1e-25`; it increases strictly with `k`, stays
below `E` and converges to `E`; a newly constructed limiter has envelope
`1e-25`. -/
theorem C16_limiter_steady_state :
    (∀ k : Nat,
      (processAudio Real.log Real.exp (AudioLimiter.new : AudioLimiter ℝ)
          (List.replicate k 1)).1.envDb_ =
        lin2dB Real.log (1 + 1 / 10 ^ 25) + 6 + 1 / 10 ^ 25
          - (99 / 100) ^ k * (lin2dB Real.log (1 + 1 / 10 ^ 25) + 6 + 1 / 10 ^ 25
              - 1 / 10 ^ 25) ∧
      (processAudio Real.log Real.exp (AudioLimiter.new : AudioLimiter ℝ)
          (List.replicate k 1)).1.envDb_ <
        (processAudio Real.log Real.exp (AudioLimiter.new : AudioLimiter ℝ)
          (List.replicate (k + 1) 1)).1.envDb_ ∧
      (processAudio Real.log Real.exp (AudioLimiter.new : AudioLimiter ℝ)
          (List.replicate k 1)).1.envDb_ <
        lin2dB Real.log (1 + 1 / 10 ^ 25) + 6 + 1 / 10 ^ 25) ∧
    Filter.Tendsto
      (fun k : Nat =>
        (processAudio Real.log Real.exp (AudioLimiter.new : AudioLimiter ℝ)
          (List.replicate k 1)).1.envDb_)
      Filter.atTop (nhds (lin2dB Real.log (1 + 1 / 10 ^ 25) + 6 + 1 / 10 ^ 25)) ∧
    (AudioLimiter.new : AudioLimiter ℝ).envDb_ = 1 / 10 ^ 25 := by
  have hpos := fullScale_over_pos
  have hform : ∀ k : Nat,
      (processAudio Real.log Real.exp (AudioLimiter.new : AudioLimiter ℝ)
          (List.replicate k 1)).1.envDb_ =
        lin2dB Real.log (1 + 1 / 10 ^ 25) + 6 + 1 / 10 ^ 25
          - (99 / 100) ^ k * (lin2dB Real.log (1 + 1 / 10 ^ 25) + 6 + 1 / 10 ^ 25
              - 1 / 10 ^ 25) :=
    fun k => processAudio_fullScale k AudioLimiter.new rfl hpos
  refine ⟨fun k => ⟨hform k, ?_, ?_⟩, ?_, rfl⟩
  · rw [hform k, hform (k + 1), pow_succ ((99 : ℝ) / 100) k]
    have hp : (0 : ℝ) < (99 / 100) ^ k := by positivity
    have hc := mul_pos hp (sub_pos.mpr hpos)
    generalize lin2dB Real.log (1 + 1 / 10 ^ 25) + 6 + 1 / 10 ^ 25 = E at hc ⊢
    generalize ((99 : ℝ) / 100) ^ k = q at hc ⊢
    have e : q * (99 / 100) * (E - 1 / 10 ^ 25) = 99 / 100 * (q * (E - 1 / 10 ^ 25)) := by
      ring
    rw [e]
    linarith
  · rw [hform k]
    have hp : (0 : ℝ) < (99 / 100) ^ k := by positivity
    have hc := mul_pos hp (sub_pos.mpr hpos)
    linarith
  · simp only [hform]
    have h0 : Filter.Tendsto (fun k : Nat => ((99 : ℝ) / 100) ^ k) Filter.atTop (nhds 0) :=
      tendsto_pow_atTop_nhds_zero_of_lt_one (by norm_num) (by norm_num)
    have h1 := (h0.mul_const (lin2dB Real.log (1 + 1 / 10 ^ 25) + 6 + 1 / 10 ^ 25
      - 1 / 10 ^ 25)).const_sub (lin2dB Real.log (1 + 1 / 10 ^ 25) + 6 + 1 / 10 ^ 25)
    simpa using h1

end Limiter

/-! ## Resampler on silence -/

section Silence

open Resampler

theorem allZero_getD {l : List ℚ} (h : AllZero l) (i : Nat) : l.getD i 0 = 0 := by
  by_cases hi : i < l.length
  · rw [List.getD_eq_getElem _ _ hi]
    exact h _ (List.getElem_mem hi)
  · rw [List.getD_eq_default _ _ (not_lt.mp hi)]

theorem allZero_replicate (k : Nat) : AllZero (List.replicate k 0) :=
  fun _ hs => (List.mem_replicate.mp hs).2

theorem allZero_append {a b : List ℚ} (ha : AllZero a) (hb : AllZero b) : AllZero (a ++ b) :=
  fun s hs => (List.mem_append.mp hs).elim (ha s) (hb s)

theorem allZero_take {a : List ℚ} (ha : AllZero a) (k : Nat) : AllZero (a.take k) :=
  fun s hs => ha s (List.mem_of_mem_take hs)

theorem allZero_drop {a : List ℚ} (ha : AllZero a) (k : Nat) : AllZero (a.drop k) :=
  fun s hs => ha s (List.mem_of_mem_drop hs)

theorem allZero_cons {a : List ℚ} (ha : AllZero a) : AllZero (0 :: a) :=
  fun s hs => (List.mem_cons.mp hs).elim id (ha s)

theorem allZero_of_cons {q : ℚ} {a : List ℚ} (h : AllZero (q :: a)) : q = 0 ∧ AllZero a :=
  ⟨h q (List.mem_cons_self _ _), fun s hs => h s (List.mem_cons_of_mem _ hs)⟩

theorem firSum_zero (coeff delay : List ℚ) (taps offset stride : Nat) (h : AllZero delay) :
    firSum coeff delay taps offset stride = 0 := by
  unfold firSum
  induction taps with
  | zero => rfl
  | succ t ih =>
    rw [List.range_succ, List.foldl_append, ih]
    simp only [List.foldl_cons, List.foldl_nil, allZero_getD h, mul_zero, add_zero]

theorem linearFrame_zero (data : List ℚ) (c : Nat) (pos : ℚ) (h : AllZero data) :
    AllZero (linearFrame data c pos) := by
  intro s hs
  simp only [linearFrame, List.mem_map] at hs
  obtain ⟨ch, _, rfl⟩ := hs
  simp only [allZero_getD h, sub_self, zero_mul, add_zero]

theorem linearLoop_zero (data : List ℚ) (c : Nat) (step : ℚ) (limit : Int)
    (h : AllZero data) : ∀ (F : Nat) (pos : ℚ) (r : ℚ × List ℚ),
    linearLoop data c step limit F pos = some r → AllZero r.2 := by
  intro F
  induction F with
  | zero =>
    intro pos r hr
    by_cases hlt : pos < (limit : ℚ)
    · rw [linearLoop_zero_none _ _ _ _ hlt] at hr; exact absurd hr (by simp)
    · rw [linearLoop_done _ _ _ _ _ hlt] at hr
      rw [← Option.some.inj hr]; exact fun _ hs => absurd hs (List.not_mem_nil _)
  | succ F ih =>
    intro pos r hr
    by_cases hlt : pos < (limit : ℚ)
    · rw [linearLoop_step _ _ _ _ _ hlt, Option.map_eq_some'] at hr
      obtain ⟨r1, h1, h2⟩ := hr
      rw [← h2]
      exact allZero_append (linearFrame_zero data c pos h) (ih _ _ h1)
    · rw [linearLoop_done _ _ _ _ _ hlt] at hr
      rw [← Option.some.inj hr]; exact fun _ hs => absurd hs (List.not_mem_nil _)

theorem decimLoop_zero : ∀ (q d : List ℚ), AllZero q → AllZero d →
    AllZero (decimLoop q d).1 ∧ AllZero (decimLoop q d).2.1 ∧ AllZero (decimLoop q d).2.2
  | [], d, hq, hd => by
    simp only [decimLoop]; exact ⟨hq, hd, fun _ hs => absurd hs (List.not_mem_nil _)⟩
  | [q0], d, hq, hd => by
    simp only [decimLoop]; exact ⟨hq, hd, fun _ hs => absurd hs (List.not_mem_nil _)⟩
  | [q0, q1], d, hq, hd => by
    simp only [decimLoop]; exact ⟨hq, hd, fun _ hs => absurd hs (List.not_mem_nil _)⟩
  | q0 :: q1 :: q2 :: rest, d, hq, hd => by
    obtain ⟨e0, hq1⟩ := allZero_of_cons hq
    obtain ⟨e1, hq2⟩ := allZero_of_cons hq1
    obtain ⟨e2, hrest⟩ := allZero_of_cons hq2
    subst e0 e1 e2
    have hd1 : AllZero (([0, 0, 0] ++ d).take d.length) :=
      allZero_take (allZero_append (allZero_replicate 3) hd) _
    obtain ⟨a, b, c⟩ := decimLoop_zero rest _ hrest hd1
    rw [decimLoop_cons3]
    refine ⟨a, b, ?_⟩
    intro s hs
    rcases List.mem_cons.mp hs with h | h
    · rw [h]; exact firSum_zero _ _ _ _ _ hd1
    · exact c s h

theorem interpLoop_zero (t : Nat) : ∀ (q d : List ℚ), AllZero q → AllZero d →
    AllZero (interpLoop t q d).1 ∧ AllZero (interpLoop t q d).2
  | [], d, _, hd => by
    simp only [interpLoop]; exact ⟨hd, fun _ hs => absurd hs (List.not_mem_nil _)⟩
  | q :: rest, d, hq, hd => by
    obtain ⟨e0, hrest⟩ := allZero_of_cons hq
    subst e0
    have hd1 : AllZero ((0 :: d.take (t - 1)) ++ d.drop t) :=
      allZero_append (allZero_cons (allZero_take hd _)) (allZero_drop hd _)
    obtain ⟨a, b⟩ := interpLoop_zero t rest _ hrest hd1
    rw [interpLoop_cons]
    refine ⟨a, allZero_append ?_ b⟩
    intro s hs
    simp only [List.mem_map] at hs
    obtain ⟨ph, _, rfl⟩ := hs
    rw [firSum_zero _ _ _ _ _ hd1, zero_mul]

/-- One `process` call on zeros from a silent well-formed resampler: it
returns zeros and a silent well-formed resampler; the FIR modes leave
`m_pos` alone. -/
theorem process_silent (r : Resampler) (hwf : WF r) (hs : Silent r) (n : Int) :
    ∃ r1 o, process r (List.replicate (n.toNat * r.m_channels) 0) n = some (r1, o) ∧
      WF r1 ∧ Silent r1 ∧ AllZero o ∧ r1.m_channels = r.m_channels ∧
      r1.m_mode = r.m_mode ∧ (r.m_mode ≠ Mode.Linear → r1.m_pos = r.m_pos) := by
  by_cases hn : n ≤ 0
  · exact ⟨r, [], process_nonpos r _ hn, hwf, hs,
      fun _ h => absurd h (List.not_mem_nil _), rfl, rfl, fun _ => rfl⟩
  obtain ⟨k, rfl⟩ : ∃ k : Nat, n = (k : Int) := ⟨n.toNat, (Int.toNat_of_nonneg (by omega)).symm⟩
  have hk : 0 < k := by omega
  rw [Int.toNat_ofNat]
  obtain ⟨hp, hq, hd⟩ := hs
  obtain ⟨r1, o, h1, hwf1, hc1⟩ := process_total r hwf (List.replicate (k * r.m_channels) 0) k
    (List.length_replicate _ _)
  refine ⟨r1, o, h1, hwf1, ?_⟩
  have hx := allZero_replicate (k * r.m_channels)
  obtain ⟨hfir, hlin⟩ := hwf
  cases hm : r.m_mode with
  | Linear =>
    obtain ⟨hi, ho, _, hpl⟩ := hlin hm
    obtain ⟨p, o2, l, s⟩ := processLinear_spec r (List.replicate (k * r.m_channels) 0) k hpl
      (List.length_replicate _ _) (rate_step_pos hi ho)
    rw [process_linear r hm _ k hk, s] at h1
    obtain ⟨rfl, rfl⟩ := Prod.mk.inj (Option.some.inj h1)
    have hdata := allZero_append hp hx
    refine ⟨⟨?_, hq, hd⟩, linearLoop_zero _ _ _ _ hdata _ _ _ l, rfl, hm,
      fun h => absurd rfl h⟩
    intro s hs
    simp only [List.mem_map] at hs
    obtain ⟨ch, _, rfl⟩ := hs
    exact allZero_getD hdata _
  | Decim48To16 =>
    have hc : r.m_channels = 1 := hfir (by rw [hm]; exact fun h => Mode.noConfusion h)
    rw [process_decim r hm _ k hk (by rw [List.length_replicate, hc, Nat.mul_one])] at h1
    obtain ⟨rfl, rfl⟩ := Prod.mk.inj (Option.some.inj h1)
    obtain ⟨a, b, c⟩ := decimLoop_zero _ _ (allZero_append hq hx) hd
    exact ⟨⟨hp, a, b⟩, c, rfl, hm, fun _ => rfl⟩
  | Interp16To48 =>
    have hc : r.m_channels = 1 := hfir (by rw [hm]; exact fun h => Mode.noConfusion h)
    rw [process_interp r hm _ k hk (by rw [List.length_replicate, hc, Nat.mul_one])] at h1
    obtain ⟨rfl, rfl⟩ := Prod.mk.inj (Option.some.inj h1)
    obtain ⟨a, b⟩ := interpLoop_zero _ _ _ (allZero_append hq hx) hd
    exact ⟨⟨hp, fun _ h => absurd h (List.not_mem_nil _), a⟩, b, rfl, hm, fun _ => rfl⟩

theorem processAll_silent (ns : List Int) : ∀ (r : Resampler), WF r → Silent r →
    ∃ r1 outs, processAll r (silentCalls r.m_channels ns) = some (r1, outs) ∧
      (∀ o ∈ outs, AllZero o) ∧ Silent r1 ∧
      (r.m_mode ≠ Mode.Linear → r1.m_pos = r.m_pos) := by
  induction ns with
  | nil =>
    intro r _ hs
    exact ⟨r, [], rfl, fun _ h => absurd h (List.not_mem_nil _), hs, fun _ => rfl⟩
  | cons n ns ih =>
    intro r hwf hs
    obtain ⟨r1, o, h1, hwf1, hs1, ho, hc, hmode, hpos⟩ := process_silent r hwf hs n
    obtain ⟨r2, outs, h2, houts, hs2, hpos2⟩ := ih r1 hwf1 hs1
    rw [hc] at h2
    refine ⟨r2, o :: outs, ?_, ?_, hs2, fun h => ?_⟩
    · simp only [silentCalls, List.map_cons, processAll, h1]
      simp only [silentCalls] at h2
      rw [h2]
    · intro o1 ho1
      rcases List.mem_cons.mp ho1 with e | e
      · rw [e]; exact ho
      · exact houts o1 e
    · rw [hpos2 (by rw [hmode]; exact h), hpos h]

theorem wf_create {i o : Int} (hi : 0 < i) (ho : 0 < o) (c : Nat) : WF (create i o c) := by
  unfold create
  split_ifs <;> simp [Resampler.WF, hi, ho] <;> omega

theorem silent_create (i o : Int) (c : Nat) : Silent (create i o c) := by
  unfold create
  split_ifs <;> simp [Silent, AllZero]

theorem wf_reset {r : Resampler} (h : WF r) : WF (reset r) :=
  ⟨h.1, fun hm => ⟨(h.2 hm).1, (h.2 hm).2.1, le_refl _, by
    simp only [reset, List.length_replicate]; exact (h.2 hm).2.2.2⟩⟩

theorem silent_reset (r : Resampler) : Silent (reset r) :=
  ⟨allZero_replicate _, fun _ h => absurd h (List.not_mem_nil _), allZero_replicate _⟩

/-- C17 (amended): for every resampler mode, starting from a newly
constructed resampler (positive rates) or from a reset well-formed one, every
series of `process` calls on all-zero input of any lengths returns, every
output sample is `0.0`, and the retained samples (carried samples, queue and
delay line) stay all zero; the position `m_pos` stays where it was in the FIR
modes, while the linear mode advances it. -/
theorem C17_silence_in_silence_out (r0 : Resampler)
    (h0 : (∃ (i o : Int) (c : Nat), 0 < i ∧ 0 < o ∧ r0 = create i o c) ∨
      (∃ r : Resampler, WF r ∧ r0 = reset r))
    (ns : List Int) :
    r0.m_pos = 0 ∧
    ∃ r1 outs, processAll r0 (silentCalls r0.m_channels ns) = some (r1, outs) ∧
      (∀ o ∈ outs, AllZero o) ∧ Silent r1 ∧
      (r0.m_mode ≠ Mode.Linear → r1.m_pos = 0) := by
  have hstart : WF r0 ∧ Silent r0 ∧ r0.m_pos = 0 := by
    rcases h0 with ⟨i, o, c, hi, ho, rfl⟩ | ⟨r, hr, rfl⟩
    · refine ⟨wf_create hi ho c, silent_create i o c, ?_⟩
      unfold create
      split_ifs <;> rfl
    · exact ⟨wf_reset hr, silent_reset r, rfl⟩
  obtain ⟨hwf, hs, hp⟩ := hstart
  obtain ⟨r1, outs, h1, houts, hs1, hpos⟩ := processAll_silent ns r0 hwf hs
  exact ⟨hp, r1, outs, h1, houts, hs1, fun h => (hpos h).trans hp⟩

/-- C17 witness: the decimator on 4 then 3 zeros. -/
theorem C17_silence_in_silence_out_witness :
    ((∃ (i o : Int) (c : Nat), 0 < i ∧ 0 < o ∧ create 48000 16000 1 = create i o c) ∨
      (∃ r : Resampler, WF r ∧ create 48000 16000 1 = reset r)) ∧
    (create 48000 16000 1).m_pos = 0 ∧
    ∃ r1 outs,
      processAll (create 48000 16000 1) (silentCalls (create 48000 16000 1).m_channels [4, 3])
        = some (r1, outs) ∧
      (∀ o ∈ outs, AllZero o) ∧ Silent r1 ∧
      ((create 48000 16000 1).m_mode ≠ Mode.Linear → r1.m_pos = 0) :=
  have h : (∃ (i o : Int) (c : Nat), 0 < i ∧ 0 < o ∧ create 48000 16000 1 = create i o c) ∨
      (∃ r : Resampler, WF r ∧ create 48000 16000 1 = reset r) :=
    Or.inl ⟨48000, 16000, 1, by decide, by decide, rfl⟩
  ⟨h, C17_silence_in_silence_out (create 48000 16000 1) h [4, 3]⟩

/-- C17 as stated fails for the position of the linear mode: a new
32000 -> 16000 mono resampler given one zero sample returns `[0]` and keeps
`m_pos = 1`. -/
theorem C17_counterexample :
    (create 32000 16000 1).m_pos = 0 ∧
    (process (create 32000 16000 1) [0] 1).map (fun p => (p.1.m_pos, p.2)) = some (1, [0]) := by
  refine ⟨rfl, ?_⟩
  have hm : (create 32000 16000 1).m_mode = Mode.Linear := rfl
  obtain ⟨p, o, l, s⟩ := processLinear_spec (create 32000 16000 1) [0] 1 rfl rfl
    (rate_step_pos (by decide) (by decide))
  have e : process (create 32000 16000 1) [0] 1
      = processLinear (create 32000 16000 1) [0] 1 := process_linear _ hm [0] 1 (by decide)
  have hstep : (((create 32000 16000 1).m_inRate : ℚ) / ((create 32000 16000 1).m_outRate : ℚ))
      = 2 := by
    show ((32000 : Int) : ℚ) / ((16000 : Int) : ℚ) = 2
    norm_num
  have hpos : (create 32000 16000 1).m_pos = 0 := rfl
  have hprev : (create 32000 16000 1).m_prevSamples = [0] := rfl
  have hch : (create 32000 16000 1).m_channels = 1 := rfl
  rw [hstep, hpos, hprev, hch] at l
  have l2 : linearLoop ([0] ++ [0]) 1 2 ((1 : Nat) : Int) 1 0
      = some (2, linearFrame ([0] ++ [0]) 1 0) := by
    rw [linearLoop_step _ _ _ _ _ (by norm_num), linearLoop_done _ _ _ _ _ (by norm_num)]
    simp
  have hu := linearLoop_unique _ _ _ _ l l2
  obtain ⟨rfl, rfl⟩ := Prod.mk.inj hu
  rw [e, s]
  simp only [Option.map_some', Option.some.injEq, Prod.mk.injEq]
  refine ⟨by norm_num, ?_⟩
  have := linearFrame_zero ([0] ++ [0]) 1 0 (allZero_replicate 2)
  have hl : (linearFrame ([0] ++ [0]) 1 0).length = 1 := by simp [linearFrame]
  match hf : linearFrame ([0] ++ [0]) 1 0, hl, this with
  | [a], _, hz => rw [hz a (List.mem_singleton_self a)]

end Silence

/-! ## Prebuffer threshold -/

section Prebuffer

open AudioJitterBuffer

/-- C18: the code has no prebuffer gate. The engine's buffer (capacity 7680,
threshold 6400) is empty with the prebuffer flag set; after one sample `1/2`
is written its occupancy is 1, below the threshold, and still
`readSamples(out, 1)` delivers that sample and empties the buffer, and
`readData(data, 4)` of the float bridge without resampler returns 4 bytes
holding it. -/
theorem C18_prebuffer_gate_missing :
    (setPrebufSamples (setSize (new 3200 : AudioJitterBuffer ℚ) 7680) 6400).m_prebuf = true ∧
    prebufSamples
      (Android.writeSamples (setPrebufSamples (setSize (new 3200 : AudioJitterBuffer ℚ) 7680) 6400)
        [1 / 2]) = 6400 ∧
    samplesInBuffer
      (Android.writeSamples (setPrebufSamples (setSize (new 3200 : AudioJitterBuffer ℚ) 7680) 6400)
        [1 / 2]) = 1 ∧
    (Android.readSamples
      (Android.writeSamples (setPrebufSamples (setSize (new 3200 : AudioJitterBuffer ℚ) 7680) 6400)
        [1 / 2]) 1).2 = [1 / 2] ∧
    samplesInBuffer (Android.readSamples
      (Android.writeSamples (setPrebufSamples (setSize (new 3200 : AudioJitterBuffer ℚ) 7680) 6400)
        [1 / 2]) 1).1 = 0 ∧
    (Android.readData
      { m_jitterBuffer :=
          Android.writeSamples
            (setPrebufSamples (setSize (new 3200 : AudioJitterBuffer ℚ) 7680) 6400) [1 / 2],
        m_outputResampler := none,
        m_outputSampleRate := 16000,
        m_sampleFormat := SampleFormat.Float } 4).map (fun res => (res.ret, res.stored))
      = some (4, [1 / 2]) := by
  refine ⟨by decide, by decide, by decide, ?_, by decide, ?_⟩
  · rfl
  · rfl

/-- C19: `setSize` keeps the threshold it finds. After
`AudioJitterBuffer(100)`, `setPrebufSamples(50)`, `setSize(10)` the capacity
is 10 and `prebufSamples()` is still 50. -/
theorem C19_resize_keeps_threshold :
    (setSize (setPrebufSamples (new 100 : AudioJitterBuffer ℚ) 50) 10).m_fifoSize = 10 ∧
    prebufSamples (setSize (setPrebufSamples (new 100 : AudioJitterBuffer ℚ) 50) 10) = 50 ∧
    ¬ prebufSamples (setSize (setPrebufSamples (new 100 : AudioJitterBuffer ℚ) 50) 10) <
      (setSize (setPrebufSamples (new 100 : AudioJitterBuffer ℚ) 50) 10).m_fifoSize := by
  decide

end Prebuffer

/-! ## Output bridge: lemmas and claims -/

section Bridge

open Resampler AudioJitterBuffer

theorem toInt_of_range {z : Int} (h1 : -2147483648 ≤ z) (h2 : z < 2147483648) :
    toInt z = z := by
  unfold toInt; omega

theorem bytesPerSample_cases (f : SampleFormat) :
    bytesPerSample f = 2 ∨ bytesPerSample f = 4 := by
  unfold bytesPerSample; split_ifs
  · exact Or.inl rfl
  · exact Or.inr rfl

theorem android_readLoop_length_le (k : Nat) : ∀ (b : AudioJitterBuffer ℚ) (avail : Nat),
    (Android.readLoop b k avail).2.length ≤ k := by
  induction k with
  | zero => intro b avail; simp [Android.readLoop]
  | succ k ih =>
    intro b avail
    by_cases h : avail > 0
    · simp only [Android.readLoop, if_pos h, List.length_cons]
      exact Nat.succ_le_succ (ih _ _)
    · simp [Android.readLoop, if_neg h]

/-- `readSamples(output, count)` fills `output[0..count)`. -/
theorem android_readSamples_length (b : AudioJitterBuffer ℚ) (n : Int) :
    (Android.readSamples b n).2.length = n.toNat := by
  by_cases hn : n ≤ 0
  · rw [readSamples_nonpos b hn, List.length_nil]; omega
  · simp only [Android.readSamples, if_neg hn, List.length_append, List.length_replicate]
    have := android_readLoop_length_le n.toNat b
      (usub (uadd b.m_head b.m_fifoSize) b.m_tail % b.m_fifoSize)
    omega

theorem interpLoop_length (t : Nat) : ∀ (q d : List ℚ),
    (interpLoop t q d).2.length = 3 * q.length
  | [], d => by simp [interpLoop]
  | q :: rest, d => by
    rw [interpLoop_cons]
    simp only [List.length_append, List.length_map, List.length_range, List.length_cons,
      interpLoop_length t rest]
    omega

/-- A `process` call that returns keeps the resampler well formed, and an
interpolator's queue empty. -/
theorem process_keeps (r r1 : Resampler) (x : List ℚ) (n : Int) (o : List ℚ) (hwf : WF r)
    (h : process r x n = some (r1, o)) :
    WF r1 ∧ r1.m_mode = r.m_mode ∧ r1.m_inRate = r.m_inRate ∧ r1.m_outRate = r.m_outRate ∧
    r1.m_channels = r.m_channels ∧
    (r.m_mode = Mode.Interp16To48 → r.m_queue = [] → r1.m_queue = []) := by
  by_cases hn : n ≤ 0
  · rw [process_nonpos r x hn] at h
    obtain ⟨rfl, _⟩ := Prod.mk.inj (Option.some.inj h)
    exact ⟨hwf, rfl, rfl, rfl, rfl, fun _ hq => hq⟩
  · simp only [process, if_neg hn] at h
    obtain ⟨hfir, hlin⟩ := hwf
    cases hm : r.m_mode with
    | Linear =>
      rw [hm] at h
      obtain ⟨hi, ho, _, hp⟩ := hlin hm
      simp only [processLinear] at h
      split at h
      · exact absurd h (by simp)
      · rename_i pos output heq
        obtain ⟨rfl, _⟩ := Prod.mk.inj (Option.some.inj h)
        have hexit := linearLoop_exit _ _ _ _ _ _ _ _ heq
        refine ⟨⟨fun hne => absurd hm hne, fun _ => ⟨hi, ho, ?_, ?_⟩⟩, hm, rfl, rfl, rfl,
          fun hc => absurd hc (fun hc => Mode.noConfusion hc)⟩
        · show 0 ≤ pos - ((((n.toNat : Int) + 1 - 1 : Int)) : ℚ)
          linarith
        · simp only [List.length_append, List.length_map, List.length_range, List.length_drop]
          omega
    | Decim48To16 =>
      rw [hm] at h
      obtain ⟨rfl, _⟩ := Prod.mk.inj (Option.some.inj h)
      have hc : r.m_channels = 1 := hfir (by rw [hm]; exact fun h => Mode.noConfusion h)
      exact ⟨⟨fun _ => hc, fun h => absurd h (fun h => Mode.noConfusion h)⟩, rfl, rfl, rfl, rfl,
        fun hc => absurd hc (fun hc => Mode.noConfusion hc)⟩
    | Interp16To48 =>
      rw [hm] at h
      obtain ⟨rfl, _⟩ := Prod.mk.inj (Option.some.inj h)
      have hc : r.m_channels = 1 := hfir (by rw [hm]; exact fun h => Mode.noConfusion h)
      exact ⟨⟨fun _ => hc, fun h => absurd h (fun h => Mode.noConfusion h)⟩, rfl, rfl, rfl, rfl,
        fun _ _ => rfl⟩

/-- What is known of a bridge resampler. -/
theorem bridge_resampler_inv {outRate : Int} (ho : 0 < outRate) {r : Resampler}
    (h : ReachedFrom (create 16000 outRate 1) r) :
    WF r ∧ r.m_channels = 1 ∧ r.m_inRate = 16000 ∧ r.m_outRate = outRate ∧
    r.m_mode ≠ Mode.Decim48To16 ∧
    (r.m_mode = Mode.Interp16To48 → outRate = 48000 ∧ r.m_queue = []) := by
  induction h with
  | start =>
    refine ⟨wf_create (by decide) ho 1, ?_⟩
    unfold create
    split_ifs with h1 h2 h3 h4 <;> simp_all
  | step input n out _ hp ih =>
    obtain ⟨a1, a2, a3, a4, a5, a6⟩ := ih
    obtain ⟨b1, b2, b3, b4, b5, b6⟩ := process_keeps _ _ input n out a1 hp
    refine ⟨b1, b5.trans a2, b3.trans a3, b4.trans a4, by rw [b2]; exact a5, fun hm => ?_⟩
    rw [b2] at hm
    exact ⟨(a6 hm).1, b6 hm (a6 hm).2⟩

theorem toInt_range (z : Int) : -2147483648 ≤ toInt z ∧ toInt z < 2147483648 := by
  unfold toInt; omega

/-- The quotient `a / b` of C++ for a positive divisor: rounded towards
zero. -/
theorem cdiv_bounds (a b : Int) (hb : 0 < b) :
    (0 ≤ a → 0 ≤ cdiv a b ∧ cdiv a b * b ≤ a) ∧
    (a ≤ 0 → cdiv a b ≤ 0 ∧ a ≤ cdiv a b * b) := by
  constructor
  · intro ha
    rw [cdiv, Int.tdiv_eq_ediv ha hb.le]
    exact ⟨Int.ediv_nonneg ha hb.le, Int.ediv_mul_le _ hb.ne'⟩
  · intro ha
    have h : cdiv a b = -((-a) / b) := by
      rw [cdiv, ← Int.tdiv_eq_ediv (Int.neg_nonneg.mpr ha) hb.le, Int.neg_tdiv, neg_neg]
    have h1 := Int.ediv_nonneg (Int.neg_nonneg.mpr ha) hb.le
    have h2 := Int.ediv_mul_le (-a) hb.ne'
    rw [h]
    constructor
    · omega
    · rw [Int.neg_mul]; omega

theorem cdiv_nonpos {a b : Int} (ha : a ≤ 0) (hb : 0 ≤ b) : cdiv a b ≤ 0 := by
  have h : cdiv a b = -((-a).tdiv b) := by rw [cdiv, Int.neg_tdiv, neg_neg]
  have := Int.tdiv_nonneg (Int.neg_nonneg.mpr ha) hb
  rw [h]; omega

end Bridge

/-! ## Two threads -/

section TwoThreads

open AudioJitterBuffer Ios

variable {α : Type} [Zero α]

theorem run_cons (t : Threads α) (x : Turn) (xs : List Turn) :
    run t (x :: xs) = run (step t x) xs := rfl

/-- The producer left alone finishes the call it is in: the buffer is the one
the loop of `writeSamples` leaves. -/
theorem producer_finishes (rest : List α) : ∀ (t : Threads α) (head tail : Nat),
    t.writer = some { head := head, tail := tail, rest := rest } →
    run t (List.replicate (rest.length + 1) Turn.producer)
      = { t with buffer := Ios.writeLoop t.buffer rest head tail, writer := none } := by
  induction rest with
  | nil =>
    intro t head tail hw
    simp only [List.length_nil, Nat.zero_add, List.replicate_one, run, List.foldl_cons,
      List.foldl_nil, step, hw, Ios.writeLoop]
  | cons s rest ih =>
    intro t head tail hw
    rw [List.length_cons, List.replicate_succ, run_cons]
    by_cases hfull : uadd head 1 % t.buffer.m_fifoSize = tail
    · have hs : step t Turn.producer
          = { t with
              buffer := { t.buffer with
                m_fifo := t.buffer.m_fifo.set head s,
                m_tail := uadd tail (t.buffer.m_fifoSize >>> 1) % t.buffer.m_fifoSize,
                m_head := uadd head 1 % t.buffer.m_fifoSize },
              writer := some { head := uadd head 1 % t.buffer.m_fifoSize,
                               tail := uadd tail (t.buffer.m_fifoSize >>> 1) % t.buffer.m_fifoSize,
                               rest := rest } } := by
        simp only [step, hw, writeIter, if_pos hfull]
      rw [hs, ih _ _ _ rfl]
      simp only [Ios.writeLoop, if_pos hfull]
    · have hs : step t Turn.producer
          = { t with
              buffer := { t.buffer with
                m_fifo := t.buffer.m_fifo.set head s,
                m_head := uadd head 1 % t.buffer.m_fifoSize },
              writer := some { head := uadd head 1 % t.buffer.m_fifoSize,
                               tail := tail, rest := rest } } := by
        simp only [step, hw, writeIter, if_neg hfull]
      rw [hs, ih _ _ _ rfl]
      simp only [Ios.writeLoop, if_neg hfull]

/-- The producer left alone for a whole call does what `writeSamples` does. -/
theorem producer_alone (t : Threads α) (samples : List α) (calls : List (List α))
    (hw : t.writer = none) (hc : t.producerCalls = samples :: calls) (hs : samples ≠ []) :
    run t (List.replicate (samples.length + 2) Turn.producer)
      = { t with buffer := Ios.writeSamples t.buffer samples, producerCalls := calls,
                 writer := none } := by
  have hl : samples.length ≠ 0 := fun h => hs (List.length_eq_zero.mp h)
  rw [List.replicate_succ, run_cons]
  have h1 : step t Turn.producer
      = { t with producerCalls := calls,
                 writer := some { head := t.buffer.m_head, tail := t.buffer.m_tail,
                                  rest := samples } } := by
    simp only [step, hw, hc, writeBegin, if_neg hl]
  rw [h1, producer_finishes samples _ _ _ rfl]
  simp only [Ios.writeSamples, if_neg hl]

/-- The consumer left alone finishes the call it is in: the loop of
`readSamples`, the store of `tail` and the silence. -/
theorem consumer_finishes (left : Nat) : ∀ (t : Threads α) (tail avail : Nat) (output : List α),
    t.reader = some { tail := tail, avail := avail, left := left, output := output } →
    run t (List.replicate (min left avail + 1) Turn.consumer)
      = { t with
          buffer := { t.buffer with m_tail := (Ios.readLoop t.buffer left avail tail).1 },
          reader := none,
          delivered := t.delivered ++
            [output ++ (Ios.readLoop t.buffer left avail tail).2 ++
              List.replicate (left - (Ios.readLoop t.buffer left avail tail).2.length) 0] } := by
  induction left with
  | zero =>
    intro t tail avail output hr
    simp only [Nat.zero_min, Nat.zero_add, List.replicate_one, run, List.foldl_cons,
      List.foldl_nil, step, hr, Ios.readLoop, readEnd]
    simp
  | succ left ih =>
    intro t tail avail output hr
    by_cases ha : avail > 0
    · obtain ⟨a, rfl⟩ : ∃ a, avail = a + 1 := ⟨avail - 1, by omega⟩
      have hmin : min (left + 1) (a + 1) + 1 = (min left a + 1) + 1 := by
        rw [Nat.succ_min_succ]
      rw [hmin, List.replicate_succ, run_cons]
      have hs : step t Turn.consumer
          = { t with reader := some { tail := uadd tail 1 % t.buffer.m_fifoSize, avail := a,
                                      left := left,
                                      output := output ++ [t.buffer.m_fifo.getD tail 0] } } := by
        simp only [step, hr, readIter]
        rw [if_pos ⟨by omega, by omega⟩]
        rfl
      rw [hs, ih _ _ _ _ rfl]
      simp only [Ios.readLoop, if_pos ha, Nat.add_sub_cancel, List.length_cons,
        List.append_assoc, List.singleton_append, Nat.succ_sub_succ, Nat.sub_zero]
    · have h0 : avail = 0 := by omega
      subst h0
      simp only [Nat.min_zero, Nat.zero_add, List.replicate_one, run, List.foldl_cons,
        List.foldl_nil, step, hr, Ios.readLoop, readEnd]
      simp

/-- The consumer left alone for a whole call does what `readSamples` does. -/
theorem consumer_alone (t : Threads α) (count : Int) (calls : List Int)
    (hr : t.reader = none) (hc : t.consumerCalls = count :: calls) (hpos : 0 < count) :
    run t (List.replicate
        (min count.toNat (usub (uadd t.buffer.m_head t.buffer.m_fifoSize) t.buffer.m_tail
          % t.buffer.m_fifoSize) + 2) Turn.consumer)
      = { t with buffer := (Ios.readSamples t.buffer count).1, consumerCalls := calls,
                 reader := none,
                 delivered := t.delivered ++ [(Ios.readSamples t.buffer count).2] } := by
  have hn : ¬ count ≤ 0 := by omega
  rw [List.replicate_succ, run_cons]
  have h1 : step t Turn.consumer
      = { t with consumerCalls := calls,
                 reader := some { tail := t.buffer.m_tail,
                                  avail := usub (uadd t.buffer.m_head t.buffer.m_fifoSize)
                                    t.buffer.m_tail % t.buffer.m_fifoSize,
                                  left := count.toNat, output := [] } } := by
    simp only [step, hr, hc, readBegin, if_neg hn]
  rw [h1, consumer_finishes _ _ _ _ _ rfl]
  simp only [Ios.readSamples, if_neg hn, List.nil_append]

/-- C20: a schedule of the two threads on a buffer of capacity 4 in which
the consumer does not get the samples in write order. The producer writes
1, 2, 3; the consumer enters `readSamples(out, 3)` and takes 1; the producer
writes 4, 5, 6, twice advancing `m_tail` on overflow and overwriting the
slots the consumer is about to read; the consumer goes on with its own
`tail` and returns 1, 6, 3, then stores that `tail`, so that its next
`readSamples(out, 3)` returns 4, 5, 6: sample 6 is delivered before 3, and
twice. Run one call after the other, the same calls deliver 1, 2, 3 and
4, 5, 6. -/
theorem C20_overflow_during_read :
    (run (threads (new 4 : AudioJitterBuffer Nat) [[1, 2, 3], [4, 5, 6]] [3, 3])
      [Turn.producer, Turn.producer, Turn.producer, Turn.producer, Turn.producer,
       Turn.consumer, Turn.consumer,
       Turn.producer, Turn.producer, Turn.producer, Turn.producer, Turn.producer,
       Turn.consumer, Turn.consumer, Turn.consumer,
       Turn.consumer, Turn.consumer, Turn.consumer, Turn.consumer, Turn.consumer]).delivered
      = [[1, 6, 3], [4, 5, 6]] ∧
    (run (threads (new 4 : AudioJitterBuffer Nat) [[1, 2, 3], [4, 5, 6]] [3, 3])
      [Turn.producer, Turn.producer, Turn.producer, Turn.producer, Turn.producer,
       Turn.consumer, Turn.consumer, Turn.consumer, Turn.consumer, Turn.consumer,
       Turn.producer, Turn.producer, Turn.producer, Turn.producer, Turn.producer,
       Turn.consumer, Turn.consumer, Turn.consumer, Turn.consumer, Turn.consumer]).delivered
      = [[1, 2, 3], [4, 5, 6]] ∧
    (Ios.readSamples (Ios.writeSamples (new 4 : AudioJitterBuffer Nat) [1, 2, 3]) 3).2
      = [1, 2, 3] := by
  decide

end TwoThreads

/-! ## Limiter: gain bounds -/

section LimiterGain

open AudioLimiter

/-- One sample keeps threshold, ratio and output gain, and keeps the envelope
at or above `DC_OFFSET`. -/
theorem processSample_env (log exp : ℝ → ℝ) (l : AudioLimiter ℝ) (s : ℝ)
    (he : 1 / 10 ^ 25 ≤ l.envDb_) :
    (processSample log exp l s).1.thresholdDb_ = l.thresholdDb_ ∧
    (processSample log exp l s).1.ratio_ = l.ratio_ ∧
    (processSample log exp l s).1.outputGain_ = l.outputGain_ ∧
    1 / 10 ^ 25 ≤ (processSample log exp l s).1.envDb_ := by
  refine ⟨rfl, rfl, rfl, ?_⟩
  simp only [processSample]
  generalize hk : lin2dB log (|s| + DC_OFFSET) - l.thresholdDb_ = k
  have hd : (DC_OFFSET : ℝ) = 1 / 10 ^ 25 := rfl
  have ho : (0 : ℝ) ≤ (if k < 0 then 0 else k) := by
    split_ifs with h
    · exact le_refl _
    · exact not_lt.mp h
  generalize (if k < 0 then (0 : ℝ) else k) = o at ho
  rw [hd]
  generalize (1 : ℝ) / 10 ^ 25 = dc at he ⊢
  unfold ATTACK_COEF RELEASE_COEF
  split_ifs with h
  · nlinarith
  · nlinarith

/-- The value stored for one sample is the sample times a factor in
`(0, 1]`. -/
theorem processSample_gain (l : AudioLimiter ℝ) (s : ℝ)
    (hr : l.ratio_ = 1 / 10) (hg : l.outputGain_ = 1) (he : 1 / 10 ^ 25 ≤ l.envDb_) :
    ∃ g : ℝ, 0 < g ∧ g ≤ 1 ∧ (processSample Real.log Real.exp l s).2 = s * g := by
  have henv := (processSample_env Real.log Real.exp l s he).2.2.2
  refine ⟨dB2lin Real.exp
    (((processSample Real.log Real.exp l s).1.envDb_ - DC_OFFSET) * (l.ratio_ - 1)), ?_, ?_, ?_⟩
  · exact Real.exp_pos _
  · unfold dB2lin
    rw [Real.exp_le_one_iff, hr]
    have hd : (DC_OFFSET : ℝ) = 1 / 10 ^ 25 := rfl
    have hL : (0 : ℝ) < DB_2_LOG := by unfold DB_2_LOG; positivity
    rw [hd]
    have h1 : 0 ≤ (processSample Real.log Real.exp l s).1.envDb_ - 1 / 10 ^ 25 := by linarith
    have h2 : ((processSample Real.log Real.exp l s).1.envDb_ - 1 / 10 ^ 25) * (1 / 10 - 1)
        ≤ 0 := mul_nonpos_of_nonneg_of_nonpos h1 (by norm_num)
    exact mul_nonpos_of_nonpos_of_nonneg h2 hL.le
  · simp only [processSample, hg, one_mul]

/-- The relation between an input sample and what the limiter stores for it. -/
theorem gain_relation {x y g : ℝ} (h0 : 0 < g) (h1 : g ≤ 1) (hy : y = x * g) :
    |y| ≤ |x| ∧ (0 < x → 0 < y) ∧ (x < 0 → y < 0) := by
  subst hy
  refine ⟨?_, fun hx => mul_pos hx h0, fun hx => mul_neg_of_neg_of_pos hx h0⟩
  rw [abs_mul, abs_of_pos h0]
  exact mul_le_of_le_one_right (abs_nonneg x) h1

theorem processAudio_gain (xs : List ℝ) : ∀ l : AudioLimiter ℝ,
    l.ratio_ = 1 / 10 → l.outputGain_ = 1 → 1 / 10 ^ 25 ≤ l.envDb_ →
    (processAudio Real.log Real.exp l xs).1.ratio_ = 1 / 10 ∧
    (processAudio Real.log Real.exp l xs).1.outputGain_ = 1 ∧
    1 / 10 ^ 25 ≤ (processAudio Real.log Real.exp l xs).1.envDb_ ∧
    List.Forall₂
      (fun x y => ∃ g : ℝ, 0 < g ∧ g ≤ 1 ∧ y = x * g ∧
        |y| ≤ |x| ∧ (0 < x → 0 < y) ∧ (x < 0 → y < 0))
      xs (processAudio Real.log Real.exp l xs).2 := by
  induction xs with
  | nil => intro l hr hg he; exact ⟨hr, hg, he, List.Forall₂.nil⟩
  | cons x xs ih =>
    intro l hr hg he
    obtain ⟨_, e2, e3, e4⟩ := processSample_env Real.log Real.exp l x he
    obtain ⟨g, g0, g1, gy⟩ := processSample_gain l x hr hg he
    obtain ⟨a, b, c, d⟩ := ih (processSample Real.log Real.exp l x).1 (e2.trans hr)
      (e3.trans hg) e4
    simp only [processAudio]
    exact ⟨a, b, c, List.Forall₂.cons ⟨g, g0, g1, gy, gain_relation g0 g1 gy⟩ d⟩

/-- C27: in real arithmetic, for every input sequence `pre` fed to a newly
constructed limiter, the envelope afterwards is at least `1e-25`, and for
every further input `xs` each stored sample is its input times a gain factor
in `(0, 1]`: it has the sign of its input and at most its magnitude. -/
theorem C27_limiter_never_amplifies (pre xs : List ℝ) :
    1 / 10 ^ 25 ≤ (processAudio Real.log Real.exp (AudioLimiter.new : AudioLimiter ℝ) pre).1.envDb_ ∧
    List.Forall₂
      (fun x y => ∃ g : ℝ, 0 < g ∧ g ≤ 1 ∧ y = x * g ∧
        |y| ≤ |x| ∧ (0 < x → 0 < y) ∧ (x < 0 → y < 0))
      xs
      (processAudio Real.log Real.exp
        (processAudio Real.log Real.exp (AudioLimiter.new : AudioLimiter ℝ) pre).1 xs).2 := by
  obtain ⟨a, b, c, _⟩ := processAudio_gain pre AudioLimiter.new rfl rfl (le_refl _)
  exact ⟨c, (processAudio_gain xs _ a b c).2.2.2⟩

/-- Below the threshold one sample leaves the initial envelope alone and is
stored unchanged. -/
theorem processSample_below (l : AudioLimiter ℝ) (s : ℝ)
    (ht : l.thresholdDb_ = -6) (hg : l.outputGain_ = 1) (he : l.envDb_ = 1 / 10 ^ 25)
    (hs : lin2dB Real.log (|s| + 1 / 10 ^ 25) ≤ -6) :
    (processSample Real.log Real.exp l s).1 = l ∧ (processSample Real.log Real.exp l s).2 = s := by
  have hd : (DC_OFFSET : ℝ) = 1 / 10 ^ 25 := rfl
  have h1 : (if lin2dB Real.log (|s| + DC_OFFSET) - l.thresholdDb_ < 0 then (0 : ℝ)
      else lin2dB Real.log (|s| + DC_OFFSET) - l.thresholdDb_) = 0 := by
    rw [hd, ht]
    split_ifs with h
    · rfl
    · linarith
  have h2 : ¬ ((0 : ℝ) + DC_OFFSET > l.envDb_) := by rw [he, hd]; simp
  have henv : (0 : ℝ) + DC_OFFSET + RELEASE_COEF * (l.envDb_ - (0 + DC_OFFSET)) = l.envDb_ := by
    rw [he, hd]; ring
  constructor
  · simp only [processSample, h1, if_neg h2, henv]
  · simp only [processSample, h1, if_neg h2, henv]
    rw [he, hd, hg, sub_self, zero_mul]
    simp only [dB2lin, zero_mul, Real.exp_zero, one_mul, mul_one]

/-- C28: in real arithmetic, starting from a newly constructed limiter, if
every input sample `x` satisfies `lin2dB(|x| + 1e-25) ≤ -6`, the envelope
stays at its initial value `1e-25` and every output sample equals its input
sample. -/
theorem C28_limiter_transparent (xs : List ℝ)
    (h : ∀ x ∈ xs, lin2dB Real.log (|x| + 1 / 10 ^ 25) ≤ -6) :
    (processAudio Real.log Real.exp (AudioLimiter.new : AudioLimiter ℝ) xs).1.envDb_ = 1 / 10 ^ 25 ∧
    (processAudio Real.log Real.exp (AudioLimiter.new : AudioLimiter ℝ) xs).2 = xs := by
  have key : ∀ (ys : List ℝ) (l : AudioLimiter ℝ), l.thresholdDb_ = -6 → l.outputGain_ = 1 →
      l.envDb_ = 1 / 10 ^ 25 → (∀ x ∈ ys, lin2dB Real.log (|x| + 1 / 10 ^ 25) ≤ -6) →
      processAudio Real.log Real.exp l ys = (l, ys) := by
    intro ys
    induction ys with
    | nil => intro l _ _ _ _; rfl
    | cons y ys ih =>
      intro l ht hg he hy
      obtain ⟨a, b⟩ := processSample_below l y ht hg he (hy y (List.mem_cons_self _ _))
      simp only [processAudio, a, b,
        ih l ht hg he (fun x hx => hy x (List.mem_cons_of_mem _ hx))]
  rw [key xs AudioLimiter.new rfl rfl rfl h]
  exact ⟨rfl, rfl⟩

/-- The samples `0`, `1/4` and `-1/4` are below the threshold. -/
theorem quarter_below (x : ℝ) (hx : |x| ≤ 1 / 4) :
    lin2dB Real.log (|x| + 1 / 10 ^ 25) ≤ -6 := by
  have hpos : 0 < |x| + 1 / 10 ^ 25 := by positivity
  have h1 : Real.log (|x| + 1 / 10 ^ 25) ≤ |x| + 1 / 10 ^ 25 - 1 :=
    Real.log_le_sub_one_of_pos hpos
  have h2 : Real.log (|x| + 1 / 10 ^ 25) ≤ -(7 / 10) := by
    have : (1 : ℝ) / 10 ^ 25 ≤ 1 / 20 := by norm_num
    linarith
  have hL : (86 / 10 : ℝ) ≤ LOG_2_DB := by unfold LOG_2_DB; norm_num
  unfold lin2dB
  nlinarith

/-- C28 witness: the samples `0`, `1/4` and `-1/4`. -/
theorem C28_limiter_transparent_witness :
    (∀ x ∈ [(0 : ℝ), 1 / 4, -(1 / 4)], lin2dB Real.log (|x| + 1 / 10 ^ 25) ≤ -6) ∧
    (processAudio Real.log Real.exp (AudioLimiter.new : AudioLimiter ℝ)
      [0, 1 / 4, -(1 / 4)]).2 = [0, 1 / 4, -(1 / 4)] :=
  have h : ∀ x ∈ [(0 : ℝ), 1 / 4, -(1 / 4)], lin2dB Real.log (|x| + 1 / 10 ^ 25) ≤ -6 := by
    intro x hx
    apply quarter_below
    simp only [List.mem_cons, List.mem_singleton, List.not_mem_nil, or_false] at hx
    rcases hx with rfl | rfl | rfl
    · simp
    · rw [abs_of_pos (by norm_num)]
    · rw [abs_neg, abs_of_pos (by norm_num)]
  ⟨h, (C28_limiter_transparent [0, 1 / 4, -(1 / 4)] h).2⟩

end LimiterGain

/-! ## Sequence number 0 -/

section Sentinel

open AudioEngine

variable {D α : Type} [Zero α]

/-- C29: whenever the last recorded sequence is 0, the next unit makes no
concealment call, whatever its sequence number, in both slots; and the last
recorded sequence is 0 after construction, after `flushAudioBuffers`, and
after a ready engine processed a unit carrying sequence number 0. -/
theorem C29_zero_is_sentinel (dec : DecodeFn D α) (e : AudioEngine D α)
    (hseq : e.m_lastAudioSeq = 0) (audioData : List Nat) (S : Nat) :
    plcCalls (processReceivedAudio dec e audioData S).2 = 0 ∧
    plcCalls (processReceivedAudioDirect dec e audioData S).2 = 0 ∧
    (AudioEngine.new : AudioEngine D α).m_lastAudioSeq = 0 ∧
    (∀ (fresh : D) (e1 : AudioEngine D α), (flushAudioBuffers fresh e1).m_lastAudioSeq = 0) ∧
    (∀ (e1 : AudioEngine D α) (d : D) (data : List Nat), e1.m_decoder = some d →
      e1.m_audioReady = true → (processReceivedAudio dec e1 data 0).1.m_lastAudioSeq = 0) := by
  have h1 : plcCalls (processReceivedAudio dec e audioData S).2 = 0 := by
    cases hd : e.m_decoder with
    | none => rw [process_notReady dec e audioData S (Or.inl hd)]; rfl
    | some d =>
      cases hr : e.m_audioReady with
      | false => rw [process_notReady dec e audioData S (Or.inr hr)]; rfl
      | true => rw [process_plcCalls dec e d audioData S hd hr, hseq]; rfl
  refine ⟨h1, ?_, rfl, fun _ _ => rfl, fun e1 d data hd hr => ?_⟩
  · rw [processDirect_eq]; exact h1
  · exact (process_keeps_ready dec e1 d data 0 hd hr).2.2

/-- C29 witness: a ready engine whose last unit was 65535 processes unit 0,
after which unit 5 makes no concealment call. -/
theorem C29_zero_is_sentinel_witness :
    (processReceivedAudio rejectingDecoder (readyEngine 65535) [] 0).1.m_lastAudioSeq = 0 ∧
    plcCalls (processReceivedAudio rejectingDecoder
      (processReceivedAudio rejectingDecoder (readyEngine 65535) [] 0).1 [] 5).2 = 0 :=
  have h : (processReceivedAudio rejectingDecoder (readyEngine 65535) [] 0).1.m_lastAudioSeq = 0 :=
    (process_keeps_ready rejectingDecoder (readyEngine 65535) () [] 0 rfl rfl).2.2
  ⟨h, (C29_zero_is_sentinel rejectingDecoder _ h [] 5).1⟩

end Sentinel

/-! ## Conversion to 16-bit samples -/

section Int16Conversion

open Resampler

theorem truncInt_bounds (v : ℚ) :
    |((truncInt v : Int) : ℚ)| ≤ |v| ∧ |v - ((truncInt v : Int) : ℚ)| < 1 ∧
    (0 ≤ v → 0 ≤ truncInt v) ∧ (v ≤ 0 → truncInt v ≤ 0) := by
  unfold truncInt
  by_cases h : 0 ≤ v
  · rw [if_pos h]
    have h1 : ((⌊v⌋ : Int) : ℚ) ≤ v := Int.floor_le v
    have h2 : v < ((⌊v⌋ : Int) : ℚ) + 1 := Int.lt_floor_add_one v
    have h3 : 0 ≤ ⌊v⌋ := Int.floor_nonneg.mpr h
    have h4 : (0 : ℚ) ≤ ((⌊v⌋ : Int) : ℚ) := by exact_mod_cast h3
    refine ⟨?_, ?_, fun _ => h3, fun hv => ?_⟩
    · rw [abs_of_nonneg h4, abs_of_nonneg h]; exact h1
    · rw [abs_of_nonneg (by linarith)]; linarith
    · have : v = 0 := le_antisymm hv h
      rw [this, Int.floor_zero]
  · rw [if_neg h]
    have hv : v < 0 := not_le.mp h
    have h1 : v ≤ ((⌈v⌉ : Int) : ℚ) := Int.le_ceil v
    have h2 : ((⌈v⌉ : Int) : ℚ) < v + 1 := Int.ceil_lt_add_one v
    have h3 : ⌈v⌉ ≤ 0 := Int.ceil_le.mpr (by simpa using hv.le)
    have h4 : ((⌈v⌉ : Int) : ℚ) ≤ 0 := by exact_mod_cast h3
    refine ⟨?_, ?_, fun h0 => absurd h0 h, fun _ => h3⟩
    · rw [abs_of_nonpos h4, abs_of_neg hv]; linarith
    · rw [abs_of_nonpos (by linarith)]; linarith

theorem truncInt_intCast (n : Int) : truncInt (n : ℚ) = n := by
  unfold truncInt
  split_ifs
  · exact Int.floor_intCast n
  · exact Int.ceil_intCast n

theorem roundHalfEven_bounds (y : ℚ) :
    |((roundHalfEven y : Int) : ℚ) - y| ≤ 1 / 2 ∧ ⌊y⌋ ≤ roundHalfEven y ∧
    (roundHalfEven y = ⌊y⌋ ∨ (roundHalfEven y = ⌊y⌋ + 1 ∧ (⌊y⌋ : ℚ) < y)) := by
  have h1 : ((⌊y⌋ : Int) : ℚ) ≤ y := Int.floor_le y
  have h2 : y < ((⌊y⌋ : Int) : ℚ) + 1 := Int.lt_floor_add_one y
  unfold roundHalfEven
  by_cases a : y - (⌊y⌋ : ℚ) < 1 / 2
  · rw [if_pos a]
    refine ⟨?_, le_refl _, Or.inl rfl⟩
    rw [abs_le]; constructor <;> linarith
  · rw [if_neg a]
    by_cases b : 1 / 2 < y - (⌊y⌋ : ℚ)
    · rw [if_pos b]
      refine ⟨?_, by omega, Or.inr ⟨rfl, by linarith⟩⟩
      rw [abs_le]; push_cast; constructor <;> linarith
    · rw [if_neg b]
      by_cases c : ⌊y⌋ % 2 = 0
      · rw [if_pos c]
        refine ⟨?_, le_refl _, Or.inl rfl⟩
        rw [abs_le]; constructor <;> linarith
      · rw [if_neg c]
        refine ⟨?_, by omega, Or.inr ⟨rfl, by linarith⟩⟩
        rw [abs_le]; push_cast; constructor <;> linarith

theorem roundHalfEven_intCast (k : Int) : roundHalfEven (k : ℚ) = k := by
  unfold roundHalfEven
  rw [Int.floor_intCast, sub_self, if_pos (by norm_num)]

theorem roundHalfEven_le (y : ℚ) (K : Int) (h : y ≤ (K : ℚ)) : roundHalfEven y ≤ K := by
  obtain ⟨_, _, c | ⟨c, d⟩⟩ := roundHalfEven_bounds y
  · rw [c]
    have : ((⌊y⌋ : Int) : ℚ) ≤ (K : ℚ) := le_trans (Int.floor_le y) h
    exact_mod_cast this
  · rw [c]
    have : ((⌊y⌋ : Int) : ℚ) < (K : ℚ) := lt_of_lt_of_le d h
    have : ⌊y⌋ < K := by exact_mod_cast this
    omega

theorem le_roundHalfEven (y : ℚ) (K : Int) (h : (K : ℚ) ≤ y) : K ≤ roundHalfEven y := by
  obtain ⟨_, b, _⟩ := roundHalfEven_bounds y
  exact le_trans (Int.le_floor.mpr h) b

/-- The spacing of the floats around `x`: when `|x| * 2^c < 2^24` the
rounding is to a multiple of `2^(-T)` for some `T ≥ c`. -/
theorem roundFloat_grid (x : ℚ) (c : Nat) (hc : c ≤ 149) (hx : |x| * 2 ^ c < 2 ^ 24) :
    ∃ T : Nat, c ≤ T ∧
      roundFloat x = ((roundHalfEven (x * 2 ^ T) : Int) : ℚ) / 2 ^ T := by
  by_cases h0 : x = 0
  · refine ⟨c, le_refl _, ?_⟩
    rw [h0, roundFloat, if_pos rfl, zero_mul]
    have : roundHalfEven (0 : ℚ) = 0 := roundHalfEven_intCast 0
    rw [this]; simp
  have hpos : 0 < |x| := abs_pos.mpr h0
  have hlog : Int.log 2 |x| < 24 - (c : Int) := by
    rw [← Int.lt_zpow_iff_log_lt (by norm_num) hpos]
    have h2 : (0 : ℚ) < 2 ^ c := by positivity
    have e : ((2 : ℕ) : ℚ) ^ (24 - (c : Int)) = 2 ^ 24 / 2 ^ c := by
      rw [zpow_sub₀ (by norm_num)]
      norm_num
    rw [e, lt_div_iff₀ h2]
    exact hx
  obtain ⟨T, hT⟩ : ∃ T : Nat, (T : Int) = 23 - max (Int.log 2 |x|) (-126) :=
    ⟨(23 - max (Int.log 2 |x|) (-126)).toNat, by
      rw [Int.toNat_of_nonneg]
      have := max_le (by omega : Int.log 2 |x| ≤ 23) (by norm_num : (-126 : Int) ≤ 23)
      omega⟩
  have hcT : c ≤ T := by
    have := max_le (by omega : Int.log 2 |x| ≤ 23 - (c : Int))
      (by omega : (-126 : Int) ≤ 23 - (c : Int))
    omega
  refine ⟨T, hcT, ?_⟩
  have hq : (2 : ℚ) ^ (max (Int.log 2 |x|) (-126) - 23) = ((2 : ℚ) ^ T)⁻¹ := by
    rw [← zpow_natCast, ← zpow_neg, hT]
    congr 1
    omega
  rw [roundFloat, if_neg h0, hq, div_inv_eq_mul, div_eq_mul_inv]

theorem roundFloat_exact (k : Int) (m : Nat) (hk : |k| < 2 ^ 24) (hm : m ≤ 149) :
    roundFloat ((k : ℚ) / 2 ^ m) = (k : ℚ) / 2 ^ m := by
  have h2 : (0 : ℚ) < 2 ^ m := by positivity
  obtain ⟨T, hT, e⟩ := roundFloat_grid ((k : ℚ) / 2 ^ m) m hm (by
    rw [abs_div, abs_of_pos h2, div_mul_cancel₀ _ h2.ne']
    exact_mod_cast hk)
  obtain ⟨t, rfl⟩ : ∃ t, T = m + t := ⟨T - m, by omega⟩
  have hy : (k : ℚ) / 2 ^ m * 2 ^ (m + t) = ((k * 2 ^ t : Int) : ℚ) := by
    rw [pow_add]; push_cast; field_simp; ring
  rw [e, hy, roundHalfEven_intCast, pow_add]
  push_cast
  field_simp
  ring

theorem roundFloat_abs_le (x : ℚ) (M : Nat) (hM : M < 2 ^ 24) (hx : |x| ≤ (M : ℚ)) :
    |roundFloat x| ≤ (M : ℚ) := by
  obtain ⟨T, _, e⟩ := roundFloat_grid x 0 (by norm_num) (by
    rw [pow_zero, mul_one]
    exact lt_of_le_of_lt hx (by exact_mod_cast hM))
  have h2 : (0 : ℚ) < 2 ^ T := by positivity
  rw [abs_le] at hx
  have u : roundHalfEven (x * 2 ^ T) ≤ ((M : Int) * 2 ^ T : Int) :=
    roundHalfEven_le _ _ (by push_cast; exact mul_le_mul_of_nonneg_right hx.2 h2.le)
  have l : (-((M : Int) * 2 ^ T) : Int) ≤ roundHalfEven (x * 2 ^ T) :=
    le_roundHalfEven _ _ (by
      push_cast
      have := mul_le_mul_of_nonneg_right hx.1 h2.le
      linarith)
  have u' : ((roundHalfEven (x * 2 ^ T) : Int) : ℚ) ≤ (M : ℚ) * 2 ^ T := by exact_mod_cast u
  have l' : -((M : ℚ) * 2 ^ T) ≤ ((roundHalfEven (x * 2 ^ T) : Int) : ℚ) := by exact_mod_cast l
  rw [e, abs_le]
  constructor
  · rw [le_div_iff₀ h2]; linarith
  · rw [div_le_iff₀ h2]; exact u'

theorem roundFloat_err (x : ℚ) (hx : |x| ≤ 32767) : |roundFloat x - x| ≤ 1 / 1024 := by
  obtain ⟨T, hT, e⟩ := roundFloat_grid x 9 (by norm_num) (by
    have : |x| * 2 ^ 9 ≤ 32767 * 2 ^ 9 := mul_le_mul_of_nonneg_right hx (by norm_num)
    exact lt_of_le_of_lt this (by norm_num))
  have h2 : (0 : ℚ) < 2 ^ T := by positivity
  have h9 : (2 : ℚ) ^ 9 ≤ 2 ^ T := pow_le_pow_right₀ (by norm_num) hT
  obtain ⟨b, _, _⟩ := roundHalfEven_bounds (x * 2 ^ T)
  have e2 : roundFloat x - x = (((roundHalfEven (x * 2 ^ T) : Int) : ℚ) - x * 2 ^ T) / 2 ^ T := by
    rw [e]; field_simp; ring
  rw [e2, abs_div, abs_of_pos h2, div_le_iff₀ h2]
  calc |((roundHalfEven (x * 2 ^ T) : Int) : ℚ) - x * 2 ^ T| ≤ 1 / 2 := b
    _ = 1 / 1024 * 2 ^ 9 := by norm_num
    _ ≤ 1 / 1024 * 2 ^ T := mul_le_mul_of_nonneg_left h9 (by norm_num)

/-- The float nearest to `x` when `|x|` lies in the binade `[2^e, 2^(e+1))`
of a normal exponent. -/
theorem roundFloat_binade (x : ℚ) (e : Int) (he : -126 ≤ e) (h1 : (2 : ℚ) ^ e ≤ |x|)
    (h2 : |x| < (2 : ℚ) ^ (e + 1)) :
    roundFloat x = ((roundHalfEven (x / (2 : ℚ) ^ (e - 23)) : Int) : ℚ) * (2 : ℚ) ^ (e - 23) := by
  have hpos : 0 < |x| := lt_of_lt_of_le (by positivity) h1
  have h0 : x ≠ 0 := abs_pos.mp hpos
  have hl : Int.log 2 |x| = e := by
    apply le_antisymm
    · have := (Int.lt_zpow_iff_log_lt (by norm_num : 1 < 2) hpos).mp
        (by rw [Nat.cast_ofNat]; exact h2 : |x| < ((2 : ℕ) : ℚ) ^ (e + 1))
      omega
    · exact (Int.zpow_le_iff_le_log (by norm_num : 1 < 2) hpos).mp
        (by rw [Nat.cast_ofNat]; exact h1)
  rw [roundFloat, if_neg h0, hl, max_eq_left he]

/-- C25 (amended): for every sample `s` both bridges store, in the 16-bit
format, the `float` product `32767 * clamp(s, -1, 1)` (within `2^-10` of the
exact product) with its fraction dropped, that is rounded towards zero: the
integer `n` with `|n| ≤ |v|` and `|v - n| < 1` for that float `v`; it lies in
`[-32767, 32767]`, so it never wraps in 16 bits, with `0 -> 0`, `1 -> 32767`
and `-1 -> -32767`. The product is rounded to `float` before its fraction is
dropped: the sample `(1 + 2^-15) * 2^-11` is stored as 16, its exact product
`16 - 2^-26` lying below 16. -/
theorem C25_int16_conversion (s : ℚ) :
    (∃ n : Int, toInt16Sample s = (n : ℚ) ∧ -32767 ≤ n ∧ n ≤ 32767 ∧
      n = truncInt (roundFloat (max (-1) (min 1 s) * 32767)) ∧
      |(n : ℚ)| ≤ |roundFloat (max (-1) (min 1 s) * 32767)| ∧
      |roundFloat (max (-1) (min 1 s) * 32767) - (n : ℚ)| < 1 ∧
      |roundFloat (max (-1) (min 1 s) * 32767) - 32767 * max (-1) (min 1 s)| ≤ 1 / 1024) ∧
    toInt16Sample 0 = 0 ∧ toInt16Sample 1 = 32767 ∧ toInt16Sample (-1) = -32767 ∧
    (toInt16Sample (32769 / 67108864) = 16 ∧
      32767 * max (-1) (min 1 ((32769 : ℚ) / 67108864)) < 16) ∧
    ∀ samples : List ℚ,
      storeSamples SampleFormat.Int16 samples = samples.map toInt16Sample := by
  have hc1 : -1 ≤ max (-1) (min 1 s) := le_max_left _ _
  have hc2 : max (-1) (min 1 s) ≤ 1 := max_le (by norm_num) (min_le_left _ _)
  have hv : |max (-1) (min 1 s) * 32767| ≤ 32767 := by
    rw [abs_le]; constructor <;> linarith
  obtain ⟨b1, b2, b3, b4⟩ := truncInt_bounds (roundFloat (max (-1) (min 1 s) * 32767))
  have hf : |roundFloat (max (-1) (min 1 s) * 32767)| ≤ ((32767 : Nat) : ℚ) :=
    roundFloat_abs_le _ 32767 (by norm_num) (by exact_mod_cast hv)
  have hn : |((truncInt (roundFloat (max (-1) (min 1 s) * 32767)) : Int) : ℚ)|
      ≤ ((32767 : Nat) : ℚ) := le_trans b1 hf
  rw [abs_le] at hn
  have hex : ∀ k : Int, |k| < 2 ^ 24 → roundFloat (k : ℚ) = (k : ℚ) := by
    intro k hk
    have := roundFloat_exact k 0 hk (by norm_num)
    rwa [pow_zero, div_one] at this
  refine ⟨⟨truncInt (roundFloat (max (-1) (min 1 s) * 32767)), rfl, ?_, ?_, rfl, b1, b2, ?_⟩,
    ?_, ?_, ?_, ⟨?_, ?_⟩, ?_⟩
  · exact_mod_cast hn.1
  · exact_mod_cast hn.2
  · rw [mul_comm (32767 : ℚ)]; exact roundFloat_err _ hv
  · have e : max (-1) (min 1 (0 : ℚ)) * 32767 = ((0 : Int) : ℚ) := by
      rw [min_eq_right (by norm_num), max_eq_right (by norm_num)]; norm_num
    rw [toInt16Sample, e, hex 0 (by norm_num), truncInt_intCast]; norm_num
  · have e : max (-1) (min 1 (1 : ℚ)) * 32767 = ((32767 : Int) : ℚ) := by
      rw [min_eq_right (by norm_num), max_eq_right (by norm_num)]; norm_num
    rw [toInt16Sample, e, hex 32767 (by norm_num), truncInt_intCast]; norm_num
  · have e : max (-1) (min 1 (-1 : ℚ)) * 32767 = ((-32767 : Int) : ℚ) := by
      rw [min_eq_right (by norm_num), max_eq_right (by norm_num)]; norm_num
    rw [toInt16Sample, e, hex (-32767) (by norm_num), truncInt_intCast]; norm_num
  · have e : max (-1) (min 1 ((32769 : ℚ) / 67108864)) * 32767 = 1073741823 / 67108864 := by
      rw [min_eq_right (by norm_num), max_eq_right (by norm_num)]; norm_num
    have hb := roundFloat_binade (1073741823 / 67108864) 3 (by norm_num)
      (by rw [abs_of_pos (by norm_num)]; norm_num)
      (by rw [abs_of_pos (by norm_num)]; norm_num)
    have hq : (2 : ℚ) ^ ((3 : Int) - 23) = 1 / 1048576 := by
      rw [show ((3 : Int) - 23) = -(20 : Nat) by norm_num, zpow_neg, zpow_natCast]; norm_num
    have hfl : ⌊(1073741823 : ℚ) / 64⌋ = 16777215 := by
      rw [Int.floor_eq_iff]; constructor <;> norm_num
    have hr : roundHalfEven ((1073741823 : ℚ) / 67108864 / (1 / 1048576)) = 16777216 := by
      rw [show (1073741823 : ℚ) / 67108864 / (1 / 1048576) = 1073741823 / 64 by norm_num]
      unfold roundHalfEven
      rw [hfl, if_neg (by norm_num), if_pos (by norm_num)]
      norm_num
    rw [hq, hr] at hb
    rw [toInt16Sample, e, hb]
    have : ((16777216 : Int) : ℚ) * (1 / 1048576) = ((16 : Int) : ℚ) := by norm_num
    rw [this, truncInt_intCast]; norm_num
  · rw [min_eq_right (by norm_num), max_eq_right (by norm_num)]; norm_num
  · intro samples
    simp [storeSamples]

/-- C25 as stated fails: for the sample `2^-14` (a `float`) the product
`32767 / 16384 = 1.99994` is a `float` too and the bridge stores 1, while the
integer nearest to it is 2. -/
theorem C25_counterexample :
    toInt16Sample (1 / 16384) = 1 ∧
    round (32767 * max (-1) (min 1 ((1 : ℚ) / 16384))) = 2 := by
  have hc : max (-1) (min 1 ((1 : ℚ) / 16384)) = 1 / 16384 := by
    rw [min_eq_right (by norm_num), max_eq_right (by norm_num)]
  constructor
  · have hx : (1 : ℚ) / 16384 * 32767 = ((32767 : Int) : ℚ) / 2 ^ 14 := by norm_num
    have hf : truncInt (((32767 : Int) : ℚ) / 2 ^ 14) = 1 := by
      unfold truncInt
      rw [if_pos (by norm_num), Int.floor_eq_iff]
      constructor <;> norm_num
    rw [toInt16Sample, hc, hx, roundFloat_exact 32767 14 (by norm_num) (by norm_num), hf]
    norm_num
  · rw [hc, round_eq, Int.floor_eq_iff]
    constructor <;> norm_num

end Int16Conversion

/-! ## The two jitter-buffer variants agree -/

section Variants

variable {α : Type} [Zero α]

theorem ios_call_eq (b : AudioJitterBuffer α) (c : JbCall α) : Ios.call b c = Android.call b c := by
  cases c with
  | setSize newSize => rfl
  | setPrebufSamples prebufSamples => rfl
  | clear => rfl
  | writeSamples samples =>
    simp only [Ios.call, Android.call, ios_writeSamples_eq]
  | readSamples count =>
    simp only [Ios.call, Android.call, ios_readSamples_eq]
  | samplesInBuffer => rfl

theorem ios_runCalls_eq (cs : List (JbCall α)) : ∀ b : AudioJitterBuffer α,
    Ios.runCalls b cs = Android.runCalls b cs := by
  induction cs with
  | nil => intro b; rfl
  | cons c cs ih =>
    intro b
    simp only [Ios.runCalls, Android.runCalls, ios_call_eq, ih]
    rfl

/-- C24: in single-threaded use, for every initial capacity and every series
of `setSize`, `setPrebufSamples`, `clear`, `writeSamples`, `readSamples` and
`samplesInBuffer` calls, the plain-index variant and the atomic-index variant
return the same read outputs, occupancies, `empty()` and `prebufSamples()`
results after every call, and are in the same state after every call. -/
theorem C24_variants_agree (N : Nat) (calls : List (JbCall α)) :
    Android.runCalls (AudioJitterBuffer.new N) calls = Ios.runCalls (AudioJitterBuffer.new N) calls ∧
    ∀ (b : AudioJitterBuffer α) (c : JbCall α), Android.call b c = Ios.call b c :=
  ⟨(ios_runCalls_eq calls _).symm, fun b c => (ios_call_eq b c).symm⟩

end Variants

/-! ## The bridge after `setupAudio` -/

section Setup

open OutputSide

/-- C26: on a newly constructed engine whose output device supports 48000 Hz
only, `setupAudio` negotiates 48000 Hz and instantiates
`Resampler(16000, 48000, 1)`, which it keeps in `m_outputResampler`; but the
bridge it creates holds a null resampler with output rate 48000. With three
samples in the jitter buffer that bridge offers 6 bytes and `readData(data, 6)`
stores the three 16 kHz samples one for one, where a bridge holding the
resampler offers 18 bytes and `readData(data, 18)` stores nine samples. -/
theorem C26_bridge_gets_null_resampler :
    (setupAudio SampleFormat.Int16 device48k OutputSide.new).m_outputFormat.sampleRate = 48000 ∧
    (setupAudio SampleFormat.Int16 device48k OutputSide.new).m_outputResampler
      = some (Resampler.create 16000 48000 1) ∧
    (setupAudio SampleFormat.Int16 device48k OutputSide.new).m_audioStreamDevice
      = some { m_jitterBuffer :=
                 AudioJitterBuffer.setPrebufSamples
                   (AudioJitterBuffer.setSize (AudioJitterBuffer.new 3200) 7680) 6400,
               m_outputResampler := none,
               m_outputSampleRate := 48000,
               m_sampleFormat := SampleFormat.Int16 } ∧
    Android.bytesAvailable
      { m_jitterBuffer :=
          Android.writeSamples
            (setupAudio SampleFormat.Int16 device48k OutputSide.new).m_jitterBuffer
            [1 / 2, 1 / 4, -1 / 2],
        m_outputResampler := none, m_outputSampleRate := 48000,
        m_sampleFormat := SampleFormat.Int16 } = 6 ∧
    (Android.readData
      { m_jitterBuffer :=
          Android.writeSamples
            (setupAudio SampleFormat.Int16 device48k OutputSide.new).m_jitterBuffer
            [1 / 2, 1 / 4, -1 / 2],
        m_outputResampler := none, m_outputSampleRate := 48000,
        m_sampleFormat := SampleFormat.Int16 } 6).map (fun res => (res.ret, res.stored.length))
      = some (6, 3) ∧
    (Android.readData
      { m_jitterBuffer :=
          Android.writeSamples
            (setupAudio SampleFormat.Int16 device48k OutputSide.new).m_jitterBuffer
            [1 / 2, 1 / 4, -1 / 2],
        m_outputResampler := some (Resampler.create 16000 48000 1),
        m_outputSampleRate := 48000,
        m_sampleFormat := SampleFormat.Int16 } 18).map (fun res => (res.ret, res.stored.length))
      = some (18, 9) := by
  refine ⟨rfl, rfl, rfl, ?_, ?_, ?_⟩
  · decide
  · rfl
  · rfl

end Setup

/-! ## Resampler: the modes against their references -/

section Reference

open Resampler

/-- Two calls on whole frames are one call on the concatenation. -/
theorem process_append (r : Resampler) (hwf : Resampler.WF r) (x y : List ℚ) (n1 n2 : Nat)
    (hx : x.length = n1 * r.m_channels) (hy : y.length = n2 * r.m_channels) :
    ∃ r1 o1 r2 o2,
      process r x (n1 : Int) = some (r1, o1) ∧
      process r1 y (n2 : Int) = some (r2, o2) ∧
      process r (x ++ y) ((n1 + n2 : Nat) : Int) = some (r2, o1 ++ o2) := by
  by_cases hn1 : n1 = 0
  · subst hn1
    have hx0 : x = [] := List.length_eq_zero.mp (by rw [hx, Nat.zero_mul])
    subst hx0
    obtain ⟨r2, o2, p2, _, _⟩ := process_total r hwf y n2 hy
    refine ⟨r, [], r2, o2, process_nonpos r [] (by simp), p2, ?_⟩
    simpa using p2
  by_cases hn2 : n2 = 0
  · subst hn2
    have hy0 : y = [] := List.length_eq_zero.mp (by rw [hy, Nat.zero_mul])
    subst hy0
    obtain ⟨r1, o1, p1, _, _⟩ := process_total r hwf x n1 hx
    refine ⟨r1, o1, r1, [], p1, process_nonpos r1 [] (by simp), ?_⟩
    simpa using p1
  have h1 : 0 < n1 := Nat.pos_of_ne_zero hn1
  have h2 : 0 < n2 := Nat.pos_of_ne_zero hn2
  obtain ⟨hfir, hlin⟩ := hwf
  cases hm : r.m_mode with
  | Linear =>
    obtain ⟨hi, ho, hp0, hp⟩ := hlin hm
    exact linear_chunking r hm hi ho hp0 hp x y n1 n2 h1 h2 hx hy
  | Decim48To16 =>
    have hc : r.m_channels = 1 := hfir (by rw [hm]; exact fun h => Mode.noConfusion h)
    rw [hc, Nat.mul_one] at hx hy
    exact decim_chunking r hm x y n1 n2 h1 h2 hx hy
  | Interp16To48 =>
    have hc : r.m_channels = 1 := hfir (by rw [hm]; exact fun h => Mode.noConfusion h)
    rw [hc, Nat.mul_one] at hx hy
    exact interp_chunking r hm x y n1 n2 h1 h2 hx hy

/-- On a mono resampler a series of calls returns, in pieces, what one call
on the whole input returns, and leaves the same state. -/
theorem processAll_flatten (chunks : List (List ℚ)) : ∀ (r : Resampler), Resampler.WF r →
    r.m_channels = 1 →
    ∃ r1 outs o, processAll r (chunkCalls chunks) = some (r1, outs) ∧
      process r chunks.flatten (chunks.flatten.length : Int) = some (r1, o) ∧
      outs.flatten = o := by
  induction chunks with
  | nil =>
    intro r _ _
    exact ⟨r, [], [], rfl, process_nonpos r _ (by simp), rfl⟩
  | cons c cs ih =>
    intro r hwf hc
    obtain ⟨ra, oa, rb, ob, pa, pb, pab⟩ := process_append r hwf c cs.flatten c.length
      cs.flatten.length (by rw [hc, Nat.mul_one]) (by rw [hc, Nat.mul_one])
    obtain ⟨_, _, _, wa, ca⟩ := process_total r hwf c c.length (by rw [hc, Nat.mul_one])
    rename_i ra' oa' pa'
    have e : (ra', oa') = (ra, oa) := Option.some.inj (pa'.symm.trans pa)
    obtain ⟨rfl, rfl⟩ := Prod.mk.inj e
    obtain ⟨r1, outs, o, q1, q2, q3⟩ := ih ra' wa (ca.trans hc)
    have e2 : (r1, o) = (rb, ob) := Option.some.inj (q2.symm.trans pb)
    obtain ⟨rfl, rfl⟩ := Prod.mk.inj e2
    refine ⟨r1, oa' :: outs, oa' ++ o, ?_, ?_, ?_⟩
    · simp only [chunkCalls, List.map_cons, processAll, pa]
      simp only [chunkCalls] at q1
      rw [q1]
    · rw [List.flatten_cons, List.length_append]
      exact_mod_cast pab
    · rw [List.flatten_cons, q3]

/-! ### The decimator -/

theorem firSum_eq_sum (coeff delay : List ℚ) (taps offset stride : Nat) :
    firSum coeff delay taps offset stride
      = ∑ t in Finset.range taps, coeff.getD (offset + t * stride) 0 * delay.getD t 0 := by
  unfold firSum
  exact foldl_add_eq_sum (fun t => coeff.getD (offset + t * stride) 0 * delay.getD t 0) taps

theorem firSum_congr (coeff d1 d2 : List ℚ) (taps offset stride : Nat)
    (h : ∀ t, t < taps → d1.getD t 0 = d2.getD t 0) :
    firSum coeff d1 taps offset stride = firSum coeff d2 taps offset stride := by
  rw [firSum_eq_sum, firSum_eq_sum]
  apply Finset.sum_congr rfl
  intro t ht
  rw [h t (Finset.mem_range.mp ht)]

theorem getD_take_lt (l : List ℚ) (n t : Nat) (h : t < n) :
    (l.take n).getD t 0 = l.getD t 0 := by
  simp only [List.getD_eq_getElem?_getD, List.getElem?_take]
  rw [if_pos h]

/-- Entry `t` of the newest `m` samples of `x`, newest first, followed by
`d`. -/
theorem history_getD (x d : List ℚ) (m t : Nat) (hm : m ≤ x.length) :
    ((x.take m).reverse ++ d).getD t 0
      = if t < m then x.getD (m - 1 - t) 0 else d.getD (t - m) 0 := by
  have hl : (x.take m).reverse.length = m := by
    rw [List.length_reverse, List.length_take]; omega
  by_cases ht : t < m
  · rw [if_pos ht, List.getD_append _ _ _ _ (by rw [hl]; exact ht)]
    rw [List.getD_eq_getElem _ _ (by rw [hl]; exact ht), List.getElem_reverse,
      List.getElem_take]
    rw [List.getD_eq_getElem _ _ (by omega)]
    congr 1
    rw [List.length_take]
    omega
  · rw [if_neg ht, List.getD_append_right _ _ _ _ (by rw [hl]; omega), hl]

theorem history_zero (x : List ℚ) (n m t : Nat) (hm : m + 1 ≤ x.length) :
    ((x.take (m + 1)).reverse ++ List.replicate n 0).getD t 0 = past x m t := by
  rw [history_getD x _ (m + 1) t hm, past]
  by_cases ht : t ≤ m
  · rw [if_pos (by omega), if_pos ht]
    congr 1
  · rw [if_neg (by omega), if_neg ht]
    simp only [List.getD_eq_getElem?_getD, List.getElem?_replicate]
    split_ifs <;> rfl

/-- The decimator loop over `x` from a delay line of 54 entries: one output
per three samples, each the filter over the newest samples and the old delay
line; the rest is queued. -/
theorem decimLoop_closed : ∀ (x d : List ℚ), d.length = 54 →
    (decimLoop x d).2.2 =
      (List.range (x.length / 3)).map
        (fun k => firSum coeff_48_16_wide ((x.take (3 * k + 3)).reverse ++ d) 54 0 1) ∧
    (decimLoop x d).1 = x.drop (3 * (x.length / 3))
  | [], d, _ => by simp [decimLoop]
  | [q0], d, _ => by simp [decimLoop]
  | [q0, q1], d, _ => by simp [decimLoop]
  | q0 :: q1 :: q2 :: rest, d, hd => by
    have hd1 : (([q2, q1, q0] ++ d).take d.length).length = 54 := by
      rw [List.length_take, List.length_append, hd]; rfl
    obtain ⟨i1, i2⟩ := decimLoop_closed rest _ hd1
    rw [hd] at i1 i2
    have hlen : (q0 :: q1 :: q2 :: rest).length / 3 = rest.length / 3 + 1 := by
      simp only [List.length_cons]; omega
    have h54 : coeff_48_16_wide.length = 54 := rfl
    rw [decimLoop_cons3, hlen, h54, hd]
    constructor
    · show firSum coeff_48_16_wide _ 54 0 1 :: _ = _
      rw [i1, List.range_succ_eq_map, List.map_cons, List.map_map]
      congr 1
      · apply firSum_congr
        intro t ht
        rw [getD_take_lt _ _ _ ht]
        rfl
      · apply List.map_congr_left
        intro k _
        simp only [Function.comp]
        apply firSum_congr
        intro t ht
        have e1 : (q0 :: q1 :: q2 :: rest).take (3 * (k + 1) + 3)
            = q0 :: q1 :: q2 :: rest.take (3 * k + 3) := by
          have : 3 * (k + 1) + 3 = (3 * k + 3) + 1 + 1 + 1 := by omega
          rw [this, List.take_succ_cons, List.take_succ_cons, List.take_succ_cons]
        rw [e1]
        simp only [List.reverse_cons, List.append_assoc, List.singleton_append]
        by_cases ha : t < (rest.take (3 * k + 3)).reverse.length
        · rw [List.getD_append _ _ _ _ ha, List.getD_append _ _ _ _ ha]
        · rw [List.getD_append_right _ _ _ _ (not_lt.mp ha),
            List.getD_append_right _ _ _ _ (not_lt.mp ha)]
          rw [getD_take_lt _ _ _ (by omega)]
          rfl
    · show (decimLoop rest _).1 = _
      rw [i2]
      have : 3 * (rest.length / 3 + 1) = 3 * (rest.length / 3) + 1 + 1 + 1 := by omega
      rw [this, List.drop_succ_cons, List.drop_succ_cons, List.drop_succ_cons]

/-- A reset resampler is the newly constructed one. -/
theorem reset_reached (i o : Int) (c : Nat) (r : Resampler)
    (h : ReachedFrom (create i o c) r) : reset r = create i o c := by
  obtain ⟨a1, a2, a3, a4, a5, a6⟩ := reached_shape i o c r h
  rw [reset_eq_of_shape a1 a2 a3 a4 a5 a6, reset_create]

/-- C21: for the mono 48000 -> 16000 resampler started from reset, after a
total of `N` input samples `x` supplied in any chunking, every call returns,
the total output is exactly `N / 3` (rounded down) samples, the `k`-th being
the sum over `t = 0..53` of `coeff_48_16_wide[t] * x_{3k+2-t}` (with
`x_j = 0` for `j < 0`), and exactly the last `N mod 3` input samples remain
queued; the table has 54 entries. -/
theorem C21_decimator_reference (r : Resampler)
    (h : ReachedFrom (create 48000 16000 1) r) (chunks : List (List ℚ)) :
    ∃ r1 outs, processAll (reset r) (chunkCalls chunks) = some (r1, outs) ∧
      outs.flatten = (List.range (chunks.flatten.length / 3)).map (decimReference chunks.flatten) ∧
      outs.flatten.length = chunks.flatten.length / 3 ∧
      r1.m_queue = chunks.flatten.drop (chunks.flatten.length - chunks.flatten.length % 3) ∧
      r1.m_queue.length = chunks.flatten.length % 3 ∧
      coeff_48_16_wide.length = 54 := by
  rw [reset_reached 48000 16000 1 r h]
  have hwf : Resampler.WF (create 48000 16000 1) := wf_create (by decide) (by decide) 1
  obtain ⟨r1, outs, o, p1, p2, p3⟩ := processAll_flatten chunks (create 48000 16000 1) hwf rfl
  generalize chunks.flatten = x at p2 ⊢
  have hmain : o = (List.range (x.length / 3)).map (decimReference x) ∧
      r1.m_queue = x.drop (x.length - x.length % 3) := by
    by_cases hn : x.length = 0
    · have hx : x = [] := List.length_eq_zero.mp hn
      subst hx
      rw [process_nonpos _ _ (by simp)] at p2
      obtain ⟨rfl, rfl⟩ := Prod.mk.inj (Option.some.inj p2)
      exact ⟨rfl, rfl⟩
    · rw [process_decim (create 48000 16000 1) rfl x x.length (Nat.pos_of_ne_zero hn) rfl] at p2
      obtain ⟨rfl, rfl⟩ := Prod.mk.inj (Option.some.inj p2)
      have hq : (create 48000 16000 1).m_queue = [] := rfl
      have hd : (create 48000 16000 1).m_delay = List.replicate 54 0 := rfl
      obtain ⟨c1, c2⟩ := decimLoop_closed x (List.replicate 54 0) (List.length_replicate _ _)
      rw [hq, hd, List.nil_append]
      constructor
      · rw [c1]
        apply List.map_congr_left
        intro k hk
        have hk' : 3 * k + 2 + 1 ≤ x.length := by
          have := List.mem_range.mp hk
          omega
        rw [firSum_eq_sum, decimReference]
        apply Finset.sum_congr rfl
        intro t _
        rw [history_zero x 54 (3 * k + 2) t hk', Nat.zero_add, Nat.mul_one]
      · show (decimLoop x (List.replicate 54 0)).1 = _
        rw [c2]
        congr 1
        omega
  obtain ⟨m1, m2⟩ := hmain
  refine ⟨r1, outs, p1, by rw [p3, m1], by rw [p3, m1]; simp, m2, ?_, rfl⟩
  rw [m2, List.length_drop]
  omega

/-- C21 witness: the new decimator given `[1, 2]` and then
`[3, 4, 5, 6, 7]`. -/
theorem C21_decimator_reference_witness :
    ReachedFrom (create 48000 16000 1) (create 48000 16000 1) ∧
    ∃ r1 outs,
      processAll (reset (create 48000 16000 1)) (chunkCalls [[1, 2], [3, 4, 5, 6, 7]])
        = some (r1, outs) ∧
      outs.flatten = (List.range (([[1, 2], [3, 4, 5, 6, 7]] : List (List ℚ)).flatten.length / 3)).map
        (decimReference ([[1, 2], [3, 4, 5, 6, 7]] : List (List ℚ)).flatten) ∧
      r1.m_queue.length = ([[1, 2], [3, 4, 5, 6, 7]] : List (List ℚ)).flatten.length % 3 :=
  ⟨ReachedFrom.start,
    (C21_decimator_reference (create 48000 16000 1) ReachedFrom.start
      [[1, 2], [3, 4, 5, 6, 7]]).imp
      (fun _ hr => hr.imp (fun _ hq => ⟨hq.1, hq.2.1, hq.2.2.2.2.1⟩))⟩

/-! ### The interpolator -/

/-- The first 16 entries of the shifted delay line are the new sample and the
old entries. -/
theorem shifted_getD (q : ℚ) (d : List ℚ) (s : Nat) (hd : d.length = 16) (hs : s < 16) :
    ((q :: d.take (16 - 1)) ++ d.drop 16).getD s 0 = (q :: d).getD s 0 := by
  rw [List.drop_of_length_le (by omega), List.append_nil]
  cases s with
  | zero => rfl
  | succ s =>
    show (d.take (16 - 1)).getD s 0 = d.getD s 0
    exact getD_take_lt d _ s (by omega)

theorem shifted_length (q : ℚ) (d : List ℚ) (hd : d.length = 16) :
    ((q :: d.take (16 - 1)) ++ d.drop 16).length = 16 := by
  simp only [List.length_append, List.length_cons, List.length_take, List.length_drop, hd]
  rfl

/-- Output `3m + p` of the interpolator loop over `x` from a delay line of
16 entries. -/
theorem interpLoop_getD : ∀ (x d : List ℚ) (m p : Nat), d.length = 16 → m < x.length →
    p < 3 →
    (interpLoop 16 x d).2.getD (3 * m + p) 0
      = firSum coeff_48_16 ((x.take (m + 1)).reverse ++ d) 16 p 3 * 3
  | [], _, _, _, _, hm, _ => absurd hm (Nat.not_lt_zero _)
  | q :: rest, d, m, p, hd, hm, hp => by
    rw [interpLoop_cons]
    have hb : ((List.range 3).map (fun phase =>
        firSum coeff_48_16 ((q :: d.take (16 - 1)) ++ d.drop 16) 16 phase 3 * 3)).length = 3 := by
      simp
    cases m with
    | zero =>
      show List.getD (_ ++ _) (3 * 0 + p) 0 = _
      rw [Nat.mul_zero, Nat.zero_add, List.getD_append _ _ _ _ (by rw [hb]; exact hp),
        List.getD_eq_getElem _ _ (by rw [hb]; exact hp), List.getElem_map, List.getElem_range]
      congr 1
      apply firSum_congr
      intro t ht
      rw [shifted_getD q d t hd ht]
      rfl
    | succ m =>
      have hm' : m < rest.length := by simpa using hm
      show List.getD (_ ++ _) (3 * (m + 1) + p) 0 = _
      rw [List.getD_append_right _ _ _ _ (by rw [hb]; omega), hb]
      have e : 3 * (m + 1) + p - 3 = 3 * m + p := by omega
      rw [e, interpLoop_getD rest _ m p (shifted_length q d hd) hm' hp]
      congr 1
      apply firSum_congr
      intro t ht
      rw [List.take_succ_cons, List.reverse_cons, List.append_assoc, List.singleton_append]
      by_cases ha : t < (rest.take (m + 1)).reverse.length
      · rw [List.getD_append _ _ _ _ ha, List.getD_append _ _ _ _ ha]
      · rw [List.getD_append_right _ _ _ _ (not_lt.mp ha),
          List.getD_append_right _ _ _ _ (not_lt.mp ha)]
        exact shifted_getD q d _ hd (by omega)

/-- Every call on an interpolator with an empty queue returns three samples
per input sample and leaves the queue empty. -/
theorem processAll_interp_lengths (chunks : List (List ℚ)) : ∀ (r r1 : Resampler)
    (outs : List (List ℚ)), r.m_mode = Mode.Interp16To48 → r.m_queue = [] →
    processAll r (chunkCalls chunks) = some (r1, outs) →
    outs.map List.length = chunks.map (fun c => 3 * c.length) ∧ r1.m_queue = [] := by
  induction chunks with
  | nil =>
    intro r r1 outs _ hq h
    obtain ⟨rfl, rfl⟩ := Prod.mk.inj (Option.some.inj h)
    exact ⟨rfl, hq⟩
  | cons c cs ih =>
    intro r r1 outs hm hq h
    simp only [chunkCalls, List.map_cons, processAll] at h
    by_cases hn : c.length = 0
    · have hc : c = [] := List.length_eq_zero.mp hn
      subst hc
      rw [process_nonpos r [] (by simp)] at h
      simp only [] at h
      cases hrest : processAll r (List.map (fun c => (c, (c.length : Int))) cs) with
      | none => rw [hrest] at h; exact absurd h (by simp)
      | some p =>
        obtain ⟨r2, outs2⟩ := p
        rw [hrest] at h
        obtain ⟨rfl, rfl⟩ := Prod.mk.inj (Option.some.inj h)
        obtain ⟨a, b⟩ := ih r r2 outs2 hm hq hrest
        exact ⟨by rw [List.map_cons, List.map_cons, a]; rfl, b⟩
    · obtain ⟨ra, oa, e1, hma, hqa, hla⟩ : ∃ ra oa,
          process r c (c.length : Int) = some (ra, oa) ∧ ra.m_mode = Mode.Interp16To48 ∧
          ra.m_queue = [] ∧ oa.length = 3 * c.length :=
        ⟨_, _, process_interp r hm c c.length (Nat.pos_of_ne_zero hn) rfl, hm, rfl,
          by rw [interpLoop_length, hq, List.nil_append]⟩
      rw [e1] at h
      simp only [] at h
      cases hrest : processAll ra (List.map (fun c => (c, (c.length : Int))) cs) with
      | none => rw [hrest] at h; exact absurd h (by simp)
      | some p =>
        obtain ⟨r2, outs2⟩ := p
        rw [hrest] at h
        obtain ⟨rfl, rfl⟩ := Prod.mk.inj (Option.some.inj h)
        obtain ⟨a, b⟩ := ih ra r2 outs2 hma hqa hrest
        refine ⟨?_, b⟩
        rw [List.map_cons, List.map_cons, a, hla]

/-- C22: for the mono 16000 -> 48000 resampler started from reset, every
`process` call with `n` input samples returns exactly `3n` output samples and
leaves the queue empty, and for the `m`-th input sample overall and phase
`p < 3`, output `3m + p` is `3` times the sum over `t = 0..15` of
`coeff_48_16[p + 3t] * x_{m-t}` (with `x_j = 0` for `j < 0`); the indices
`p + 3t` are the table entries `0..47`, each exactly once, and the entries 48
and 49 of the 50-entry table do not enter the sums. -/
theorem C22_interpolator_reference (r : Resampler)
    (h : ReachedFrom (create 16000 48000 1) r) (chunks : List (List ℚ)) :
    ∃ r1 outs, processAll (reset r) (chunkCalls chunks) = some (r1, outs) ∧
      outs.map List.length = chunks.map (fun c => 3 * c.length) ∧
      r1.m_queue = [] ∧
      outs.flatten.length = 3 * chunks.flatten.length ∧
      (∀ m p, m < chunks.flatten.length → p < 3 →
        outs.flatten.getD (3 * m + p) 0 = interpReference chunks.flatten m p) ∧
      (∀ i ∈ List.range 50, interpTaps.count i = if i < 48 then 1 else 0) ∧
      coeff_48_16.length = 50 ∧
      (∀ (c delay : List ℚ) (p : Nat), p < 3 →
        (∀ i, i < 48 → c.getD i 0 = coeff_48_16.getD i 0) →
        firSum c delay 16 p 3 = firSum coeff_48_16 delay 16 p 3) := by
  rw [reset_reached 16000 48000 1 r h]
  have hwf : Resampler.WF (create 16000 48000 1) := wf_create (by decide) (by decide) 1
  obtain ⟨r1, outs, o, p1, p2, p3⟩ := processAll_flatten chunks (create 16000 48000 1) hwf rfl
  obtain ⟨l1, l2⟩ := processAll_interp_lengths chunks (create 16000 48000 1) r1 outs rfl rfl p1
  generalize chunks.flatten = x at p2 ⊢
  have hmain : o.length = 3 * x.length ∧
      ∀ m p, m < x.length → p < 3 → o.getD (3 * m + p) 0 = interpReference x m p := by
    by_cases hn : x.length = 0
    · rw [process_nonpos _ _ (by omega)] at p2
      obtain ⟨_, rfl⟩ := Prod.mk.inj (Option.some.inj p2)
      exact ⟨by rw [hn]; rfl, fun m p hm _ => absurd hm (by omega)⟩
    · rw [process_interp (create 16000 48000 1) rfl x x.length (Nat.pos_of_ne_zero hn) rfl] at p2
      obtain ⟨_, rfl⟩ := Prod.mk.inj (Option.some.inj p2)
      have hq : (create 16000 48000 1).m_queue = [] := rfl
      have hd : (create 16000 48000 1).m_delay = List.replicate 16 0 := rfl
      have h16 : coeff_48_16.length / 3 = 16 := rfl
      rw [hq, hd, h16, List.nil_append]
      refine ⟨interpLoop_length 16 x _, fun m p hm hp => ?_⟩
      rw [interpLoop_getD x _ m p (List.length_replicate _ _) hm hp, firSum_eq_sum,
        interpReference, mul_comm]
      congr 1
      apply Finset.sum_congr rfl
      intro t _
      rw [history_zero x 16 m t hm, Nat.mul_comm t 3]
  refine ⟨r1, outs, p1, l1, l2, by rw [p3]; exact hmain.1,
    fun m p hm hp => by rw [p3]; exact hmain.2 m p hm hp, by decide, rfl, ?_⟩
  intro c delay p hp hc
  rw [firSum_eq_sum, firSum_eq_sum]
  apply Finset.sum_congr rfl
  intro t ht
  rw [hc (p + t * 3) (by have := Finset.mem_range.mp ht; omega)]

/-- C22 witness: the new interpolator given `[1, 2]` and then `[3]`. -/
theorem C22_interpolator_reference_witness :
    ReachedFrom (create 16000 48000 1) (create 16000 48000 1) ∧
    ∃ r1 outs,
      processAll (reset (create 16000 48000 1)) (chunkCalls [[1, 2], [3]]) = some (r1, outs) ∧
      outs.map List.length = ([[1, 2], [3]] : List (List ℚ)).map (fun c => 3 * c.length) ∧
      r1.m_queue = [] :=
  ⟨ReachedFrom.start,
    (C22_interpolator_reference (create 16000 48000 1) ReachedFrom.start [[1, 2], [3]]).imp
      (fun _ hr => hr.imp (fun _ hq => ⟨hq.1, hq.2.1, hq.2.2.1⟩))⟩

/-! ### The linear fallback -/

theorem linearFrame_one (data : List ℚ) {pos : ℚ} (h : 0 ≤ pos) :
    linearFrame data 1 pos = [linearAt data pos] := by
  rw [linearFrame_eq data 1 h]
  simp [List.range_succ, linearAt]

/-- Number of iterations from `pos` to `limit`, one more than from
`pos + step`. -/
theorem ceil_steps {step pos : ℚ} {limit : Int} (hstep : 0 < step) (h : pos < (limit : ℚ)) :
    ⌈((limit : ℚ) - pos) / step⌉.toNat
      = ⌈((limit : ℚ) - (pos + step)) / step⌉.toNat + 1 := by
  have e : ((limit : ℚ) - (pos + step)) / step = ((limit : ℚ) - pos) / step - 1 := by
    field_simp
    ring
  have hpos : 0 < ((limit : ℚ) - pos) / step := div_pos (by linarith) hstep
  have hc : 0 < ⌈((limit : ℚ) - pos) / step⌉ := Int.ceil_pos.mpr hpos
  rw [e, Int.ceil_sub_one]
  omega

/-- The mono linear loop emits the interpolation at `pos`, `pos + step`, ...
as long as the position is below the limit. -/
theorem linearLoop_closed (data : List ℚ) (step : ℚ) (limit : Int) (hstep : 0 < step) :
    ∀ (F : Nat) (pos : ℚ) (r : ℚ × List ℚ), 0 ≤ pos →
      linearLoop data 1 step limit F pos = some r →
      r.2 = (List.range ⌈((limit : ℚ) - pos) / step⌉.toNat).map
        (fun (j : Nat) => linearAt data (pos + (j : ℚ) * step)) := by
  intro F
  induction F with
  | zero =>
    intro pos r _ hr
    by_cases hlt : pos < (limit : ℚ)
    · rw [linearLoop_zero_none _ _ _ _ hlt] at hr; exact absurd hr (by simp)
    · rw [linearLoop_done _ _ _ _ _ hlt] at hr
      rw [← Option.some.inj hr]
      have : ⌈((limit : ℚ) - pos) / step⌉ ≤ 0 :=
        Int.ceil_le.mpr (by
          have : ((limit : ℚ) - pos) / step ≤ 0 :=
            div_nonpos_of_nonpos_of_nonneg (by linarith) hstep.le
          simpa using this)
      rw [Int.toNat_eq_zero.mpr this]
      rfl
  | succ F ih =>
    intro pos r h0 hr
    by_cases hlt : pos < (limit : ℚ)
    · rw [linearLoop_step _ _ _ _ _ hlt, Option.map_eq_some'] at hr
      obtain ⟨r1, h1, h2⟩ := hr
      rw [← h2, ceil_steps hstep hlt, List.range_succ_eq_map, List.map_cons, List.map_map]
      show linearFrame data 1 pos ++ r1.2 = _
      rw [linearFrame_one data h0, ih (pos + step) r1 (by linarith) h1]
      simp only [List.singleton_append, Nat.cast_zero, zero_mul, add_zero]
      congr 1
      apply List.map_congr_left
      intro j _
      simp only [Function.comp, Nat.cast_succ]
      congr 1
      ring
    · rw [linearLoop_done _ _ _ _ _ hlt] at hr
      rw [← Option.some.inj hr]
      have : ⌈((limit : ℚ) - pos) / step⌉ ≤ 0 :=
        Int.ceil_le.mpr (by
          have : ((limit : ℚ) - pos) / step ≤ 0 :=
            div_nonpos_of_nonpos_of_nonneg (by linarith) hstep.le
          simpa using this)
      rw [Int.toNat_eq_zero.mpr this]
      rfl

/-- C23: for a mono linear-mode resampler with positive `inRate` and
`outRate`, started from reset, in exact arithmetic, after a total of `N`
input samples `x` in any chunking every call returns, the total number of
outputs is `N * outRate / inRate` rounded up, and output `j` equals
`z[i] + (z[i+1] - z[i]) * f` where `z` is `x` prefixed by one zero sample,
`i` the integer part and `f` the fraction of `j * inRate / outRate`; every
index read, `i` and `i + 1`, lies inside `z`. -/
theorem C23_linear_reference (inRate outRate : Int) (hi : 0 < inRate) (ho : 0 < outRate)
    (hm : (create inRate outRate 1).m_mode = Mode.Linear) (r : Resampler)
    (h : ReachedFrom (create inRate outRate 1) r) (chunks : List (List ℚ)) :
    ∃ r1 outs, processAll (reset r) (chunkCalls chunks) = some (r1, outs) ∧
      outs.flatten.length
        = ⌈((chunks.flatten.length : ℚ) * (outRate : ℚ)) / (inRate : ℚ)⌉.toNat ∧
      outs.flatten
        = (List.range ⌈((chunks.flatten.length : ℚ) * (outRate : ℚ)) / (inRate : ℚ)⌉.toNat).map
            (linearReference inRate outRate chunks.flatten) ∧
      ∀ j, j < ⌈((chunks.flatten.length : ℚ) * (outRate : ℚ)) / (inRate : ℚ)⌉.toNat →
        ⌊(j : ℚ) * (inRate : ℚ) / (outRate : ℚ)⌋₊ + 1 < (0 :: chunks.flatten).length := by
  rw [reset_reached inRate outRate 1 r h]
  have hwf : Resampler.WF (create inRate outRate 1) := wf_create hi ho 1
  obtain ⟨c1, _, c3⟩ := create_shape inRate outRate 1
  obtain ⟨r1, outs, o, p1, p2, p3⟩ := processAll_flatten chunks (create inRate outRate 1) hwf c3
  generalize chunks.flatten = x at p2 ⊢
  have hiq : (0 : ℚ) < (inRate : ℚ) := by exact_mod_cast hi
  have hoq : (0 : ℚ) < (outRate : ℚ) := by exact_mod_cast ho
  have hstep : (0 : ℚ) < (inRate : ℚ) / (outRate : ℚ) := div_pos hiq hoq
  have hcount : ((x.length : ℚ) * (outRate : ℚ)) / (inRate : ℚ)
      = (((x.length : Int) : ℚ) - 0) / ((inRate : ℚ) / (outRate : ℚ)) := by
    field_simp
  have hlin : (create inRate outRate 1).m_prevSamples = [0] ∧
      (create inRate outRate 1).m_pos = 0 ∧ (create inRate outRate 1).m_inRate = inRate ∧
      (create inRate outRate 1).m_outRate = outRate := by
    revert hm
    unfold create
    split_ifs <;> intro hm <;> first | exact ⟨rfl, rfl, rfl, rfl⟩ | exact absurd hm (by simp)
  obtain ⟨f1, f2, f3, f4⟩ := hlin
  have hmain : o = (List.range ⌈((x.length : ℚ) * (outRate : ℚ)) / (inRate : ℚ)⌉.toNat).map
      (linearReference inRate outRate x) := by
    by_cases hn : x.length = 0
    · rw [process_nonpos _ _ (by omega)] at p2
      obtain ⟨_, rfl⟩ := Prod.mk.inj (Option.some.inj p2)
      rw [hn]
      simp
    · obtain ⟨p, o2, l, s⟩ := processLinear_spec (create inRate outRate 1) x x.length
        (by rw [f1, c3]; rfl) (by rw [c3, Nat.mul_one]) (by rw [f3, f4]; exact hstep)
      rw [process_linear _ hm x _ (Nat.pos_of_ne_zero hn), s] at p2
      obtain ⟨_, rfl⟩ := Prod.mk.inj (Option.some.inj p2)
      rw [f1, f2, f3, f4, c3] at l
      have hc := linearLoop_closed _ _ _ hstep _ _ _ (le_refl _) l
      simp only [] at hc
      rw [hc, hcount]
      apply List.map_congr_left
      intro j _
      simp only [linearReference, linearAt, zero_add, List.singleton_append]
      have e : (j : ℚ) * ((inRate : ℚ) / (outRate : ℚ)) = (j : ℚ) * (inRate : ℚ) / (outRate : ℚ) := by
        ring
      rw [e]
  refine ⟨r1, outs, p1, by rw [p3, hmain]; simp, by rw [p3, hmain], fun j hj => ?_⟩
  have hj' : ((j : Int) : ℚ) < ((x.length : ℚ) * (outRate : ℚ)) / (inRate : ℚ) := by
    have : (j : Int) < ⌈((x.length : ℚ) * (outRate : ℚ)) / (inRate : ℚ)⌉ := by omega
    exact Int.lt_ceil.mp this
  have hpos : (j : ℚ) * (inRate : ℚ) / (outRate : ℚ) < (x.length : ℚ) := by
    rw [div_lt_iff₀ hoq]
    rw [lt_div_iff₀ hiq] at hj'
    exact_mod_cast hj'
  have hfl : ⌊(j : ℚ) * (inRate : ℚ) / (outRate : ℚ)⌋₊ < x.length :=
    (Nat.floor_lt (by positivity)).mpr hpos
  simp only [List.length_cons]
  omega

/-- C23 witness: the new 16000 -> 44100 mono resampler given `[1, 2]` and
then `[3]`. -/
theorem C23_linear_reference_witness :
    ((0 : Int) < 16000 ∧ (0 : Int) < 44100 ∧ (create 16000 44100 1).m_mode = Mode.Linear ∧
      ReachedFrom (create 16000 44100 1) (create 16000 44100 1)) ∧
    ∃ r1 outs,
      processAll (reset (create 16000 44100 1)) (chunkCalls [[1, 2], [3]]) = some (r1, outs) ∧
      outs.flatten.length
        = ⌈(((([[1, 2], [3]] : List (List ℚ)).flatten.length : ℚ)) * ((44100 : Int) : ℚ))
            / ((16000 : Int) : ℚ)⌉.toNat :=
  ⟨⟨by decide, by decide, rfl, ReachedFrom.start⟩,
    (C23_linear_reference 16000 44100 (by decide) (by decide) rfl (create 16000 44100 1)
      ReachedFrom.start [[1, 2], [3]]).imp
      (fun _ hr => hr.imp (fun _ hq => ⟨hq.1, hq.2.1⟩))⟩

end Reference

/-! ## Output bridge: size of the leftover tail -/

section TailBound

open Resampler

/-- What the lambda `writeChunk` returns and how far it advances. -/
theorem writeChunk_fst (f : SampleFormat) (S : Int) (k : Ios.Sink) (src : List ℚ) (count : Int) :
    (0 < min count (S - k.samplesWritten) →
      (Ios.writeChunk f S k src count).1 = min count (S - k.samplesWritten)) ∧
    (min count (S - k.samplesWritten) ≤ 0 → (Ios.writeChunk f S k src count).1 = 0) ∧
    (Ios.writeChunk f S k src count).2.samplesWritten
      = k.samplesWritten + (Ios.writeChunk f S k src count).1 := by
  unfold Ios.writeChunk
  by_cases hw : min count (S - k.samplesWritten) ≤ 0
  · rw [if_pos hw]
    exact ⟨fun h => absurd h (not_lt.mpr hw), fun _ => rfl, (Int.add_zero _).symm⟩
  · rw [if_neg hw]
    exact ⟨fun _ => rfl, fun h => absurd h hw, rfl⟩

/-- The test of step 4 of `readData` that selects the assigning branch. -/
theorem unread_nil_of_test (d : Ios.AudioStreamDevice)
    (hc : d.m_resampleTail.isEmpty = true ∨ d.m_tailPos ≥ d.m_resampleTail.length) :
    Ios.unread d = [] := by
  unfold Ios.unread
  rcases hc with h | h
  · rw [List.isEmpty_iff.mp h, List.drop_nil]
  · exact List.drop_of_length_le h

/-- Step 4 of `readData` on a bridge that passes the test: the surplus
replaces the tail. -/
theorem writeAndStash_unread (d : Ios.AudioStreamDevice) (S : Int) (k : Ios.Sink)
    (final : List ℚ)
    (hc : d.m_resampleTail.isEmpty = true ∨ d.m_tailPos ≥ d.m_resampleTail.length) :
    Ios.unread (Ios.writeAndStash d S k final).device
      = final.drop (Ios.writeChunk d.m_sampleFormat S k final (final.length : Int)).1.toNat ∧
    (Ios.writeAndStash d S k final).device.m_outputSampleRate = d.m_outputSampleRate ∧
    (Ios.writeAndStash d S k final).device.m_outputResampler = d.m_outputResampler ∧
    (Ios.writeAndStash d S k final).produced = final ∧
    ((Ios.writeAndStash d S k final).device.m_resampleTail = d.m_resampleTail ∨
      (Ios.writeAndStash d S k final).device.m_resampleTail
        = final.drop (Ios.writeChunk d.m_sampleFormat S k final (final.length : Int)).1.toNat) := by
  have hu := unread_nil_of_test d hc
  obtain ⟨w1, w2, _⟩ := writeChunk_fst d.m_sampleFormat S k final (final.length : Int)
  unfold Ios.writeAndStash
  simp only []
  by_cases hlt : (Ios.writeChunk d.m_sampleFormat S k final (final.length : Int)).1
      < (final.length : Int)
  · rw [if_pos hlt, if_pos hc]
    exact ⟨rfl, rfl, rfl, trivial, Or.inr rfl⟩
  · rw [if_neg hlt]
    refine ⟨?_, rfl, rfl, trivial, Or.inl rfl⟩
    rw [hu]
    symm
    apply List.drop_of_length_le
    have h0 : (0 : Int) ≤ (final.length : Int) := Int.natCast_nonneg _
    omega

theorem ios_readSamples_length (b : AudioJitterBuffer ℚ) (n : Int) :
    (Ios.readSamples b n).2.length = n.toNat := by
  rw [ios_readSamples_eq]; exact android_readSamples_length b n

/-- Output of `process` on an interpolator with an empty queue. -/
theorem process_interp_length (r : Resampler) (h : ReachedFrom (create 16000 48000 1) r)
    (x : List ℚ) :
    ∃ r1 o, process r x (x.length : Int) = some (r1, o) ∧ o.length = 3 * x.length ∧
      ReachedFrom (create 16000 48000 1) r1 := by
  obtain ⟨hwf, hc, _, _, hnd, hint⟩ := bridge_resampler_inv (by decide) h
  obtain ⟨a1, _⟩ := reached_shape 16000 48000 1 r h
  have hm : r.m_mode = Mode.Interp16To48 := a1
  obtain ⟨r1, o, hp, _, _⟩ := process_total r hwf x x.length (by rw [hc, Nat.mul_one])
  refine ⟨r1, o, hp, ?_, ReachedFrom.step x _ o h hp⟩
  by_cases hn : x.length = 0
  · rw [process_nonpos r x (by omega)] at hp
    obtain ⟨_, rfl⟩ := Prod.mk.inj (Option.some.inj hp)
    rw [hn]; rfl
  · rw [process_interp r hm x _ (Nat.pos_of_ne_zero hn) rfl] at hp
    obtain ⟨_, rfl⟩ := Prod.mk.inj (Option.some.inj hp)
    rw [interpLoop_length, (hint hm).2, List.nil_append]

/-- The number of samples read for `R` remaining output samples at 48000 Hz,
as integers: `v` is the wrapped `R * 16000 + 47999`, `q` its quotient by
48000 and `T = max 1 q + 16`. -/
theorem tail_read (R v q T : Int) (hR : 0 < R) (v1 : -2147483648 ≤ v) (v2 : v < 2147483648)
    (hv : R * 16000 + 47999 < 2147483648 → v = R * 16000 + 47999)
    (hq1 : 0 ≤ v → q = v / 48000) (hq2 : v ≤ 0 → q ≤ 0) (hT : T = max 1 q + 16) :
    17 ≤ T ∧ T ≤ 44755 ∧ (R ≤ 134214 → T = (R + 2) / 3 + 16) := by
  by_cases h0 : 0 ≤ v
  · have e := hq1 h0
    refine ⟨by omega, by omega, fun hs => ?_⟩
    have e2 := hv (by omega)
    omega
  · have e := hq2 (by omega)
    refine ⟨by omega, by omega, fun hs => ?_⟩
    have e2 := hv (by omega)
    omega

/-- The samples left over when `3 * t` samples are produced for `R` remaining
output samples. -/
theorem tail_left (R T : Int) (t : Nat) (ht : (t : Int) = T) (hR : 0 < R) (h17 : 17 ≤ T)
    (h2 : T ≤ 44755) (h3 : R ≤ 134214 → T = (R + 2) / 3 + 16) :
    0 < min ((3 * t : Nat) : Int) R ∧
    3 * t - (min ((3 * t : Nat) : Int) R).toNat ≤ 50 ∧
    (R ≤ 134214 → 48 ≤ 3 * t - (min ((3 * t : Nat) : Int) R).toNat) := by
  refine ⟨by omega, by omega, fun hs => ?_⟩
  have e := h3 hs
  omega

/-- Steps 2 to 4 of `readData` with the 16000 to 48000 interpolator, on a
bridge that passes the test of step 4, when the sink still has room: the call
returns, reads `T` samples, produces `3 * T` and leaves what the sink does not
take as the tail. -/
theorem produceMore_interp (d : Ios.AudioStreamDevice) (hrate : d.m_outputSampleRate = 48000)
    (r : Resampler) (hres : d.m_outputResampler = some r)
    (hr : ReachedFrom (create 16000 48000 1) r)
    (hc : d.m_resampleTail.isEmpty = true ∨ d.m_tailPos ≥ d.m_resampleTail.length)
    (S : Int) (k : Ios.Sink) (hrem : k.samplesWritten < S) :
    ∃ res, Ios.produceMore d S k = some res ∧
      res.produced.length
        = 3 * (max 1 (cdiv (toInt ((S - k.samplesWritten) * 16000 + (48000 - 1))) 48000)
            + 16).toNat ∧
      (Ios.unread res.device).length
        = 3 * (max 1 (cdiv (toInt ((S - k.samplesWritten) * 16000 + (48000 - 1))) 48000)
            + 16).toNat
          - (min ((3 * (max 1 (cdiv (toInt ((S - k.samplesWritten) * 16000 + (48000 - 1)))
              48000) + 16).toNat : Nat) : Int) (S - k.samplesWritten)).toNat ∧
      (Ios.unread res.device).length ≤ 50 ∧
      (S - k.samplesWritten ≤ 134214 → 48 ≤ (Ios.unread res.device).length) ∧
      res.produced ≠ [] ∧
      res.device.m_outputSampleRate = 48000 ∧
      res.device.m_sampleFormat = d.m_sampleFormat ∧
      (∃ r1, res.device.m_outputResampler = some r1 ∧
        ReachedFrom (create 16000 48000 1) r1) := by
  obtain ⟨jb, rs, rate, fmt, tail, pos⟩ := d
  dsimp only at hrate hres hc
  subst hrate
  subst hres
  have hR : ¬ (S - k.samplesWritten ≤ 0) := by omega
  obtain ⟨t1, t2, t3⟩ := tail_read (S - k.samplesWritten)
    (toInt ((S - k.samplesWritten) * 16000 + (48000 - 1)))
    (cdiv (toInt ((S - k.samplesWritten) * 16000 + (48000 - 1))) 48000)
    (max 1 (cdiv (toInt ((S - k.samplesWritten) * 16000 + (48000 - 1))) 48000) + 16)
    (by omega) (toInt_range _).1 (toInt_range _).2
    (fun hlt => toInt_of_range
      (le_trans (by decide) (Int.add_nonneg (Int.mul_nonneg (by omega) (by decide))
        (by decide))) hlt)
    (fun h0 => Int.tdiv_eq_ediv h0 (by decide))
    (fun h0 => ((cdiv_bounds _ 48000 (by decide)).2 h0).1) rfl
  obtain ⟨T, hTe⟩ : ∃ T,
      max 1 (cdiv (toInt ((S - k.samplesWritten) * 16000 + (48000 - 1))) 48000) + 16 = T :=
    ⟨_, rfl⟩
  rw [hTe] at t1 t2 t3 ⊢
  obtain ⟨l1, l2, l3⟩ := tail_left (S - k.samplesWritten) T T.toNat
    (Int.toNat_of_nonneg (le_trans (by decide) t1)) (by omega) t1 t2 t3
  obtain ⟨r1, o, hp, hlen, hr1⟩ := process_interp_length r hr (Ios.readSamples jb T).2
  have hrd := ios_readSamples_length jb T
  rw [hrd] at hlen
  have hc1 : (tail.isEmpty = true ∨ pos ≥ tail.length) := hc
  obtain ⟨u1, u2, u3, u4, _⟩ := writeAndStash_unread
    { m_jitterBuffer := (Ios.readSamples jb T).1,
      m_outputResampler := some r1, m_outputSampleRate := 48000, m_sampleFormat := fmt,
      m_resampleTail := tail, m_tailPos := pos } S k o hc1
  obtain ⟨w1, _, _⟩ := writeChunk_fst fmt S k o (o.length : Int)
  rw [hlen] at w1
  have hw := w1 l1
  have hul : (Ios.unread (Ios.writeAndStash
      { m_jitterBuffer := (Ios.readSamples jb T).1,
        m_outputResampler := some r1, m_outputSampleRate := 48000, m_sampleFormat := fmt,
        m_resampleTail := tail, m_tailPos := pos } S k o).device).length
      = 3 * T.toNat - (min ((3 * T.toNat : Nat) : Int) (S - k.samplesWritten)).toNat := by
    rw [u1, List.length_drop]
    dsimp only
    rw [hlen, hw]
  have hfmt : (Ios.writeAndStash
      { m_jitterBuffer := (Ios.readSamples jb T).1,
        m_outputResampler := some r1, m_outputSampleRate := 48000, m_sampleFormat := fmt,
        m_resampleTail := tail, m_tailPos := pos } S k o).device.m_sampleFormat = fmt := by
    unfold Ios.writeAndStash
    dsimp only
    split_ifs <;> rfl
  refine ⟨_, ?_, ?_, hul, ?_, ?_, ?_, u2, hfmt, ⟨r1, u3, hr1⟩⟩
  · simp only [Ios.produceMore, if_neg hR, hTe, hp]
  · rw [u4]; exact hlen
  · rw [hul]; exact l2
  · intro hs; rw [hul]; exact l3 hs
  · rw [u4]
    intro ho
    rw [ho] at hlen
    have h17 : 17 ≤ T.toNat := by
      have := Int.toNat_of_nonneg (le_trans (by decide : (0 : Int) ≤ 17) t1)
      omega
    simp only [List.length_nil] at hlen
    omega

/-- A `readData` call on a bridge with an empty tail goes straight to
steps 2 to 4. -/
theorem readData_fresh (jb : AudioJitterBuffer ℚ) (rs : Option Resampler) (rate : Int)
    (fmt : SampleFormat) (maxSize : Int) (h0 : 0 < maxSize)
    (hS : 0 < toInt (cdiv maxSize (bytesPerSample fmt))) :
    Ios.readData ⟨jb, rs, rate, fmt, [], 0⟩ maxSize
      = Ios.produceMore ⟨jb, rs, rate, fmt, [], 0⟩ (toInt (cdiv maxSize (bytesPerSample fmt)))
          { samplesWritten := 0, bytesWritten := 0, data := [] } := by
  have h1 : ¬ maxSize ≤ 0 := not_le.mpr h0
  have h2 : ¬ toInt (cdiv maxSize (bytesPerSample fmt)) ≤ 0 := not_le.mpr hS
  have h3 : ¬ ((([] : List ℚ).length : Int) - ((0 : Nat) : Int) > 0) := by decide
  simp only [Ios.readData, if_neg h1, if_neg h2, if_neg h3]

/-- Steps 2 to 4 of `readData` without a resampler: nothing is stashed. -/
theorem produceMore_plain (d : Ios.AudioStreamDevice) (hres : d.m_outputResampler = none)
    (S : Int) (k : Ios.Sink) :
    ∃ res, Ios.produceMore d S k = some res ∧
      res.device.m_outputResampler = none ∧
      res.device.m_resampleTail = d.m_resampleTail := by
  obtain ⟨jb, rs, rate, fmt, tail, pos⟩ := d
  dsimp only at hres
  subst hres
  by_cases hR : S - k.samplesWritten ≤ 0
  · exact ⟨⟨⟨jb, none, rate, fmt, tail, pos⟩, k.bytesWritten, k.data, []⟩,
      by simp only [Ios.produceMore, if_pos hR], rfl, rfl⟩
  · refine ⟨Ios.writeAndStash ⟨(Ios.readSamples jb (S - k.samplesWritten)).1, none, rate, fmt,
        tail, pos⟩ S k (Ios.readSamples jb (S - k.samplesWritten)).2,
      by simp only [Ios.produceMore, if_neg hR], ?_⟩
    have hrd := ios_readSamples_length jb (S - k.samplesWritten)
    obtain ⟨w1, _, _⟩ := writeChunk_fst fmt S k (Ios.readSamples jb (S - k.samplesWritten)).2
      ((Ios.readSamples jb (S - k.samplesWritten)).2.length : Int)
    have hl : (((Ios.readSamples jb (S - k.samplesWritten)).2.length : Nat) : Int)
        = S - k.samplesWritten := by
      rw [hrd]; omega
    have hw := w1 (by rw [hl]; omega)
    have hnot : ¬ ((Ios.writeChunk fmt S k (Ios.readSamples jb (S - k.samplesWritten)).2
        ((Ios.readSamples jb (S - k.samplesWritten)).2.length : Int)).1
        < ((Ios.readSamples jb (S - k.samplesWritten)).2.length : Int)) := by
      rw [hw]; omega
    unfold Ios.writeAndStash
    dsimp only
    rw [if_neg hnot]
    exact ⟨rfl, rfl⟩

/-- Step 4 of `readData` is reached only through the test that selects its
assigning branch. -/
theorem produceMore_step4 (d : Ios.AudioStreamDevice)
    (hc : d.m_resampleTail.isEmpty = true ∨ d.m_tailPos ≥ d.m_resampleTail.length)
    (S : Int) (k : Ios.Sink) (res : Ios.ReadResult)
    (h : Ios.produceMore d S k = some res) (hp : res.produced ≠ []) :
    ∃ d1 : Ios.AudioStreamDevice,
      (d1.m_resampleTail.isEmpty = true ∨ d1.m_tailPos ≥ d1.m_resampleTail.length) ∧
      res = Ios.writeAndStash d1 S k res.produced := by
  obtain ⟨jb, rs, rate, fmt, tail, pos⟩ := d
  have hc1 : (tail.isEmpty = true ∨ pos ≥ tail.length) := hc
  by_cases hR : S - k.samplesWritten ≤ 0
  · simp only [Ios.produceMore, if_pos hR] at h
    rw [← Option.some.inj h] at hp
    exact absurd rfl hp
  · cases rs with
    | none =>
      simp only [Ios.produceMore, if_neg hR] at h
      refine ⟨⟨(Ios.readSamples jb (S - k.samplesWritten)).1, none, rate, fmt, tail, pos⟩,
        hc1, ?_⟩
      rw [← Option.some.inj h]
      rfl
    | some r =>
      simp only [Ios.produceMore, if_neg hR] at h
      cases hpr : process r
          (Ios.readSamples jb (max 1 (cdiv (toInt ((S - k.samplesWritten) * 16000 + (rate - 1))) rate)
            + 16)).2
          ((Ios.readSamples jb (max 1 (cdiv (toInt ((S - k.samplesWritten) * 16000 + (rate - 1))) rate)
            + 16)).2.length : Int) with
      | none => rw [hpr] at h; exact absurd h (by simp)
      | some q =>
        obtain ⟨r1, o⟩ := q
        rw [hpr] at h
        refine ⟨⟨(Ios.readSamples jb
            (max 1 (cdiv (toInt ((S - k.samplesWritten) * 16000 + (rate - 1))) rate) + 16)).1,
          some r1, rate, fmt, tail, pos⟩, hc1, ?_⟩
        rw [← Option.some.inj h]
        rfl

/-- How `readData` ends: before step 2 with nothing produced, or in
`produceMore` on a bridge that passes the test of step 4 while the sink
still has room. -/
theorem readData_shape (d : Ios.AudioStreamDevice) (maxSize : Int) :
    (∃ res, Ios.readData d maxSize = some res ∧ res.produced = [] ∧
      res.device.m_outputSampleRate = d.m_outputSampleRate ∧
      res.device.m_outputResampler = d.m_outputResampler ∧
      res.device.m_sampleFormat = d.m_sampleFormat ∧
      (Ios.unread res.device).length ≤ (Ios.unread d).length ∧
      (d.m_resampleTail = [] → res.device.m_resampleTail = [])) ∨
    (∃ (S : Int) (k : Ios.Sink) (d1 : Ios.AudioStreamDevice),
      Ios.readData d maxSize = Ios.produceMore d1 S k ∧
      (d1.m_resampleTail.isEmpty = true ∨ d1.m_tailPos ≥ d1.m_resampleTail.length) ∧
      k.samplesWritten < S ∧ 0 ≤ k.samplesWritten ∧
      S = toInt (cdiv maxSize (bytesPerSample d.m_sampleFormat)) ∧ 0 < maxSize ∧
      d1.m_outputSampleRate = d.m_outputSampleRate ∧
      d1.m_outputResampler = d.m_outputResampler ∧
      d1.m_sampleFormat = d.m_sampleFormat ∧
      (d.m_resampleTail = [] → d1.m_resampleTail = [])) := by
  obtain ⟨jb, rs, rate, fmt, tail, pos⟩ := d
  by_cases h0 : maxSize ≤ 0
  · exact Or.inl ⟨⟨⟨jb, rs, rate, fmt, tail, pos⟩, 0, [], []⟩,
      by simp only [Ios.readData, if_pos h0], rfl, rfl, rfl, rfl, le_refl _, fun h => h⟩
  by_cases hS : toInt (cdiv maxSize (bytesPerSample fmt)) ≤ 0
  · exact Or.inl ⟨⟨⟨jb, rs, rate, fmt, tail, pos⟩, 0, [], []⟩,
      by simp only [Ios.readData, if_neg h0, if_pos hS], rfl, rfl, rfl, rfl, le_refl _,
      fun h => h⟩
  by_cases ht : (tail.length : Int) - (pos : Int) > 0
  · obtain ⟨w1, w2, w3⟩ := writeChunk_fst fmt (toInt (cdiv maxSize (bytesPerSample fmt)))
      { samplesWritten := 0, bytesWritten := 0, data := [] } (tail.drop pos)
      ((tail.length : Int) - (pos : Int))
    dsimp only at w1 w2 w3
    obtain ⟨u, hu⟩ : ∃ u, (Ios.writeChunk fmt (toInt (cdiv maxSize (bytesPerSample fmt)))
      { samplesWritten := 0, bytesWritten := 0, data := [] } (tail.drop pos)
      ((tail.length : Int) - (pos : Int))) = u := ⟨_, rfl⟩
    rw [hu] at w1 w2 w3
    have hmin : 0 < min ((tail.length : Int) - (pos : Int))
        (toInt (cdiv maxSize (bytesPerSample fmt)) - 0) := by
      rw [Int.sub_zero]; exact lt_min ht (not_le.mp hS)
    have hu1 := w1 hmin
    have hu0 : 0 ≤ u.2.samplesWritten := by
      rw [w3, hu1, Int.zero_add]; exact hmin.le
    by_cases hfull : u.2.samplesWritten ≥ toInt (cdiv maxSize (bytesPerSample fmt))
    · left
      by_cases hpos : pos + u.1.toNat ≥ tail.length
      · refine ⟨⟨⟨jb, rs, rate, fmt, [], 0⟩, u.2.bytesWritten, u.2.data, []⟩, ?_,
          rfl, rfl, rfl, rfl, Nat.zero_le _, fun _ => rfl⟩
        simp only [Ios.readData, if_neg h0, if_neg hS, if_pos ht, hu, if_pos hfull, if_pos hpos]
      · refine ⟨⟨⟨jb, rs, rate, fmt, tail, pos + u.1.toNat⟩, u.2.bytesWritten, u.2.data, []⟩,
          ?_, rfl, rfl, rfl, rfl, ?_, fun h => h⟩
        · simp only [Ios.readData, if_neg h0, if_neg hS, if_pos ht, hu, if_pos hfull,
            if_neg hpos]
        · simp only [Ios.unread, List.length_drop]
          omega
    · right
      have hpos : pos + u.1.toNat ≥ tail.length := by
        rw [hu1]; omega
      refine ⟨toInt (cdiv maxSize (bytesPerSample fmt)), u.2, ⟨jb, rs, rate, fmt, [], 0⟩, ?_,
        Or.inl rfl, not_le.mp hfull, hu0, rfl, not_le.mp h0, rfl, rfl, rfl, fun _ => rfl⟩
      simp only [Ios.readData, if_neg h0, if_neg hS, if_pos ht, hu, if_neg hfull, if_pos hpos]
  · right
    refine ⟨toInt (cdiv maxSize (bytesPerSample fmt)),
      { samplesWritten := 0, bytesWritten := 0, data := [] },
      ⟨jb, rs, rate, fmt, tail, pos⟩, ?_, Or.inr ?_, not_le.mp hS, le_refl _, rfl,
      not_le.mp h0, rfl, rfl, rfl, fun h => h⟩
    · simp only [Ios.readData, if_neg h0, if_neg hS, if_neg ht]
    · show pos ≥ tail.length
      omega

/-- A sink asking for at most `134214` samples: `samplesSinkCanHold` is at
most `134214`. -/
theorem sink_small (maxSize bps : Int) (hb : bps = 2 ∨ bps = 4) (h0 : 0 < maxSize)
    (h : maxSize ≤ 134214 * bps) : toInt (cdiv maxSize bps) ≤ 134214 := by
  have hb0 : 0 ≤ bps := by rcases hb with e | e <;> rw [e] <;> decide
  rw [cdiv, Int.tdiv_eq_ediv h0.le hb0]
  unfold toInt
  rcases hb with e | e <;> subst e <;> omega

/-- One `readData` call with the 16000 to 48000 interpolator. -/
theorem readData_interp (d : Ios.AudioStreamDevice) (hrate : d.m_outputSampleRate = 48000)
    (hres : ∃ r, d.m_outputResampler = some r ∧ ReachedFrom (create 16000 48000 1) r)
    (maxSize : Int) :
    ∃ res, Ios.readData d maxSize = some res ∧
      res.device.m_outputSampleRate = 48000 ∧
      res.device.m_sampleFormat = d.m_sampleFormat ∧
      (∃ r1, res.device.m_outputResampler = some r1 ∧
        ReachedFrom (create 16000 48000 1) r1) ∧
      ((res.produced = [] ∧ (Ios.unread res.device).length ≤ (Ios.unread d).length) ∨
        (res.produced ≠ [] ∧ (Ios.unread res.device).length ≤ 50 ∧
          (maxSize ≤ 134214 * bytesPerSample d.m_sampleFormat →
            48 ≤ (Ios.unread res.device).length))) := by
  rcases readData_shape d maxSize with ⟨res, h, hp, e1, e2, e5, e3, _⟩ |
    ⟨S, k, d1, h, hc, hk, hk0, hS, hm, e1, e2, e5, _⟩
  · exact ⟨res, h, e1.trans hrate, e5, by rw [e2]; exact hres, Or.inl ⟨hp, e3⟩⟩
  · obtain ⟨r, hr1, hr2⟩ := hres
    obtain ⟨res, g, _, _, a1, a2, a3, a4, a6, a5⟩ :=
      produceMore_interp d1 (e1.trans hrate) r (e2.trans hr1) hr2 hc S k hk
    refine ⟨res, h.trans g, a4, a6.trans e5, a5, Or.inr ⟨a3, a1, fun hs => a2 ?_⟩⟩
    have hsmall := sink_small maxSize (bytesPerSample d.m_sampleFormat)
      (bytesPerSample_cases _) hm hs
    rw [← hS] at hsmall
    omega

/-- One `readData` call without a resampler, from an empty tail. -/
theorem readData_plain (d : Ios.AudioStreamDevice) (hres : d.m_outputResampler = none)
    (ht : d.m_resampleTail = []) (maxSize : Int) :
    ∃ res, Ios.readData d maxSize = some res ∧ res.device.m_outputResampler = none ∧
      res.device.m_resampleTail = [] := by
  rcases readData_shape d maxSize with ⟨res, h, _, _, e2, _, _, e4⟩ |
    ⟨S, k, d1, h, _, _, _, _, _, _, e2, _, e4⟩
  · exact ⟨res, h, e2.trans hres, e4 ht⟩
  · obtain ⟨res, g, a1, a2⟩ := produceMore_plain d1 (e2.trans hres) S k
    exact ⟨res, h.trans g, a1, a2.trans (e4 ht)⟩

/-- Every `readData` call that reaches step 4 with produced samples runs it
on a bridge that passes the test selecting the assigning branch. -/
theorem readData_step4 (d : Ios.AudioStreamDevice) (maxSize : Int) (res : Ios.ReadResult)
    (h : Ios.readData d maxSize = some res) (hp : res.produced ≠ []) :
    ∃ (d1 : Ios.AudioStreamDevice) (S : Int) (k : Ios.Sink),
      (d1.m_resampleTail.isEmpty = true ∨ d1.m_tailPos ≥ d1.m_resampleTail.length) ∧
      res = Ios.writeAndStash d1 S k res.produced := by
  rcases readData_shape d maxSize with ⟨res1, h1, hp1, _⟩ | ⟨S, k, d1, h1, hc, _⟩
  · rw [h] at h1
    rw [Option.some.inj h1] at hp
    exact absurd hp1 hp
  · obtain ⟨d2, c2, e2⟩ := produceMore_step4 d1 hc S k res (h1.symm.trans h) hp
    exact ⟨d2, S, k, c2, e2⟩

theorem runBridge_interp (es : List Ios.BridgeEvent) : ∀ d : Ios.AudioStreamDevice,
    d.m_outputSampleRate = 48000 →
    (∃ r, d.m_outputResampler = some r ∧ ReachedFrom (create 16000 48000 1) r) →
    (Ios.unread d).length ≤ 50 →
    ∃ d2 delivered produced, Ios.runBridge d es = some (d2, delivered, produced) ∧
      d2.m_outputSampleRate = 48000 ∧
      (∃ r, d2.m_outputResampler = some r ∧ ReachedFrom (create 16000 48000 1) r) ∧
      (Ios.unread d2).length ≤ 50 := by
  induction es with
  | nil => intro d h1 h2 h3; exact ⟨d, [], [], rfl, h1, h2, h3⟩
  | cons e es ih =>
    intro d h1 h2 h3
    cases e with
    | read maxSize =>
      obtain ⟨res, g, a1, _, a2, a3⟩ := readData_interp d h1 h2 maxSize
      have a4 : (Ios.unread res.device).length ≤ 50 := by
        rcases a3 with ⟨_, q⟩ | ⟨_, q, _⟩
        · exact le_trans q h3
        · exact q
      obtain ⟨d2, delivered, produced, g2, b⟩ := ih res.device a1 a2 a4
      exact ⟨d2, res.stored ++ delivered, res.produced ++ produced,
        by simp only [Ios.runBridge, g, g2], b⟩
    | write samples =>
      obtain ⟨d2, delivered, produced, g2, b⟩ :=
        ih { d with m_jitterBuffer := Ios.writeSamples d.m_jitterBuffer samples } h1 h2 h3
      exact ⟨d2, delivered, produced, by simp only [Ios.runBridge, g2], b⟩

theorem runBridge_plain (es : List Ios.BridgeEvent) : ∀ d : Ios.AudioStreamDevice,
    d.m_outputResampler = none → d.m_resampleTail = [] →
    ∃ d2 delivered produced, Ios.runBridge d es = some (d2, delivered, produced) ∧
      d2.m_outputResampler = none ∧ d2.m_resampleTail = [] := by
  induction es with
  | nil => intro d h1 h2; exact ⟨d, [], [], rfl, h1, h2⟩
  | cons e es ih =>
    intro d h1 h2
    cases e with
    | read maxSize =>
      obtain ⟨res, g, a1, a2⟩ := readData_plain d h1 h2 maxSize
      obtain ⟨d2, delivered, produced, g2, b⟩ := ih res.device a1 a2
      exact ⟨d2, res.stored ++ delivered, res.produced ++ produced,
        by simp only [Ios.runBridge, g, g2], b⟩
    | write samples =>
      obtain ⟨d2, delivered, produced, g2, b⟩ :=
        ih { d with m_jitterBuffer := Ios.writeSamples d.m_jitterBuffer samples } h1 h2
      exact ⟨d2, delivered, produced, by simp only [Ios.runBridge, g2], b⟩

/-- C30 (amended): in the tail-keeping bridge used from one thread, with the
16000 to 48000 interpolator and an unread tail of at most 50 samples (a new
bridge has none), every series of `readData` calls and jitter-buffer writes
returns and leaves at most 50 unread samples, and so does one more `readData`
call, which leaves 48, 49 or 50 whenever it produced samples and the sink
asked for at most `134214` samples (`maxSize ≤ 134214 * bytesPerSample`, the
range in which the `int` sum `remainingOut * 16000 + 47999` does not
overflow); on any bridge `x`, a call that produced samples ran step 4 on a
state passing the test
`m_resampleTail.empty() || m_tailPos >= m_resampleTail.size()`, so the
appending branch was not taken; and a bridge `p` without a resampler whose
tail is empty keeps it empty. -/
theorem C30_tail_bounded (d : Ios.AudioStreamDevice) (hrate : d.m_outputSampleRate = 48000)
    (hres : ∃ r, d.m_outputResampler = some r ∧ ReachedFrom (create 16000 48000 1) r)
    (h50 : (Ios.unread d).length ≤ 50)
    (p : Ios.AudioStreamDevice) (hp : p.m_outputResampler = none)
    (hpt : p.m_resampleTail = [])
    (x : Ios.AudioStreamDevice) (es : List Ios.BridgeEvent) (maxSize : Int) :
    (∃ d2 delivered produced, Ios.runBridge d es = some (d2, delivered, produced) ∧
      (Ios.unread d2).length ≤ 50 ∧
      ∃ res, Ios.readData d2 maxSize = some res ∧
        (Ios.unread res.device).length ≤ 50 ∧
        (res.produced ≠ [] → maxSize ≤ 134214 * bytesPerSample d2.m_sampleFormat →
          48 ≤ (Ios.unread res.device).length ∧ (Ios.unread res.device).length ≤ 50)) ∧
    (∀ res, Ios.readData x maxSize = some res → res.produced ≠ [] →
      ∃ (d1 : Ios.AudioStreamDevice) (S : Int) (k : Ios.Sink),
        (d1.m_resampleTail.isEmpty = true ∨ d1.m_tailPos ≥ d1.m_resampleTail.length) ∧
        res = Ios.writeAndStash d1 S k res.produced) ∧
    (∃ p2 delivered produced, Ios.runBridge p es = some (p2, delivered, produced) ∧
      p2.m_resampleTail = [] ∧ Ios.unread p2 = []) := by
  refine ⟨?_, fun res h hne => readData_step4 x maxSize res h hne, ?_⟩
  · obtain ⟨d2, delivered, produced, g, a1, a2, a3⟩ := runBridge_interp es d hrate hres h50
    obtain ⟨res, g1, _, _, _, b⟩ := readData_interp d2 a1 a2 maxSize
    refine ⟨d2, delivered, produced, g, a3, res, g1, ?_, ?_⟩
    · rcases b with ⟨_, q⟩ | ⟨_, q, _⟩
      · exact le_trans q a3
      · exact q
    · intro hne hs
      rcases b with ⟨q, _⟩ | ⟨_, q1, q2⟩
      · exact absurd q hne
      · exact ⟨q2 hs, q1⟩
  · obtain ⟨p2, delivered, produced, g, _, a⟩ := runBridge_plain es p hp hpt
    refine ⟨p2, delivered, produced, g, a, ?_⟩
    unfold Ios.unread
    rw [a, List.drop_nil]

/-- C30 witness: new bridges with the Int16 format, one with the
interpolator and one without a resampler, each over a jitter buffer of
capacity 64; three samples arrive, the sink asks for 4 and for 20 bytes, and
then for 6 bytes. -/
theorem C30_tail_bounded_witness :
    ((48000 : Int) = 48000 ∧
      (∃ r, some (create 16000 48000 1) = some r ∧ ReachedFrom (create 16000 48000 1) r) ∧
      (Ios.unread ⟨new 64, some (create 16000 48000 1), 48000, SampleFormat.Int16, [], 0⟩).length
        ≤ 50 ∧
      (none : Option Resampler) = none ∧ ([] : List ℚ) = []) ∧
    (∃ d2 delivered produced,
      Ios.runBridge ⟨new 64, some (create 16000 48000 1), 48000, SampleFormat.Int16, [], 0⟩
        [Ios.BridgeEvent.write [1 / 2, 1 / 4, 1 / 8], Ios.BridgeEvent.read 4,
          Ios.BridgeEvent.read 20] = some (d2, delivered, produced) ∧
      (Ios.unread d2).length ≤ 50 ∧
      ∃ res, Ios.readData d2 6 = some res ∧
        (Ios.unread res.device).length ≤ 50 ∧
        (res.produced ≠ [] → 6 ≤ 134214 * bytesPerSample d2.m_sampleFormat →
          48 ≤ (Ios.unread res.device).length ∧ (Ios.unread res.device).length ≤ 50)) ∧
    (∀ res,
      Ios.readData ⟨new 64, some (create 16000 48000 1), 48000, SampleFormat.Int16, [], 0⟩ 6
        = some res → res.produced ≠ [] →
      ∃ (d1 : Ios.AudioStreamDevice) (S : Int) (k : Ios.Sink),
        (d1.m_resampleTail.isEmpty = true ∨ d1.m_tailPos ≥ d1.m_resampleTail.length) ∧
        res = Ios.writeAndStash d1 S k res.produced) ∧
    (∃ p2 delivered produced,
      Ios.runBridge ⟨new 64, none, 16000, SampleFormat.Int16, [], 0⟩
        [Ios.BridgeEvent.write [1 / 2, 1 / 4, 1 / 8], Ios.BridgeEvent.read 4,
          Ios.BridgeEvent.read 20] = some (p2, delivered, produced) ∧
      p2.m_resampleTail = [] ∧ Ios.unread p2 = []) :=
  ⟨⟨rfl, ⟨_, rfl, ReachedFrom.start⟩, Nat.zero_le _, rfl, rfl⟩,
    C30_tail_bounded
      ⟨new 64, some (create 16000 48000 1), 48000, SampleFormat.Int16, [], 0⟩ rfl
      ⟨_, rfl, ReachedFrom.start⟩ (Nat.zero_le _)
      ⟨new 64, none, 16000, SampleFormat.Int16, [], 0⟩ rfl rfl
      ⟨new 64, some (create 16000 48000 1), 48000, SampleFormat.Int16, [], 0⟩
      [Ios.BridgeEvent.write [1 / 2, 1 / 4, 1 / 8], Ios.BridgeEvent.read 4,
        Ios.BridgeEvent.read 20] 6⟩

/-- C30 as stated fails: a new Int16 bridge with the interpolator is asked for
268430 bytes, that is 134215 samples; the `int` sum `134215 * 16000 + 47999`
wraps to a negative value, so 17 samples are read and 51 produced, the sink
takes them all, and this producing call leaves no tail instead of 48, 49
or 50 samples. -/
theorem C30_counterexample :
    (Ios.readData ⟨new 64, some (create 16000 48000 1), 48000, SampleFormat.Int16, [], 0⟩
      268430).map (fun res => (res.produced.length, (Ios.unread res.device).length))
      = some (51, 0) := by
  obtain ⟨res, g, a1, a2, _⟩ := produceMore_interp
    ⟨new 64, some (create 16000 48000 1), 48000, SampleFormat.Int16, [], 0⟩ rfl
    (create 16000 48000 1) rfl ReachedFrom.start (Or.inl rfl)
    (toInt (cdiv 268430 (bytesPerSample SampleFormat.Int16)))
    { samplesWritten := 0, bytesWritten := 0, data := [] } (by decide)
  rw [readData_fresh (new 64) (some (create 16000 48000 1)) 48000 SampleFormat.Int16 268430
    (by decide) (by decide), g]
  have e1 : res.produced.length = 51 := a1.trans (by decide)
  have e2 : (Ios.unread res.device).length = 0 := a2.trans (by decide)
  simp only [Option.map, e1, e2]

end TailBound

end Latry
